import Mathlib

/-!
# puny: the collection engine of `lib/Collection-base.js`

A shallow embedding of the storage-and-query engine (`Collection.prototype.*` in
`lib/Collection-base.js`) and the properties of it that are checked here.

Conventions of the embedding:
* JavaScript values that occur in documents are the inductive type `Value`; numbers are
  integers (floating point is outside the embedding);
* mutable collection state is a record `Collection` that every operation takes and returns;
* a callback that receives an error, and a `throw`, are an `Outcome`/`Except` result;
* a plain object used as a map (`self._idx`, `self._store`) is an association list in
  enumeration order; reading a property off it that it inherits from `Object.prototype` is
  modelled where the code does so with a name that comes from the caller;
* lodash's `_.each` walks the elements of an array and the own properties of an object,
  except that it walks an object with a numeric `length` property like an array, by the
  indices below that length (`eachLength`, `visited`);
* a write to an object is a new value of that object; where it matters which object a write
  goes to (the caller's `query` and `doc`, a copy, the stored document), the objects that a
  task holds are kept apart by reference (`Ref`, `Objs`);
* the operations are the tasks that the methods queue, run one after the other; the state of
  the task queue enters only as the flag of `ensureIndex` that no operation is pending;
* the modules that `Collection-base.js` requires but that are not part of the sources at hand
  (`tindex`, `Finder`, `utils`, `updater`, `Cursor`, `Collection-storage`, and the database
  object with its `_cloneDeep`) are modelled from the specification; each such definition
  says so in its doc comment.
-/

namespace Puny

/-! ## Documents -/

/-- JavaScript values of a document. `date t` is a `Date` with time value `t` (what
`valueOf()` returns), `oid id` an `ObjectID` with numeric `id` (negative until it is persisted),
`bin b` a `Binary` whose `toJSON()` is the base64 text `b`. An object is its list of own
enumerable properties in enumeration order. -/
inductive Value where
  | undef : Value
  | null : Value
  | bool (b : Bool) : Value
  | num (n : Int) : Value
  | str (s : String) : Value
  | date (t : Int) : Value
  | oid (id : Int) : Value
  | bin (b64 : String) : Value
  | arr (xs : List Value) : Value
  | obj (kvs : List (String × Value)) : Value

namespace Value

instance : Inhabited Value := ⟨Value.undef⟩

/-- Property read `o[k]` on a list of own properties: `undefined` when absent. -/
def field (k : String) : List (String × Value) → Value
  | [] => Value.undef
  | (k1, v) :: r => if k1 = k then v else field k r

/-- Property read `v[k]` (`v.k`) on a value; only plain objects carry properties here. -/
def get (v : Value) (k : String) : Value :=
  match v with
  | Value.obj kvs => field k kvs
  | _ => Value.undef

/-- Property write `o[k] = x` on a list of own properties: an existing property keeps its
place, a new one is appended. -/
def setField (k : String) (x : Value) : List (String × Value) → List (String × Value)
  | [] => [(k, x)]
  | (k1, v) :: r => if k1 = k then (k1, x) :: r else (k1, v) :: setField k x r

/-- Property write `v[k] = x` on a value. -/
def set (v : Value) (k : String) (x : Value) : Value :=
  match v with
  | Value.obj kvs => Value.obj (setField k x kvs)
  | w => w

/-- Lodash `_.isUndefined(v)`. -/
def isUndefined : Value → Bool
  | Value.undef => true
  | _ => false

/-- Lodash `_.isObject(v)`: objects, arrays, dates and the wrapper classes; not `null`. -/
def isObject : Value → Bool
  | Value.date _ => true
  | Value.oid _ => true
  | Value.bin _ => true
  | Value.arr _ => true
  | Value.obj _ => true
  | _ => false

/-- JavaScript truthiness (`if (v)`). -/
def truthy : Value → Bool
  | Value.undef => false
  | Value.null => false
  | Value.bool b => b
  | Value.num n => n != 0
  | Value.str s => s != ""
  | _ => true

end Value

/-! ## Key validation: `_ensureIds` -/

/-- Errors raised by the engine. -/
inductive Err where
  -- key k must not start with $
  | keyDollar (k : String) : Err
  -- key k must not contain a dot
  | keyDot (k : String) : Err
  -- Invalid object key (_id)
  | invalidKey : Err
  -- a unique index already holds the value (raised by tindex.set in check mode)
  | duplicateKey (index : String) : Err
  -- the update specification modifies _id (raised by the updater)
  | modOnId : Err
  -- self._store[_id] is undefined and .pos is read from it (a TypeError)
  | noRecord (id : String) : Err
  -- _get found no entry at the offset
  | readError (pos : Nat) : Err
  -- the append to the log file failed
  | writeError (pos : Nat) : Err
  -- a property is read off null or undefined (a TypeError)
  | typeError : Err
  -- No fields are specified (thrown by ensureIndex)
  | noFields : Err
  deriving DecidableEq, Repr

/-- The two checks that `_ensureIds` makes on a property name `k`:
`if (k.length > 0) { if (k[0] == '$') throw ...; if (k.indexOf('.') != -1) throw ... }`. -/
def keyError (k : String) : Option Err :=
  if k.length > 0 then
    if k.data.head? = some '$' then some (Err.keyDollar k)
    else if '.' ∈ k.data then some (Err.keyDot k)
    else none
  else none

/-- The number of a property name that is an array index: the name is the decimal text of
the number. -/
def indexOf (k : String) : Option Nat :=
  if toString (k.data.foldl (fun a ch => 10 * a + (ch.toNat - '0'.toNat)) 0) = k then
    some (k.data.foldl (fun a ch => 10 * a + (ch.toNat - '0'.toNat)) 0)
  else none

/-- How lodash `_.each(obj, callback)` walks a plain object (lodash is not among the
sources): an object whose `length` is a number is walked like an array, `callback(obj[i], i)`
for the indices `i` from 0 below `obj.length`; any other object by its own properties,
`callback(obj[k], k)`. This is the `length` of an object that is walked like an array. -/
def eachLength (kvs : List (String × Value)) : Option Int :=
  match Value.field "length" kvs with
  | Value.num n => some n
  | _ => none

/-- Whether the walk of `_.each` calls the callback for the property named `k`: always in a
walk by own properties; in a walk by index, when `k` is an index below the length. (The
properties of an object are listed in enumeration order, in which the indices come first,
in ascending order, so a walk by index meets them in the order of the list; an index without
a property gives the callback `undefined`, with which it does nothing.) -/
def visited (len : Option Int) (k : String) : Bool :=
  match len with
  | none => true
  | some n =>
      match indexOf k with
      | some i => decide ((i : Int) < n)
      | none => false

/-- The checks of `_ensureIds` on the key that its callback receives: a property name in a
walk by own properties; in a walk by index a number, whose `length` is `undefined`, so that
nothing is checked. -/
def keyErrorAt (len : Option Int) (k : String) : Option Err :=
  match len with
  | none => keyError k
  | some _ => none

mutual
/-- What the callback of `_ensureIds` does with one property value `v`, with the sequence
counter `self._id` at `ctr`: an `ObjectID` that is not yet persisted (`v.id < 0`) gets
`++self._id`; every other object (and array) is descended into; the rest is left alone.
The counter is returned also when the walk throws. -/
def ensureValue (ctr : Nat) : Value → Nat × Except Err Value
  | Value.oid i =>
      if i < 0 then (ctr + 1, Except.ok (Value.oid (Int.ofNat (ctr + 1))))
      else (ctr, Except.ok (Value.oid i))
  | Value.arr xs =>
      match ensureItems ctr xs with
      | (c1, Except.ok ys) => (c1, Except.ok (Value.arr ys))
      | (c1, Except.error e) => (c1, Except.error e)
  | Value.obj kvs =>
      match ensureProps (eachLength kvs) ctr kvs with
      | (c1, Except.ok r) => (c1, Except.ok (Value.obj r))
      | (c1, Except.error e) => (c1, Except.error e)
  | v => (ctr, Except.ok v)
/-- Lodash `_.each` over the elements of an array: the key is an index, so no name check applies. -/
def ensureItems (ctr : Nat) : List Value → Nat × Except Err (List Value)
  | [] => (ctr, Except.ok [])
  | x :: xs =>
      match ensureValue ctr x with
      | (c1, Except.error e) => (c1, Except.error e)
      | (c1, Except.ok y) =>
          match ensureItems c1 xs with
          | (c2, Except.ok ys) => (c2, Except.ok (y :: ys))
          | (c2, Except.error e) => (c2, Except.error e)
/-- Lodash `_.each` over an object whose walk is given by `len` (`eachLength`): for a property
that the walk visits, the check of the key first, then the value; a property that the walk
does not visit is left as it is. -/
def ensureProps (len : Option Int) (ctr : Nat) :
    List (String × Value) → Nat × Except Err (List (String × Value))
  | [] => (ctr, Except.ok [])
  | (k, v) :: r =>
      match keyErrorAt len k with
      | some e => (ctr, Except.error e)
      | none =>
          match (if visited len k then ensureValue ctr v else (ctr, Except.ok v)) with
          | (c1, Except.error e) => (c1, Except.error e)
          | (c1, Except.ok w) =>
              match ensureProps len c1 r with
              | (c2, Except.ok r2) => (c2, Except.ok ((k, w) :: r2))
              | (c2, Except.error e) => (c2, Except.error e)
end

/-- Method `Collection.prototype._ensureIds(obj)`: `_.each(obj, ...)` over the document itself.
Returns the counter `self._id` after the walk and either the error thrown or the document
(with its identifiers persisted). -/
def _ensureIds (ctr : Nat) : Value → Nat × Except Err Value
  | Value.arr xs =>
      match ensureItems ctr xs with
      | (c1, Except.ok ys) => (c1, Except.ok (Value.arr ys))
      | (c1, Except.error e) => (c1, Except.error e)
  | Value.obj kvs =>
      match ensureProps (eachLength kvs) ctr kvs with
      | (c1, Except.ok r) => (c1, Except.ok (Value.obj r))
      | (c1, Except.error e) => (c1, Except.error e)
  | v => (ctr, Except.ok v)

/-- A property name is reserved when it starts with `$` or contains `.`. -/
def reservedKey (k : String) : Bool :=
  k.data.head? == some '$' || k.data.contains '.'

mutual
/-- Some property name of the document, at any depth through nested objects and arrays (not
inside identifier, date or binary values), is reserved. -/
def hasReservedKey : Value → Bool
  | Value.arr xs => anyReservedItem xs
  | Value.obj kvs => anyReservedProp kvs
  | _ => false
/-- Some element of the array has a reserved property name. -/
def anyReservedItem : List Value → Bool
  | [] => false
  | x :: xs => hasReservedKey x || anyReservedItem xs
/-- Some property of the object is reserved or holds a reserved name further down. -/
def anyReservedProp : List (String × Value) → Bool
  | [] => false
  | (k, v) :: r => reservedKey k || hasReservedKey v || anyReservedProp r
end

mutual
/-- Some property name that the walk of `_ensureIds` comes to, at any depth through the
objects and arrays that it descends into, is reserved. -/
def visitsReservedKey : Value → Bool
  | Value.arr xs => anyVisitedReservedItem xs
  | Value.obj kvs => anyVisitedReservedProp (eachLength kvs) kvs
  | _ => false
/-- The walk comes to a reserved property name in some element of the array. -/
def anyVisitedReservedItem : List Value → Bool
  | [] => false
  | x :: xs => visitsReservedKey x || anyVisitedReservedItem xs
/-- The walk given by `len` comes to a reserved property name among the properties or
further down in the values that it visits. -/
def anyVisitedReservedProp (len : Option Int) : List (String × Value) → Bool
  | [] => false
  | (k, v) :: r =>
      (keyErrorAt len k).isSome || (visited len k && visitsReservedKey v) ||
        anyVisitedReservedProp len r
end

mutual
/-- The document with every identifier replaced by one fixed identifier: what is left of a
document when the numbers of its identifiers are disregarded. -/
def forgetIds : Value → Value
  | Value.oid _ => Value.oid 0
  | Value.arr xs => Value.arr (forgetIdsItems xs)
  | Value.obj kvs => Value.obj (forgetIdsProps kvs)
  | v => v
/-- Elementwise `forgetIds`. -/
def forgetIdsItems : List Value → List Value
  | [] => []
  | x :: xs => forgetIds x :: forgetIdsItems xs
/-- Propertywise `forgetIds`. -/
def forgetIdsProps : List (String × Value) → List (String × Value)
  | [] => []
  | (k, v) :: r => (k, forgetIds v) :: forgetIdsProps r
end

/-! ## Type wrapping: `_wrapTypes` and `_unwrapTypes` -/

mutual
/-- What the callback of `_wrapTypes` does with one property value: a date, an identifier and
a binary are replaced by their tagged wrapper, every other object is descended into. -/
def wrapValue : Value → Value
  | Value.date t =>
      Value.obj [("$wrap", Value.str "$date"), ("v", Value.num t), ("h", Value.date t)]
  | Value.oid i => Value.obj [("$wrap", Value.str "$oid"), ("v", Value.num i)]
  | Value.bin b => Value.obj [("$wrap", Value.str "$bin"), ("v", Value.str b)]
  | Value.arr xs => Value.arr (wrapItems xs)
  | Value.obj kvs => Value.obj (wrapProps (eachLength kvs) kvs)
  | v => v
/-- Lodash `_.each` over the elements of an array. -/
def wrapItems : List Value → List Value
  | [] => []
  | x :: xs => wrapValue x :: wrapItems xs
/-- Lodash `_.each` over an object whose walk is given by `len` (`eachLength`): the values of
the properties that the walk visits. -/
def wrapProps (len : Option Int) : List (String × Value) → List (String × Value)
  | [] => []
  | (k, v) :: r => (k, if visited len k then wrapValue v else v) :: wrapProps len r
end

/-- Method `Collection.prototype._wrapTypes(obj)`: `_.each(obj, ...)` over the document itself. -/
def _wrapTypes : Value → Value
  | Value.arr xs => Value.arr (wrapItems xs)
  | Value.obj kvs => Value.obj (wrapProps (eachLength kvs) kvs)
  | v => v

/-- Constructor `new Date(x)` for the time value of a wrapper. A wrapper made by
`_wrapTypes` holds a number; for anything else the result is the epoch (such wrappers are
not produced here). -/
def newDate : Value → Value
  | Value.num t => Value.date t
  | Value.date t => Value.date t
  | _ => Value.date 0

/-- Constructor `new self._tdb.ObjectID(x)`: the identifier whose `toJSON()` is `x`; without
a usable number, a fresh identifier that is not persisted. -/
def newObjectID : Value → Value
  | Value.num i => Value.oid i
  | _ => Value.oid (-1)

/-- Constructor `new self._tdb.Binary(new Buffer(x, 'base64'))`: the binary whose
`toJSON()` is `x`. -/
def newBinary : Value → Value
  | Value.str b => Value.bin b
  | _ => Value.bin ""

/-- The `switch (v.$wrap)` of `_unwrapTypes`: which case the tag selects. -/
inductive WrapTag where
  | date : WrapTag
  | oid : WrapTag
  | bin : WrapTag
  | other : WrapTag
  deriving DecidableEq, Repr

/-- The case selected by the value of `v.$wrap` (strict comparison with the three tags). -/
def wrapTag : Value → WrapTag
  | Value.str s =>
      if s = "$date" then WrapTag.date
      else if s = "$oid" then WrapTag.oid
      else if s = "$bin" then WrapTag.bin
      else WrapTag.other
  | _ => WrapTag.other

mutual
/-- What the callback of `_unwrapTypes` does with one property value: an object tagged
`$wrap` is replaced by the date, identifier or binary it stands for, every other object is
descended into. -/
def unwrapValue : Value → Value
  | Value.arr xs => Value.arr (unwrapItems xs)
  | Value.obj kvs =>
      match wrapTag (Value.field "$wrap" kvs) with
      | WrapTag.date => newDate (Value.field "v" kvs)
      | WrapTag.oid => newObjectID (Value.field "v" kvs)
      | WrapTag.bin => newBinary (Value.field "v" kvs)
      | WrapTag.other => Value.obj (unwrapProps (eachLength kvs) kvs)
  | v => v
/-- Lodash `_.each` over the elements of an array. -/
def unwrapItems : List Value → List Value
  | [] => []
  | x :: xs => unwrapValue x :: unwrapItems xs
/-- Lodash `_.each` over an object whose walk is given by `len` (`eachLength`): the values of
the properties that the walk visits. -/
def unwrapProps (len : Option Int) : List (String × Value) → List (String × Value)
  | [] => []
  | (k, v) :: r => (k, if visited len k then unwrapValue v else v) :: unwrapProps len r
end

/-- Method `Collection.prototype._unwrapTypes(obj)`: `_.each(obj, ...)` over the document itself. -/
def _unwrapTypes : Value → Value
  | Value.arr xs => Value.arr (unwrapItems xs)
  | Value.obj kvs => Value.obj (unwrapProps (eachLength kvs) kvs)
  | v => v

mutual
/-- Some property name of the document, at any depth, starts with `$`. -/
def hasDollarKey : Value → Bool
  | Value.arr xs => anyDollarItem xs
  | Value.obj kvs => anyDollarProp kvs
  | _ => false
/-- Some element of the array has a property name starting with `$`. -/
def anyDollarItem : List Value → Bool
  | [] => false
  | x :: xs => hasDollarKey x || anyDollarItem xs
/-- Some property of the object starts with `$` or holds such a name further down. -/
def anyDollarProp : List (String × Value) → Bool
  | [] => false
  | (k, v) :: r => (k.data.head? == some '$') || hasDollarKey v || anyDollarProp r
end

mutual
/-- Some object of the document, at any depth, has a property named `$wrap`. -/
def hasWrapTag : Value → Bool
  | Value.arr xs => anyWrapTagItem xs
  | Value.obj kvs => anyWrapTagProp kvs
  | _ => false
/-- Some element of the array holds a `$wrap` property. -/
def anyWrapTagItem : List Value → Bool
  | [] => false
  | x :: xs => hasWrapTag x || anyWrapTagItem xs
/-- Some property of the object is named `$wrap` or holds one further down. -/
def anyWrapTagProp : List (String × Value) → Bool
  | [] => false
  | (k, v) :: r => (k == "$wrap") || hasWrapTag v || anyWrapTagProp r
end

/-- A nested document with a date, an identifier and a binary, inside objects and arrays. -/
def sampleDoc : Value :=
  Value.obj [("_id", Value.oid 7), ("when", Value.date 1000),
    ("sub", Value.obj [("blob", Value.bin "AQID"), ("n", Value.num 3)]),
    ("list", Value.arr [Value.date 5, Value.obj [("id", Value.oid 9)], Value.str "x"])]

/-! ## `find`: argument handling -/

/-- An argument of a call: a function (known by a name) or a value. -/
inductive Arg where
  | fn (name : String) : Arg
  | val (v : Value) : Arg
  deriving Inhabited

/-- The JavaScript `undefined` as an argument. -/
def Arg.undefined : Arg := Arg.val Value.undef

/-- Lodash `_.isFunction(a)`. -/
def Arg.isFunction : Arg → Bool
  | Arg.fn _ => true
  | Arg.val _ => false

/-- JavaScript truthiness of an argument. -/
def Arg.truthy : Arg → Bool
  | Arg.fn _ => true
  | Arg.val v => v.truthy

/-- Read `arguments[i]`: `undefined` past the end. -/
def argAt (arguments : List Arg) (i : Nat) : Arg :=
  arguments.getD i Arg.undefined

/-- An options object under construction: its own properties, whose values may be functions. -/
abbrev Props := List (String × Arg)

/-- Property read `opts[k]`. -/
def Props.get : Props → String → Arg
  | [], _ => Arg.undefined
  | (k1, v) :: r, k => if k1 = k then v else Props.get r k

/-- Property write `opts[k] = x`. -/
def Props.set : Props → String → Arg → Props
  | [], k, x => [(k, x)]
  | (k1, v) :: r, k, x => if k1 = k then (k1, x) :: r else (k1, v) :: Props.set r k x

/-- Lodash `_.keys(a)`: the own property names of an object, none for anything that is not
one (array indices are not needed here and are left out). -/
def keysOf : Arg → List String
  | Arg.val (Value.obj kvs) => kvs.map Prod.fst
  | _ => []

/-- The own properties of an argument used as the options object (`opts = val`). -/
def propsOf : Arg → Props
  | Arg.val (Value.obj kvs) => kvs.map (fun kv => (kv.1, Arg.val kv.2))
  | _ => []

/-- The option names that `find` recognises in its second argument. -/
def findOpts : List String :=
  ["limit", "sort", "fields", "skip", "hint", "timeout", "batchSize", "safe", "w"]

/-- The variables `cb`, `query`, `opts`, `argc` that the inner function of `find` assigns. -/
structure FindVars where
  cb : Option Arg
  query : Arg
  opts : Props
  argc : Nat

/-- The body of the anonymous function inside `find`, as a function of its own `arguments`
object and of the enclosing variables. `merge` is lodash `_.merge`. -/
def findInner (merge : Props → Arg → Props) (arguments : List Arg) (s : FindVars) :
    FindVars :=
  if s.argc = 0 then s
  else
    -- guess callback, it is always latest
    let cb0 := argAt arguments (s.argc - 1)
    let s1 : FindVars :=
      if !cb0.isFunction then { s with cb := none }
      else { s with cb := some cb0, argc := s.argc - 1 }
    -- query should always exist
    let s2 : FindVars := { s1 with query := argAt arguments 0 }
    if s2.argc = 1 then s2
    else if s2.argc = 2 then
      let val := argAt arguments 1
      if ((keysOf val).filter (fun k => findOpts.contains k)).length != 0 then
        { s2 with opts := propsOf val }
      else
        { s2 with opts := s2.opts.set "fields" val }
    else
      let s3 : FindVars := { s2 with opts := s2.opts.set "fields" (argAt arguments 1) }
      if s3.argc = 3 then
        { s3 with opts := merge s3.opts (argAt arguments 2) }
      else
        let o1 := s3.opts.set "skip" (argAt arguments 2)
        { s3 with opts := o1.set "limit" (argAt arguments 3) }

/-- Modelled from the spec: the state of a `Cursor` (lib/Cursor.js is not among the sources):
query expression, projection, the options it was built with, and skip, limit and sort as set
by `cursor.skip`, `cursor.limit`, `cursor.sort`. -/
structure Cursor where
  query : Arg
  fields : Arg
  opts : Props
  skip : Option Arg
  limit : Option Arg
  sort : Option Arg

/-- What a call of `find` does: it returns a cursor, or returns the result of `cb(null,
cursor)`. -/
inductive FindResult where
  | returned (cursor : Cursor) : FindResult
  | calledBack (cb : Arg) (err : Value) (cursor : Cursor) : FindResult

/-- The cursor of a `find` result. -/
def FindResult.cursor : FindResult → Cursor
  | FindResult.returned c => c
  | FindResult.calledBack _ _ c => c

/-- Method `Collection.prototype.find`, called with the arguments `args`. The inner function is
invoked as `(function () { ... })()`, that is with no arguments, so the `arguments` it reads
is its own, empty, object; `argc` is the enclosing variable. -/
def find (merge : Props → Arg → Props) (args : List Arg) : FindResult :=
  let s0 : FindVars :=
    { cb := none, query := Arg.val (Value.obj []), opts := [], argc := args.length }
  let s := findInner merge [] s0
  let c0 : Cursor :=
    { query := s.query, fields := s.opts.get "fields", opts := s.opts,
      skip := none, limit := none, sort := none }
  let c1 := if (s.opts.get "skip").truthy then { c0 with skip := some (s.opts.get "skip") } else c0
  let c2 :=
    if (s.opts.get "limit").truthy then { c1 with limit := some (s.opts.get "limit") } else c1
  let c3 := if (s.opts.get "sort").truthy then { c2 with sort := some (s.opts.get "sort") } else c2
  match s.cb with
  | some cb => FindResult.calledBack cb Value.null c3
  | none => FindResult.returned c3

/-! ## Simplified keys and the position map -/

/-- The result of `simplifyKey`: a number or a string. -/
inductive SKey where
  | num (n : Int) : SKey
  | str (s : String) : SKey
  deriving DecidableEq, Repr, Inhabited

/-- The property name under which a simplified key is stored in an object such as
`self._store` (`ToPropertyKey`): a number is written in decimal. -/
def SKey.propName : SKey → String
  | SKey.num n => toString n
  | SKey.str s => s

/-- Stand-in for `Date.prototype.toJSON` (the ISO-8601 text of a date): a rendering of the
time value; what is used of it is that it is a string, determined by the time value and
different for different time values. -/
def isoString (t : Int) : String := "date:" ++ toString t

/-- The text of `k.toString()` for the values that `simplifyKey` does not return as they are:
`true`/`false` for a boolean, `[object Object]` for an object, and for an array the
comma-separated texts of its elements, written here for elements that are numbers, strings
and booleans (other elements count as empty text). -/
def keyText : Value → String
  | Value.bool b => if b then "true" else "false"
  | Value.obj _ => "[object Object]"
  | Value.arr xs =>
      ",".intercalate (xs.map (fun x =>
        match x with
        | Value.num n => toString n
        | Value.str s => s
        | Value.bool b => if b then "true" else "false"
        | _ => ""))
  | _ => ""

/-- Function `simplifyKey(key)`: `key.toJSON()` when there is one (dates, identifiers,
binaries), kept if it is a number or a string, otherwise `k.toString()`. Reading
`key.toJSON` off `null` or `undefined` throws; `none` stands for that `TypeError`. -/
def simplifyKey : Value → Option SKey
  | Value.undef => none
  | Value.null => none
  | Value.num n => some (SKey.num n)
  | Value.str s => some (SKey.str s)
  | Value.date t => some (SKey.str (isoString t))
  | Value.oid i => some (SKey.num i)
  | Value.bin b => some (SKey.str b)
  | v => some (SKey.str (keyText v))

/-! ## Field indexes (`tindex`) -/

/-- Splits a field path at its dots. -/
def splitPath : List Char → List (List Char)
  | [] => [[]]
  | c :: cs =>
      if c = '.' then [] :: splitPath cs
      else
        match splitPath cs with
        | [] => [[c]]
        | h :: t => (c :: h) :: t

/-- Follows a list of property names down a document. -/
def getPath : Value → List (List Char) → Value
  | v, [] => v
  | v, k :: ks => getPath (v.get (String.mk k)) ks

/-- Modelled from the spec: `tutils.getFieldValue(doc, path)` (lib/utils.js is not among the
sources), the value of a document at a field path, `undefined` when the path leads nowhere. -/
def getFieldValue (doc : Value) (path : String) : Value :=
  getPath doc (splitPath path.data)

/-- Modelled from the spec: a `tindex` (lib/tindex.js is not among the sources), "an ordered
structure mapping value to set of identifiers" over one field path: its entries, one per
indexed document, in ascending order of the indexed value. The second component is what the
index hands back: a simplified key in a declared index, a log offset in the temporary index
that `__find` sorts with. -/
structure TIndex (ι : Type) where
  key : String
  name : String
  unique : Bool
  entries : List (Value × ι)

/-- Modelled from the spec: the place of a new entry in an ordered index, before the first
entry that is not smaller; `le` is the order of indexed values. -/
def orderedIns {ι : Type} (le : Value → Value → Bool) (e : Value × ι) :
    List (Value × ι) → List (Value × ι)
  | [] => [e]
  | x :: r => if le e.1 x.1 then e :: x :: r else x :: orderedIns le e r

/-- Modelled from the spec: `new tindex(key, collection, options, name)`, an empty index. -/
def TIndex.new {ι : Type} (key : String) (name : String) (unique : Bool) : TIndex ι :=
  { key := key, name := name, unique := unique, entries := [] }

/-- Modelled from the spec: `index.set(doc, id)`, the entry of `doc` put in its place. -/
def TIndex.set {ι : Type} (le : Value → Value → Bool) (ix : TIndex ι) (doc : Value)
    (id : ι) : TIndex ι :=
  { ix with entries := orderedIns le (getFieldValue doc ix.key, id) ix.entries }

/-- Modelled from the spec: `index.set(doc, id, true)`, the check made before a write: a
unique index refuses a value it already holds; nothing is modified. -/
def TIndex.check {ι : Type} (le : Value → Value → Bool) (ix : TIndex ι) (doc : Value) :
    Except Err Unit :=
  if ix.unique &&
      ix.entries.any (fun e => le e.1 (getFieldValue doc ix.key) &&
        le (getFieldValue doc ix.key) e.1) then
    Except.error (Err.duplicateKey ix.name)
  else Except.ok ()

/-- Removes the first entry of `id` from a list of index entries. -/
def eraseEntry {ι : Type} [DecidableEq ι] (id : ι) : List (Value × ι) → List (Value × ι)
  | [] => []
  | x :: r => if x.2 = id then r else x :: eraseEntry id r

/-- Modelled from the spec: `index.del(doc, id)`, "removal of a specific (value, identifier)
pair": the entry of `id` is taken out. -/
def TIndex.del {ι : Type} [DecidableEq ι] (ix : TIndex ι) (_doc : Value) (id : ι) : TIndex ι :=
  { ix with entries := eraseEntry id ix.entries }

/-- Modelled from the spec: `index.all()`, the "full ordered traversal ascending". -/
def TIndex.all {ι : Type} (ix : TIndex ι) : List ι :=
  ix.entries.map Prod.snd

/-! ## Compiled queries (`Finder.matcher`) -/

/-- Modelled from the spec: the condition that a query puts on one field path (lib/finder is
not among the sources). `servable` says that the operators are equality and range operators,
which a field index can serve; `test` is the condition on the field value as the plain
matcher evaluates it, `test3` as the array-aware matcher does. -/
structure Clause where
  field : String
  servable : Bool
  test : Value → Bool
  test3 : Value → Bool

/-- Modelled from the spec: a compiled query `qt`, the list `qt._args` of its conditions,
"with implicit AND across keys". -/
abbrev Query := List Clause

/-- Modelled from the spec: `qt._ex(k)`, which is 1 exactly when the query has one condition
on field `k` and a field index can serve it. -/
def Query._ex (qt : Query) (k : String) : Nat :=
  ((qt.filter (fun c => c.field == k)).map (fun c => if c.servable then 1 else 2)).sum

/-- Modelled from the spec: `qt.split(k)`, which takes the condition on field `k` out of the
query and returns it, together with what is left of the query. -/
def Query.split : Query → String → Option Clause × Query
  | [], _ => (none, [])
  | c :: r, k =>
      if c.field == k then (some c, r)
      else ((Query.split r k).1, c :: (Query.split r k).2)

/-- Modelled from the spec: `sub._index(index)`, the identifiers whose indexed value meets
the condition, in index order. -/
def Clause._index (c : Clause) (ix : TIndex SKey) : List SKey :=
  (ix.entries.filter (fun e => c.test e.1)).map Prod.snd

/-- Modelled from the spec: the matcher compiled from `qt.native()`. -/
def Query.native (qt : Query) (doc : Value) : Bool :=
  qt.all (fun c => c.test (getFieldValue doc c.field))

/-- Modelled from the spec: the array-aware matcher compiled from `qt.native3()`. -/
def Query.native3 (qt : Query) (doc : Value) : Bool :=
  qt.all (fun c => c.test3 (getFieldValue doc c.field))

/-- Modelled from the spec: `tutils.intersectIndexes(p)`, the identifiers common to all the
lists, in the order of the first list. -/
def intersectIndexes : List (List SKey) → List SKey
  | [] => []
  | l :: ls => l.filter (fun id => ls.all (fun m => m.contains id))

/-! ## The collection -/

/-- What the engine takes from outside: the order `le` in which a `tindex` keeps indexed
values, `JSON.stringify`, the md5 digest, the clock, the outcome of appending at a file
offset (`true` when the append fails), and the global option `searchInArray`. -/
structure Env where
  le : Value → Value → Bool
  stringify : Value → String
  md5 : String → String
  now : Int
  writeFails : Nat → Bool
  searchInArray : Bool

/-- The key object that `_put` writes in front of a payload. -/
structure LogKey where
  _id : SKey
  _uid : Nat
  _dt : Int
  _a : Option String
  _s : Option String
  deriving DecidableEq, Repr

/-- One entry of the append-only log: its offset, its key, the document whose serialisation is
the payload (empty for a delete entry), and the bytes written. -/
structure LogEntry where
  pos : Nat
  key : LogKey
  item : Value
  remove : Bool
  buf : String

/-- The mutable state of a `Collection`: the position map `_store` (property name of the
identifier, offset) in enumeration order, the declared indexes `_idx` by key in enumeration
order, the sequence counter `_id`, the file size `_fsize`, and the log file. -/
structure Collection where
  _store : List (String × Nat)
  _idx : List (String × TIndex SKey)
  _id : Nat
  _fsize : Nat
  log : List LogEntry

/-- The names of the properties that a plain object such as `self._idx = {}` inherits from
`Object.prototype`: reading one of them off the object gives a function (or, for
`__proto__`, the prototype), which is truthy. -/
def objectProtoNames : List String :=
  ["constructor", "hasOwnProperty", "isPrototypeOf", "propertyIsEnumerable",
   "toLocaleString", "toString", "valueOf", "__proto__", "__defineGetter__",
   "__defineSetter__", "__lookupGetter__", "__lookupSetter__"]

/-- The truthiness of `o[k]` for the empty object `o = {}`. -/
def emptyObject (k : String) : Bool := objectProtoNames.contains k

/-- The declared index under the own property `k` of `self._idx`. -/
def Collection.idx (c : Collection) (k : String) : Option (TIndex SKey) :=
  c._idx.lookup k

/-- What the property read `self._idx[k]` gives: a declared index, an inherited property of
the object (truthy, but no index), or `undefined`. -/
inductive IdxRead where
  | index (ix : TIndex SKey) : IdxRead
  | inherited : IdxRead
  | absent : IdxRead

/-- Property read `self._idx[k]`. -/
def Collection.readIdx (c : Collection) (k : String) : IdxRead :=
  match c.idx k with
  | some ix => IdxRead.index ix
  | none => if objectProtoNames.contains k then IdxRead.inherited else IdxRead.absent

/-- Read `self._store[_id].pos`: a `TypeError` when the identifier has no record. (For an
identifier without a record that is named like an inherited property, the read gives
`undefined` and the failure comes later, when that offset is read; it is raised here.) -/
def Collection.posOf (c : Collection) (id : SKey) : Except Err Nat :=
  match c._store.lookup id.propName with
  | some p => Except.ok p
  | none => Except.error (Err.noRecord id.propName)

/-- Modelled from the spec: `self._get(pos, cb)` (lib/Collection-storage.js is not among the
sources), `read(offset) -> entry`: the document written at the offset, an error when no
document entry starts there. -/
def Collection._get (c : Collection) (pos : Nat) : Except Err Value :=
  match c.log.find? (fun e => e.pos == pos) with
  | some e => if e.remove then Except.error (Err.readError pos) else Except.ok e.item
  | none => Except.error (Err.readError pos)

/-- Modelled from the spec: `Collection._putWrite(self, sobj, key, item, buf, remove, cb)`
(lib/Collection-storage.js is not among the sources): the bytes are appended at the end of
the file; when that succeeds the position map is "mutated on every successful append; an
identifier is removed from the map on a delete entry". -/
def _putWrite (env : Env) (c : Collection) (key : LogKey) (item : Value) (buf : String)
    (remove : Bool) : Except Err Collection :=
  if env.writeFails c._fsize then Except.error (Err.writeError c._fsize)
  else
    let entry : LogEntry :=
      { pos := c._fsize, key := key, item := item, remove := remove, buf := buf }
    let store :=
      if remove then c._store.filter (fun r => r.1 != key._id.propName)
      else if (c._store.lookup key._id.propName).isSome then
        c._store.map (fun r => if r.1 == key._id.propName then (r.1, c._fsize) else r)
      else c._store ++ [(key._id.propName, c._fsize)]
    Except.ok { c with _store := store, _fsize := c._fsize + buf.utf8ByteSize,
                       log := c.log ++ [entry] }

/-! ## The query planner: `__find` -/

/-- The property name that a sort key stands for in `self._idx[sort]`: `null` reads the
property named `null`. -/
def propKey : Option String → String
  | none => "null"
  | some s => s

/-- JavaScript `!sort` for a sort key that is `null` or a string. -/
def sortOff : Option String → Bool
  | none => true
  | some s => s == ""

/-- JavaScript `limit ? ... : ...` and `limit && ...` for a limit that is `null` or a number. -/
def limitOn : Option Nat → Bool
  | none => false
  | some l => l != 0

/-- The elements that `xs.splice(start, deleteCount)` removes and returns. -/
def splice {α : Type} (xs : List α) (start : Nat) (deleteCount : Int) : List α :=
  (xs.drop start).take deleteCount.toNat

/-- The skip/limit slice of `__find`:
`if (skip !== 0 || limit !== null) { var c = Math.min(range.length - skip,
limit ? limit : range.length - skip); range = range.splice(skip, c); }`. -/
def sliceRange (range : List Nat) (skip : Nat) (limit : Option Nat) : List Nat :=
  if skip != 0 || limit != none then
    let rest : Int := (range.length : Int) - (skip : Int)
    let c : Int := min rest (if limitOn limit then ((limit.getD 0 : Nat) : Int) else rest)
    splice range skip c
  else range

/-- The indexes that can serve the query: for a non-empty query, every declared index key `k`
with `qt._ex(k) == 1 && (!hint || hint[k])`. -/
def possibleIndexes (c : Collection) (qt : Query) (hint : Option (String → Bool)) :
    List String :=
  if qt.length > 0 then
    (c._idx.filter (fun kv => qt._ex kv.1 == 1 &&
      (match hint with
       | none => true
       | some h => h kv.1))).map Prod.fst
  else []

/-- The loop `io[v] = qt.split(v)` over the possible indexes: the conditions taken out, by
field, and what is left of the query. -/
def splitAll : Query → List String → List (String × Option Clause) × Query
  | qt, [] => ([], qt)
  | qt, k :: ks =>
      (((k, (qt.split k).1) :: (splitAll (qt.split k).2 ks).1),
        (splitAll (qt.split k).2 ks).2)

/-- The loop `p.push(v._index(self._idx[k]))` over `io`; reading `_index` off a missing
condition, or an index that is not there, is an error. -/
def indexLookups (c : Collection) : List (String × Option Clause) → Except Err (List (List SKey))
  | [] => Except.ok []
  | (k, sub) :: r =>
      match sub, c.idx k with
      | some cl, some ix =>
          match indexLookups c r with
          | Except.ok ps => Except.ok (cl._index ix :: ps)
          | Except.error e => Except.error e
      | _, _ => Except.error (Err.noRecord k)

/-- The loop `range.push(self._store[_id].pos)` over a list of identifiers. -/
def positionsOf (c : Collection) : List SKey → Except Err (List Nat)
  | [] => Except.ok []
  | id :: r =>
      match c.posOf id with
      | Except.error e => Except.error e
      | Except.ok p =>
          match positionsOf c r with
          | Except.ok ps => Except.ok (p :: ps)
          | Except.error e => Except.error e

/-- The candidates of `__find` that the query gives (lines 595 to 631): the offsets `range`
to look at, in order, what is left of the query, and the sort that is left to do.
* with possible indexes: their conditions are split off and looked up; one index gives its
  list (and when it is the index of the sort key, the sort is done, backwards for order -1),
  several are intersected;
* without: the index of the sort key, if there is one, gives all documents in order;
  otherwise the position map does. A sort key that reads an inherited property off
  `self._idx` counts as having an index, and calling `all()` on what is read throws. -/
def candidatesByQuery (c : Collection) (qt : Query) (sort_ : Option String) (order : Int)
    (hint : Option (String → Bool)) : Except Err (List Nat × Query × Option String) :=
  let pi := possibleIndexes c qt hint
  if pi.length > 0 then
    let io := (splitAll qt pi).1
    let qt1 := (splitAll qt pi).2
    match indexLookups c io with
    | Except.error e => Except.error e
    | Except.ok p =>
        let ps : List SKey × Option String :=
          if pi.length == 1 then
            let p0 := p.headD []
            if some (pi.headD "") == sort_ then
              (if order == -1 then p0.reverse else p0, none)
            else (p0, sort_)
          else (intersectIndexes p, sort_)
        match positionsOf c ps.1 with
        | Except.error e => Except.error e
        | Except.ok range => Except.ok (range, qt1, ps.2)
  else
    match c.readIdx (propKey sort_) with
    | IdxRead.index ix =>
        match positionsOf c ix.all with
        | Except.error e => Except.error e
        | Except.ok range =>
            Except.ok (if order == -1 then range.reverse else range, qt, none)
    | IdxRead.inherited => Except.error Err.typeError
    | IdxRead.absent => Except.ok (c._store.map Prod.snd, qt, sort_)

/-- The candidates of `__find` (lines 595 to 646): those that the query gives, put in the
order of the index of the sort key that is left, if that key has an index (lines 633 to
646). -/
def candidates (c : Collection) (qt : Query) (sort_ : Option String) (order : Int)
    (hint : Option (String → Bool)) : Except Err (List Nat × Query × Option String) :=
  match candidatesByQuery c qt sort_ order hint with
  | Except.error e => Except.error e
  | Except.ok (range, qt1, sort) =>
      match c.readIdx (propKey sort) with
      | IdxRead.index ix =>
          match positionsOf c ix.all with
          | Except.error e => Except.error e
          | Except.ok all =>
              let range2 := all.filter (fun pos => range.contains pos)
              Except.ok (if order == -1 then range2.reverse else range2, qt1, none)
      | IdxRead.inherited => Except.error Err.typeError
      | IdxRead.absent => Except.ok (range, qt1, sort)

/-- The variables of the scanning loop of `__find`: the result `res`, the number `found` of
matches seen, and the temporary sort index `si` (when a sort is left to do). -/
structure Scan where
  res : List Nat
  found : Nat
  si : Option (TIndex Nat)

/-- One turn of the scanning loop (lines 674 to 689) at offset `pos`. -/
def scanStep (env : Env) (c : Collection) (matcher : Value → Bool) (sort : Option String)
    (skip : Nat) (limit : Option Nat) (s : Scan) (pos : Nat) : Except Err Scan :=
  if sortOff sort && limitOn limit && decide (s.res.length ≥ limit.getD 0) then Except.ok s
  else
    match c._get pos with
    | Except.error e => Except.error e
    | Except.ok obj =>
        if matcher obj then
          let s1 : Scan :=
            if !sortOff sort || decide (s.found ≥ skip) then
              match s.si with
              | some si => { s with si := some (si.set env.le obj pos) }
              | none => { s with res := s.res ++ [pos] }
            else s
          Except.ok { s1 with found := s.found + 1 }
        else Except.ok s

/-- The loop `async.forEachSeries(range, ...)`: the turns in order, stopped by an error. -/
def scanLoop (env : Env) (c : Collection) (matcher : Value → Bool) (sort : Option String)
    (skip : Nat) (limit : Option Nat) : Scan → List Nat → Except Err Scan
  | s, [] => Except.ok s
  | s, pos :: r =>
      match scanStep env c matcher sort skip limit s pos with
      | Except.error e => Except.error e
      | Except.ok s1 => scanLoop env c matcher sort skip limit s1 r

/-- Method `Collection.prototype.__find(query, fields, skip, limit, sort_, order, hint,
arFields, cb)`, for the compiled query `qt = Finder.matcher(query)`: the offsets handed to
`cb`, or the error. -/
def __find (env : Env) (c : Collection) (qt : Query) (skip : Nat) (limit : Option Nat)
    (sort_ : Option String) (order : Int) (hint : Option (String → Bool))
    (arFields : String → Bool) : Except Err (List Nat) :=
  match candidates c qt sort_ order hint with
  | Except.error e => Except.error e
  | Except.ok (range, qt1, sort) =>
      -- no sort, no query then return right away
      if sortOff sort && qt1.isEmpty then
        Except.ok (sliceRange range skip limit)
      else
        -- check if we can use simple match or array match function
        let arrayMatch := env.searchInArray || qt1.any (fun cl => arFields cl.field)
        let matcher := if arrayMatch then qt1.native3 else qt1.native
        -- create sort index
        let si : Option (TIndex Nat) :=
          if sortOff sort then none else some (TIndex.new (propKey sort) "" false)
        match scanLoop env c matcher sort skip limit { res := [], found := 0, si := si } range
        with
        | Except.error e => Except.error e
        | Except.ok s =>
            if !sortOff sort then
              let res := (s.si.map TIndex.all).getD []
              let res1 := if order == -1 then res.reverse else res
              Except.ok (sliceRange res1 skip limit)
            else Except.ok s.res

/-- A list cut to at most `limit` elements, `null` meaning no bound. -/
def takeLimit (limit : Option Nat) (xs : List Nat) : List Nat :=
  match limit with
  | none => xs
  | some l => xs.take l

/-- The relation between the full scan and the scan with skip and limit, after the same
offsets: `a` is the result of the full scan, `b` and `g` the result and the match count of
the other. -/
def ScanRel (skip : Nat) (limit : Option Nat) (a b : List Nat) (g : Nat) : Prop :=
  b = takeLimit limit (a.drop skip) ∧
  ((limitOn limit = true ∧ b.length ≥ limit.getD 0) ∨ g = a.length)

/-! ## Consistent states -/

/-- A document is live at an offset when the position map holds the offset. -/
def Collection.LiveAt (c : Collection) (pos : Nat) (d : Value) : Prop :=
  ∃ name, (name, pos) ∈ c._store ∧ c._get pos = Except.ok d

/-- The state in which every declared field index reflects exactly the live documents:
* `_idx` and `_store` are objects (a property name occurs once) and two identifiers do not
  share an offset;
* every record of the position map leads to a document, stored under the property name of
  its simplified `_id`;
* an index is declared under its own key; each of its entries is the indexed value and the
  simplified `_id` of a live document; every live document has an entry, and one only; the
  entries are in ascending order of the indexed value. -/
structure Consistent (env : Env) (c : Collection) : Prop where
  idx_nodup : (c._idx.map Prod.fst).Nodup
  store_nodup : (c._store.map Prod.fst).Nodup
  pos_nodup : (c._store.map Prod.snd).Nodup
  live : ∀ name pos, (name, pos) ∈ c._store →
    ∃ d id, c._get pos = Except.ok d ∧ simplifyKey (d.get "_id") = some id ∧
      id.propName = name
  idx_key : ∀ k ix, (k, ix) ∈ c._idx → ix.key = k
  idx_sound : ∀ k ix, (k, ix) ∈ c._idx → ∀ e ∈ ix.entries,
    ∃ pos d, (e.2.propName, pos) ∈ c._store ∧ c._get pos = Except.ok d ∧
      simplifyKey (d.get "_id") = some e.2 ∧ e.1 = getFieldValue d k
  idx_complete : ∀ k ix, (k, ix) ∈ c._idx → ∀ name pos, (name, pos) ∈ c._store →
    ∃ e ∈ ix.entries, e.2.propName = name
  idx_ids_nodup : ∀ k ix, (k, ix) ∈ c._idx → (ix.entries.map Prod.snd).Nodup
  idx_sorted : ∀ k ix, (k, ix) ∈ c._idx →
    ix.entries.Pairwise (fun a b => env.le a.1 b.1 = true)

/-- The plain matcher is the one in use: array search is off globally and for every field of
the query. -/
def ScalarMode (env : Env) (qt : Query) (arFields : String → Bool) : Prop :=
  env.searchInArray = false ∧ ∀ cl ∈ qt, arFields cl.field = false

/-- The indexed value of the document at an offset, for a field path (`undefined` when
nothing can be read there). -/
def Collection.keyAt (c : Collection) (path : String) (pos : Nat) : Value :=
  match c._get pos with
  | Except.ok d => getFieldValue d path
  | Except.error _ => Value.undef

/-- The identifiers that one entry of `io` contributes to `p`. -/
def idsFor (c : Collection) (kv : String × Option Clause) : List SKey :=
  match kv.2, c.idx kv.1 with
  | some cl, some ix => cl._index ix
  | _, _ => []

/-- The offset recorded for an identifier (0 when there is none). -/
def Collection.posD (c : Collection) (id : SKey) : Nat :=
  (c._store.lookup id.propName).getD 0

/-- A list of offsets is in the order asked for, by the value of field `s` in the documents:
ascending, or descending when `order` is -1. -/
def SortedBy (env : Env) (c : Collection) (s : String) (order : Int) (range : List Nat) :
    Prop :=
  if order = -1 then range.Pairwise (fun a b => env.le (c.keyAt s b) (c.keyAt s a) = true)
  else range.Pairwise (fun a b => env.le (c.keyAt s a) (c.keyAt s b) = true)

/-- The document at an offset (`undefined` when nothing can be read there). -/
def Collection.keyDoc (c : Collection) (pos : Nat) : Value :=
  match c._get pos with
  | Except.ok d => d
  | Except.error _ => Value.undef

/-! ## Writing: `_put` -/

/-- How a call ends: `ok` when the callback is called without an error, `failed` when the
callback receives an error, `thrown` when an exception leaves the call, `crashed` when an
exception is thrown from inside the callback of the log write. -/
inductive Outcome (α : Type) where
  | ok (a : α) : Outcome α
  | failed (e : Err) : Outcome α
  | thrown (e : Err) : Outcome α
  | crashed (e : Err) : Outcome α

/-- The call ended with an error of some kind. -/
def Outcome.isError {α : Type} : Outcome α → Bool
  | Outcome.ok _ => false
  | _ => true

/-- A byte length as `_put` writes it in the header: in decimal, padded on the left with
zeros taken from `"0000000000"` (`zeros.substr(0, zeros.length - l.length) + l`). -/
def pad10 (n : Nat) : String :=
  ("0000000000".take (10 - (toString n).length)) ++ toString n

/-- The text `JSON.stringify({k: lkey, o: lobj, v: "001"})` of the header. -/
def headerText (lkey lobj : String) : String :=
  "\x7b\"k\":\"" ++ lkey ++ "\",\"o\":\"" ++ lobj ++ "\",\"v\":\"001\"\x7d"

/-- A simplified key as a value. -/
def SKey.toValue : SKey → Value
  | SKey.num n => Value.num n
  | SKey.str s => Value.str s

/-- The key object of a log entry as a value, for `JSON.stringify(key)`. -/
def LogKey.toValue (k : LogKey) : Value :=
  Value.obj ([("_id", k._id.toValue), ("_uid", Value.num (Int.ofNat k._uid)),
    ("_dt", Value.num k._dt)] ++
    (match k._a with
     | some a => [("_a", Value.str a)]
     | none => []) ++
    (match k._s with
     | some h => [("_s", Value.str h)]
     | none => []))

/-- The loop `v.set(item, key._id, true)` over the declared indexes: the first refusal is
thrown. -/
def checkIndexes (env : Env) (item : Value) : List (String × TIndex SKey) → Except Err Unit
  | [] => Except.ok ()
  | (_, ix) :: r =>
      match ix.check env.le item with
      | Except.error e => Except.error e
      | Except.ok _ => checkIndexes env item r

/-- The loop `v[method_name](item, key._id)` over the declared indexes, `del` for a removal
and `set` otherwise. -/
def updateIndexes (env : Env) (item : Value) (id : SKey) (remove : Bool)
    (idx : List (String × TIndex SKey)) : List (String × TIndex SKey) :=
  idx.map (fun kv => (kv.1, if remove then kv.2.del item id else kv.2.set env.le item id))

/-- Method `Collection.prototype._put(item, remove, cb)`: the collection afterwards and how the
call ends; `ok` carries the item as the call leaves it (identifiers persisted). -/
def _put (env : Env) (c : Collection) (item : Value) (remove : Bool) :
    Collection × Outcome Value :=
  match _ensureIds c._id item with
  | (ctr, Except.error e) => ({ c with _id := ctr }, Outcome.thrown e)
  | (ctr, Except.ok item1) =>
      let c1 : Collection := { c with _id := ctr }
      if (item1.get "_id").isUndefined then (c1, Outcome.failed Err.invalidKey)
      else
        let wrapped := _wrapTypes item1
        let sobj : String := if remove then "" else env.stringify wrapped
        let item2 := _unwrapTypes wrapped
        match simplifyKey (item2.get "_id") with
        | none => (c1, Outcome.thrown Err.typeError)
        | some id =>
            let key : LogKey :=
              { _id := id, _uid := c1._id, _dt := env.now,
                _a := if remove then some "del" else none,
                _s := if remove then none else some (env.md5 sobj) }
            let skey : String := env.stringify key.toValue
            let lobj := pad10 sobj.utf8ByteSize
            let lkey := pad10 skey.utf8ByteSize
            let buf := headerText lkey lobj ++ "\n" ++ skey ++ "\n" ++ sobj ++ "\n"
            -- check index update
            match (if remove then Except.ok () else checkIndexes env item2 c1._idx) with
            | Except.error e => (c1, Outcome.thrown e)
            | Except.ok _ =>
                match _putWrite env c1 key item2 buf remove with
                | Except.error e => (c1, Outcome.crashed e)
                | Except.ok c2 =>
                    -- update index
                    ({ c2 with _idx := updateIndexes env item2 id remove c2._idx },
                      Outcome.ok item2)

/-! ## `insert` and `save` -/

/-- The identifier `new self._tdb.ObjectID()` of a document that has none: not persisted
yet, so its number is negative. -/
def freshObjectID : Value := Value.oid (-1)

/-- What a task did: the collection afterwards, how it ended, and the items that it handed
to `_put`, in order. -/
structure Run (α : Type) where
  coll : Collection
  outcome : Outcome α
  puts : List Value

/-- The loop of `insert` (`async.forEachSeries(docs, ...)`): a document without `_id` gets a
new identifier, then the document goes to `_put`; the loop stops at the first document that
`_put` does not accept. The result holds the documents as the calls left them. -/
def insertLoop (env : Env) : Collection → List Value → Run (List Value)
  | c, [] => { coll := c, outcome := Outcome.ok [], puts := [] }
  | c, doc :: r =>
      let doc1 :=
        if (doc.get "_id").isUndefined then doc.set "_id" freshObjectID else doc
      match _put env c doc1 false with
      | (c1, Outcome.ok item) =>
          let rest := insertLoop env c1 r
          { coll := rest.coll,
            outcome :=
              match rest.outcome with
              | Outcome.ok items => Outcome.ok (item :: items)
              | Outcome.failed e => Outcome.failed e
              | Outcome.thrown e => Outcome.thrown e
              | Outcome.crashed e => Outcome.crashed e,
            puts := doc1 :: rest.puts }
      | (c1, Outcome.failed e) => { coll := c1, outcome := Outcome.failed e, puts := [doc1] }
      | (c1, Outcome.thrown e) => { coll := c1, outcome := Outcome.thrown e, puts := [doc1] }
      | (c1, Outcome.crashed e) => { coll := c1, outcome := Outcome.crashed e, puts := [doc1] }

/-- Method `Collection.prototype.insert(docs, opts, cb)`, the task it queues: `cb(null, docs)`
after the loop. -/
def insert (env : Env) (c : Collection) (docs : List Value) : Run (List Value) :=
  insertLoop env c docs

/-- What `save` reports: the document for a new one, `1` for an update. -/
inductive SaveResult where
  | saved (doc : Value) : SaveResult
  | updated : SaveResult

/-- The loop `v.del(doc, id)` over the declared indexes. -/
def delFromIndexes (doc : Value) (id : SKey) (idx : List (String × TIndex SKey)) :
    List (String × TIndex SKey) :=
  idx.map (fun kv => (kv.1, kv.2.del doc id))

/-- Method `Collection.prototype.save(doc, opts, cb)`, the task it queues: a document without
`_id` gets a new identifier; for a document whose identifier has a record, the stored version
is read and taken out of the indexes; then the document goes to `_put`. -/
def save (env : Env) (c : Collection) (doc : Value) : Run SaveResult :=
  let finish (c0 : Collection) (doc1 : Value) (isUpdate : Bool) : Run SaveResult :=
    match _put env c0 doc1 false with
    | (c1, Outcome.ok item) =>
        { coll := c1,
          outcome := Outcome.ok (if isUpdate then SaveResult.updated else SaveResult.saved item),
          puts := [doc1] }
    | (c1, Outcome.failed e) => { coll := c1, outcome := Outcome.failed e, puts := [doc1] }
    | (c1, Outcome.thrown e) => { coll := c1, outcome := Outcome.failed e, puts := [doc1] }
    | (c1, Outcome.crashed e) => { coll := c1, outcome := Outcome.crashed e, puts := [doc1] }
  if (doc.get "_id").isUndefined then
    finish c (doc.set "_id" freshObjectID) false
  else
    match simplifyKey (doc.get "_id") with
    | none => { coll := c, outcome := Outcome.thrown Err.typeError, puts := [] }
    | some id =>
        -- check if document with this id already exist
        match c._store.lookup id.propName with
        | none =>
            -- an inherited property read off `self._store` is truthy and has no `pos`
            if objectProtoNames.contains id.propName then
              { coll := c, outcome := Outcome.failed (Err.noRecord id.propName), puts := [] }
            else finish c doc false
        | some pos =>
            -- if so we need to fetch it to update index
            match c._get pos with
            | Except.error e => { coll := c, outcome := Outcome.failed e, puts := [] }
            | Except.ok oldDoc =>
                -- remove current version of doc from indexes
                finish { c with _idx := delFromIndexes oldDoc id c._idx } doc true

/-! ## `update` -/

/-- Modelled from the spec: one atomic operator of an update specification on one field
(lib/updater.js is not among the sources): "field replacement under a flag, field removal,
numeric increment". -/
inductive UpdOp where
  | set (field : String) (v : Value) : UpdOp
  | unset (field : String) : UpdOp
  | inc (field : String) (n : Int) : UpdOp

/-- Modelled from the spec: the operators that an update specification holds under `$set`,
`$unset` and `$inc`. -/
def specOps : List (String × Value) → List UpdOp
  | [] => []
  | (k, v) :: r =>
      (match k, v with
       | "$set", Value.obj kvs => kvs.map (fun kv => UpdOp.set kv.1 kv.2)
       | "$unset", Value.obj kvs => kvs.map (fun kv => UpdOp.unset kv.1)
       | "$inc", Value.obj kvs =>
           kvs.map (fun kv =>
             UpdOp.inc kv.1 (match kv.2 with
               | Value.num n => n
               | _ => 0))
       | _, _ => []) ++ specOps r

/-- Modelled from the spec: `new Updater(doc, tdb)`, the update engine for a specification;
the specification is atomic when it holds operators, a replacement document otherwise. -/
structure Updater where
  ops : List UpdOp

/-- Modelled from the spec: the update engine of an update specification. -/
def Updater.ofSpec (doc : Value) : Updater :=
  match doc with
  | Value.obj kvs => { ops := specOps kvs }
  | _ => { ops := [] }

/-- Modelled from the spec: `updater.hasAtomic()`. -/
def Updater.hasAtomic (u : Updater) : Bool := !u.ops.isEmpty

/-- Removes a property from a list of own properties. -/
def removeField (k : String) : List (String × Value) → List (String × Value)
  | [] => []
  | (k1, v) :: r => if k1 = k then removeField k r else (k1, v) :: removeField k r

/-- Modelled from the spec: the value `x` put at a field path of a document ("nested paths
addressed by dotted notation"); objects are made on the way where there is none. -/
def setPath : Value → List (List Char) → Value → Value
  | _, [], x => x
  | v, k :: ks, x =>
      (match v with
       | Value.obj kvs => Value.obj kvs
       | _ => Value.obj []).set (String.mk k) (setPath (v.get (String.mk k)) ks x)

/-- Modelled from the spec: the property at a field path of a document removed. -/
def unsetPath : Value → List (List Char) → Value
  | v, [] => v
  | Value.obj kvs, [k] => Value.obj (removeField (String.mk k) kvs)
  | v, [_] => v
  | v, k :: ks =>
      match v.get (String.mk k) with
      | Value.obj sub => v.set (String.mk k) (unsetPath (Value.obj sub) ks)
      | _ => v

/-- The field path of an operator leads into the identifier: its first name is `_id`. -/
def touchesId (field : String) : Bool :=
  (splitPath field.data).head? == some "_id".data

/-- Modelled from the spec: one operator applied to a document. "The identifier field is
immutable under any update path: an update that attempts to set it is rejected as an error,
not silently applied." -/
def UpdOp.apply (doc : Value) (upsert : Bool) : UpdOp → Except Err Value
  | UpdOp.set field v =>
      if touchesId field then Except.error Err.modOnId
      else Except.ok (setPath doc (splitPath field.data) v)
  | UpdOp.unset field =>
      if touchesId field then Except.error Err.modOnId
      else Except.ok (unsetPath doc (splitPath field.data))
  | UpdOp.inc field n =>
      if touchesId field then Except.error Err.modOnId
      else
        match getFieldValue doc field with
        | Value.num m => Except.ok (setPath doc (splitPath field.data) (Value.num (m + n)))
        | Value.undef => Except.ok (setPath doc (splitPath field.data) (Value.num n))
        | _ =>
            if upsert then Except.ok (setPath doc (splitPath field.data) (Value.num n))
            else Except.ok doc

/-- Modelled from the spec: `updater.update(doc, upsert)`, the operators applied in order;
the first error is thrown. A replacement document has no operators and leaves `doc` as it
is. -/
def applyOps (upsert : Bool) : List UpdOp → Value → Except Err Value
  | [], doc => Except.ok doc
  | op :: r, doc =>
      match op.apply doc upsert with
      | Except.error e => Except.error e
      | Except.ok d1 => applyOps upsert r d1

/-- Modelled from the spec: `updater.update(doc, upsert)`. -/
def Updater.update (u : Updater) (doc : Value) (upsert : Bool) : Except Err Value :=
  applyOps upsert u.ops doc

/-- The options of `update` that the task reads. -/
structure UpdateOpts where
  multi : Bool
  upsert : Bool
  hint : Option (String → Bool)

/-- The second result of `update`: `{updatedExisting, n}` with `upserted` for an upsert. -/
structure UpdateInfo where
  updatedExisting : Bool
  n : Nat
  upserted : Option Value

/-- What `update` hands to its callback after `null`: the count and the second result
(absent for `cb(null, 0)`). -/
structure UpdateResult where
  count : Nat
  info : Option UpdateInfo

/-- The state of the loop of `update` over the matched offsets: the collection, the
replacement document `$doc` (absent for an atomic update) as the previous turns left it, and
the items handed to `_put` so far. -/
structure UpdateLoop where
  coll : Collection
  doc : Option Value
  puts : List Value

/-- The loop of `update` over the matched offsets (lines 407 to 421): the document is read,
its current version is taken out of the indexes, the new version is the replacement document
or the stored document with the operators applied, its `_id` is set to the stored one, and
it goes to `_put`. An exception inside the callback of `_get` is handed to the callback. -/
def updateLoop (env : Env) (u : Updater) : UpdateLoop → List Nat → UpdateLoop × Outcome Unit
  | s, [] => (s, Outcome.ok ())
  | s, pos :: r =>
      match s.coll._get pos with
      | Except.error e => (s, Outcome.failed e)
      | Except.ok obj =>
          match simplifyKey (obj.get "_id") with
          | none => (s, Outcome.failed Err.typeError)
          | some id =>
              -- remove current version of doc from indexes
              let c1 : Collection :=
                { s.coll with _idx := delFromIndexes obj id s.coll._idx }
              let s1 : UpdateLoop := { s with coll := c1 }
              match (match s.doc with
                     | some d => Except.ok d
                     | none => u.update obj false) with
              | Except.error e => (s1, Outcome.failed e)
              | Except.ok udoc0 =>
                  let udoc := udoc0.set "_id" (obj.get "_id")
                  -- put will add it back to indexes
                  match _put env c1 udoc false with
                  | (c2, Outcome.ok item) =>
                      updateLoop env u
                        { coll := c2, doc := s.doc.map (fun _ => item),
                          puts := s.puts ++ [udoc] } r
                  | (c2, Outcome.failed e) =>
                      ({ coll := c2, doc := s.doc, puts := s.puts ++ [udoc] },
                        Outcome.failed e)
                  | (c2, Outcome.thrown e) =>
                      ({ coll := c2, doc := s.doc, puts := s.puts ++ [udoc] },
                        Outcome.failed e)
                  | (c2, Outcome.crashed e) =>
                      ({ coll := c2, doc := s.doc, puts := s.puts ++ [udoc] },
                        Outcome.crashed e)

/-- Method `Collection.prototype.update(query, doc, opts, cb)`, the task it queues, for the
compiled query `qt` of `query`. -/
def update (env : Env) (c : Collection) (qt : Query) (query : Value) (doc : Value)
    (opts : UpdateOpts) : Run UpdateResult :=
  let updater := Updater.ofSpec doc
  let doc0 : Option Value := if updater.hasAtomic then none else some doc
  match __find env c qt 0 (if opts.multi then none else some 1) none 0 opts.hint
      emptyObject with
  | Except.error e => { coll := c, outcome := Outcome.thrown e, puts := [] }
  | Except.ok res =>
      if res.isEmpty then
        if !opts.upsert then
          { coll := c, outcome := Outcome.ok { count := 0, info := none }, puts := [] }
        else
          match updater.update (doc0.getD query) true with
          | Except.error e => { coll := c, outcome := Outcome.failed e, puts := [] }
          | Except.ok d1 =>
              let d2 :=
                if (d1.get "_id").isUndefined then d1.set "_id" freshObjectID else d1
              match _put env c d2 false with
              | (c1, Outcome.ok item) =>
                  { coll := c1,
                    outcome := Outcome.ok
                      { count := 1,
                        info := some { updatedExisting := false, n := 1,
                                       upserted := some (item.get "_id") } },
                    puts := [d2] }
              | (c1, Outcome.failed e) =>
                  { coll := c1, outcome := Outcome.failed e, puts := [d2] }
              | (c1, Outcome.thrown e) =>
                  { coll := c1, outcome := Outcome.failed e, puts := [d2] }
              | (c1, Outcome.crashed e) =>
                  { coll := c1, outcome := Outcome.crashed e, puts := [d2] }
      else
        match updateLoop env updater { coll := c, doc := doc0, puts := [] } res with
        | (s, Outcome.ok _) =>
            { coll := s.coll,
              outcome := Outcome.ok
                { count := res.length,
                  info := some { updatedExisting := true, n := res.length,
                                 upserted := none } },
              puts := s.puts }
        | (s, Outcome.failed e) => { coll := s.coll, outcome := Outcome.failed e, puts := s.puts }
        | (s, Outcome.thrown e) => { coll := s.coll, outcome := Outcome.thrown e, puts := s.puts }
        | (s, Outcome.crashed e) =>
            { coll := s.coll, outcome := Outcome.crashed e, puts := s.puts }

/-! ## A sample collection -/

/-- A sample order of indexed values: numbers by size, every other value like 0. -/
def sampleRank : Value → Int
  | Value.num n => n
  | _ => 0

/-- A sample environment: the sample order, no failing append, array search off. -/
def sampleEnv : Env :=
  { le := fun a b => decide (sampleRank a ≤ sampleRank b),
    stringify := fun _ => "doc",
    md5 := fun s => s,
    now := 0,
    writeFails := fun _ => false,
    searchInArray := false }

/-- A sample document with identifier `i` and fields `num` and `pum`. -/
def sampleItem (i n p : Int) : Value :=
  Value.obj [("_id", Value.num i), ("num", Value.num n), ("pum", Value.num p)]

/-- The log entry of a sample document at an offset. -/
def sampleEntry (pos : Nat) (i n p : Int) : LogEntry :=
  { pos := pos,
    key := { _id := SKey.num i, _uid := 1, _dt := 0, _a := none, _s := some "" },
    item := sampleItem i n p, remove := false, buf := "" }

/-- The log of the sample collection: three documents. -/
def sampleLog : List LogEntry :=
  [sampleEntry 0 1 5 1, sampleEntry 10 2 3 2, sampleEntry 20 3 8 3]

/-- The sample collection: three documents, the mandatory index on `_id` and an index on
`num`. -/
def sampleColl : Collection :=
  { _store := [("1", 0), ("2", 10), ("3", 20)],
    _idx :=
      [("_id", { key := "_id", name := "_id_", unique := true,
                 entries := [(Value.num 1, SKey.num 1), (Value.num 2, SKey.num 2),
                   (Value.num 3, SKey.num 3)] }),
       ("num", { key := "num", name := "num_1", unique := false,
                 entries := [(Value.num 3, SKey.num 2), (Value.num 5, SKey.num 1),
                   (Value.num 8, SKey.num 3)] })],
    _id := 1,
    _fsize := 30,
    log := sampleLog }

/-- The sample collection with no index but the mandatory one. -/
def sampleCollPlain : Collection :=
  { sampleColl with _idx := sampleColl._idx.take 1 }

/-- The condition `{field: {$lt: bound}}` on numbers, which an index can serve. -/
def clauseLt (field : String) (bound : Int) : Clause :=
  { field := field, servable := true,
    test := fun v => match v with
      | Value.num n => decide (n < bound)
      | _ => false,
    test3 := fun v => match v with
      | Value.num n => decide (n < bound)
      | Value.arr xs => xs.any (fun x => match x with
          | Value.num n => decide (n < bound)
          | _ => false)
      | _ => false }

/-- The sample query `{num: {$lt: 8}, pum: {$lt: 2}}`. -/
def sampleQuery : Query := [clauseLt "num" 8, clauseLt "pum" 2]

/-- No field is searched as an array. -/
def noArFields : String → Bool := fun _ => false

/-- A collection of two documents that have a field with the empty name, stored in the order
of their identifiers: the first holds 2 there, the second 1. -/
def emptyKeyColl : Collection :=
  { _store := [("1", 0), ("2", 10)],
    _idx :=
      [("_id", { key := "_id", name := "_id_", unique := true,
                 entries := [(Value.num 1, SKey.num 1), (Value.num 2, SKey.num 2)] })],
    _id := 1,
    _fsize := 20,
    log :=
      [{ pos := 0,
         key := { _id := SKey.num 1, _uid := 1, _dt := 0, _a := none, _s := some "" },
         item := Value.obj [("_id", Value.num 1), ("", Value.num 2)],
         remove := false, buf := "" },
       { pos := 10,
         key := { _id := SKey.num 2, _uid := 1, _dt := 0, _a := none, _s := some "" },
         item := Value.obj [("_id", Value.num 2), ("", Value.num 1)],
         remove := false, buf := "" }] }

/-- A document is a plain object. -/
def Value.isDoc : Value → Bool
  | Value.obj _ => true
  | _ => false

/-- The document as `insert` and `save` hand it to `_put`: with a newly generated identifier
attached when it has no `_id`, as it is otherwise. -/
def attachId (doc : Value) : Value :=
  if (doc.get "_id").isUndefined then doc.set "_id" freshObjectID else doc

/-- The options of a plain `update` call: one document, no upsert, no hint. -/
def plainOpts : UpdateOpts := { multi := false, upsert := false, hint := none }

/-- A replacement document that carries an `_id` of its own. -/
def sampleReplacement : Value :=
  Value.obj [("_id", Value.num 99), ("num", Value.num 7), ("pum", Value.num 7)]

/-- The atomic update `{$set: {pum: 9}}`. -/
def sampleSetPum : Value :=
  Value.obj [("$set", Value.obj [("pum", Value.num 9)])]

/-- The atomic update `{$set: {_id: "newId"}}`. -/
def sampleSetId : Value :=
  Value.obj [("$set", Value.obj [("_id", Value.str "newId")])]

/-- A document without `_id`. -/
def sampleNewDoc : Value :=
  Value.obj [("num", Value.num 1), ("pum", Value.num 1)]

/-- A document that lodash walks like an array: it has a numeric `length`, here 0, and a
property named `$bad`. -/
def sampleArrayLike : Value :=
  Value.obj [("length", Value.num 0), ("$bad", Value.num 1)]

/-- A document with `_id` 4 that lodash walks like an array and that has a property named
`$bad`. -/
def sampleArrayLikeItem : Value :=
  Value.obj [("length", Value.num 0), ("_id", Value.num 4), ("$bad", Value.num 1)]

/-! ## The objects that a task holds -/

mutual
/-- Modelled from the spec: `self._tdb._cloneDeep(v)` (the database object is not among the
sources), "a deep-clone utility for documents": a new value built like `v`, object by object
and element by element. -/
def _cloneDeep : Value → Value
  | Value.arr xs => Value.arr (cloneItems xs)
  | Value.obj kvs => Value.obj (cloneProps kvs)
  | v => v
/-- Modelled from the spec: the copies of the elements of an array. -/
def cloneItems : List Value → List Value
  | [] => []
  | x :: xs => _cloneDeep x :: cloneItems xs
/-- Modelled from the spec: the copies of the properties of an object. -/
def cloneProps : List (String × Value) → List (String × Value)
  | [] => []
  | (k, v) :: r => (k, _cloneDeep v) :: cloneProps r
end

/-- The objects that the task of `update` or `findAndModify` reaches through its variables:
the caller's `query`, the caller's `doc`, the object that `_cloneDeep` makes, and the object
`obj` that `_get` hands over. A variable such as `$doc`, `udoc` or `robj` holds one of these
references, and a write through the variable changes the object it refers to. -/
inductive Ref where
  | query : Ref
  | doc : Ref
  | copy : Ref
  | stored : Ref
  deriving DecidableEq, Repr

/-- The contents of the objects of a task. -/
structure Objs where
  query : Value
  doc : Value
  copy : Value
  stored : Value

/-- The contents of the object behind a reference. -/
def Objs.read (h : Objs) : Ref → Value
  | Ref.query => h.query
  | Ref.doc => h.doc
  | Ref.copy => h.copy
  | Ref.stored => h.stored

/-- The object behind a reference given new contents. -/
def Objs.write (h : Objs) (r : Ref) (v : Value) : Objs :=
  match r with
  | Ref.query => { h with query := v }
  | Ref.doc => { h with doc := v }
  | Ref.copy => { h with copy := v }
  | Ref.stored => { h with stored := v }

/-- The objects at the start of a task: the caller's `query` and `doc`. -/
def Objs.start (query doc : Value) : Objs :=
  { query := query, doc := doc, copy := Value.undef, stored := Value.undef }

/-- The new base document of an upsert (lines 398 to 402 of `update`, 449 to 453 of
`findAndModify`), for the variable `$doc` (the caller's `doc` for a replacement, `null` for
an atomic update):
`$doc = $doc || query; $doc = self._tdb._cloneDeep($doc); updater.update($doc, true);
if (_.isUndefined($doc._id)) $doc._id = new self._tdb.ObjectID();`.
Gives the reference that `$doc` holds afterwards and the objects, or the error that the
updater throws. -/
def upsertDoc (updater : Updater) (doc0 : Option Ref) (h : Objs) : Except Err (Ref × Objs) :=
  let r0 : Ref := doc0.getD Ref.query
  let h1 := h.write Ref.copy (_cloneDeep (h.read r0))
  let r : Ref := Ref.copy
  match updater.update (h1.read r) true with
  | Except.error e => Except.error e
  | Except.ok d1 =>
      let h2 := h1.write r d1
      let h3 :=
        if ((h2.read r).get "_id").isUndefined then
          h2.write r ((h2.read r).set "_id" freshObjectID)
        else h2
      Except.ok (r, h3)

/-- The upsert of `update` (lines 398 to 405) with the objects it works on: the new base
document goes to `_put`, which leaves it with its identifiers persisted. The second
component holds the objects as the task leaves them (when the updater throws, the objects as
the task found them: what the updater did to the copy before it threw is not recorded; when
`_put` ends with an error, the objects as they were handed to it). -/
def upsertTask (env : Env) (c : Collection) (query doc : Value) : Run UpdateResult × Objs :=
  let updater := Updater.ofSpec doc
  let doc0 : Option Ref := if updater.hasAtomic then none else some Ref.doc
  let h := Objs.start query doc
  match upsertDoc updater doc0 h with
  | Except.error e => ({ coll := c, outcome := Outcome.failed e, puts := [] }, h)
  | Except.ok (r, h1) =>
      match _put env c (h1.read r) false with
      | (c1, Outcome.ok item) =>
          ({ coll := c1,
             outcome := Outcome.ok
               { count := 1,
                 info := some { updatedExisting := false, n := 1,
                                upserted := some (item.get "_id") } },
             puts := [h1.read r] }, h1.write r item)
      | (c1, Outcome.failed e) =>
          ({ coll := c1, outcome := Outcome.failed e, puts := [h1.read r] }, h1)
      | (c1, Outcome.thrown e) =>
          ({ coll := c1, outcome := Outcome.failed e, puts := [h1.read r] }, h1)
      | (c1, Outcome.crashed e) =>
          ({ coll := c1, outcome := Outcome.crashed e, puts := [h1.read r] }, h1)

/-- The options of an `update` call that asks for an upsert. -/
def upsertOpts : UpdateOpts := { multi := false, upsert := true, hint := none }

/-- A query object `{num: -5}` that no sample document matches. -/
def sampleNoMatch : Value := Value.obj [("num", Value.num (-5))]

/-! ## `remove` -/

/-- The options of `remove` that the task reads. -/
structure RemoveOpts where
  single : Bool
  hint : Option (String → Bool)

/-- The state of the loop of `remove`: the collection and the items handed to `_put` so
far. -/
structure RemoveLoop where
  coll : Collection
  puts : List Value

/-- The loop of `remove` over the matched offsets (lines 535 to 538): the document is read
and goes to `_put` as a removal; the loop stops at the first error. An exception inside the
callback of `_get` is handed to the callback. -/
def removeLoop (env : Env) : RemoveLoop → List Nat → RemoveLoop × Outcome Unit
  | s, [] => (s, Outcome.ok ())
  | s, pos :: r =>
      match s.coll._get pos with
      | Except.error e => (s, Outcome.failed e)
      | Except.ok obj =>
          match _put env s.coll obj true with
          | (c1, Outcome.ok _) => removeLoop env { coll := c1, puts := s.puts ++ [obj] } r
          | (c1, Outcome.failed e) =>
              ({ coll := c1, puts := s.puts ++ [obj] }, Outcome.failed e)
          | (c1, Outcome.thrown e) =>
              ({ coll := c1, puts := s.puts ++ [obj] }, Outcome.failed e)
          | (c1, Outcome.crashed e) =>
              ({ coll := c1, puts := s.puts ++ [obj] }, Outcome.crashed e)

/-- Method `Collection.prototype.remove(query, opts, cb)`, the task it queues, for the
compiled query `qt` of `query`: the matching offsets are looked up (one at most when `single`
is set), each document goes to `_put` as a removal, and the callback gets the number of
offsets. -/
def remove (env : Env) (c : Collection) (qt : Query) (opts : RemoveOpts) : Run Nat :=
  match __find env c qt 0 (if opts.single then some 1 else none) none 0 opts.hint
      emptyObject with
  | Except.error e => { coll := c, outcome := Outcome.thrown e, puts := [] }
  | Except.ok res =>
      match removeLoop env { coll := c, puts := [] } res with
      | (s, Outcome.ok _) => { coll := s.coll, outcome := Outcome.ok res.length, puts := s.puts }
      | (s, Outcome.failed e) => { coll := s.coll, outcome := Outcome.failed e, puts := s.puts }
      | (s, Outcome.thrown e) => { coll := s.coll, outcome := Outcome.thrown e, puts := s.puts }
      | (s, Outcome.crashed e) =>
          { coll := s.coll, outcome := Outcome.crashed e, puts := s.puts }

mutual
/-- Some identifier of the document, at any depth through nested objects and arrays, is not
persisted yet (its number is negative). -/
def hasFreshId : Value → Bool
  | Value.oid i => decide (i < 0)
  | Value.arr xs => anyFreshItem xs
  | Value.obj kvs => anyFreshProp kvs
  | _ => false
/-- Some element of the array holds an identifier that is not persisted. -/
def anyFreshItem : List Value → Bool
  | [] => false
  | x :: xs => hasFreshId x || anyFreshItem xs
/-- Some property of the object holds an identifier that is not persisted. -/
def anyFreshProp : List (String × Value) → Bool
  | [] => false
  | (_, v) :: r => hasFreshId v || anyFreshProp r
end

mutual
/-- The walk of `_ensureIds` comes to an identifier that is not persisted yet: like
`hasFreshId`, but an object with a numeric `length` is looked into only at the indices below
that length. -/
def visitsFreshId : Value → Bool
  | Value.oid i => decide (i < 0)
  | Value.arr xs => anyVisitedFreshItem xs
  | Value.obj kvs => anyVisitedFreshProp (eachLength kvs) kvs
  | _ => false
/-- The walk comes to an identifier that is not persisted in some element of the array. -/
def anyVisitedFreshItem : List Value → Bool
  | [] => false
  | x :: xs => visitsFreshId x || anyVisitedFreshItem xs
/-- The walk comes to an identifier that is not persisted in some property that it visits. -/
def anyVisitedFreshProp (len : Option Int) : List (String × Value) → Bool
  | [] => false
  | (k, v) :: r => (visited len k && visitsFreshId v) || anyVisitedFreshProp len r
end

/-- The stored documents are as `_put` writes them: no reserved property name and every
identifier persisted. -/
def Collection.Settled (c : Collection) : Prop :=
  ∀ name pos d, (name, pos) ∈ c._store → c._get pos = Except.ok d →
    hasReservedKey d = false ∧ hasFreshId d = false

/-- The simplified identifier of the document at an offset (the number 0 when nothing can be
read there). -/
def Collection.idAt (c : Collection) (pos : Nat) : SKey :=
  match c._get pos with
  | Except.ok d => (simplifyKey (d.get "_id")).getD (SKey.num 0)
  | Except.error _ => SKey.num 0

/-- The options of a `remove` call for all matching documents. -/
def removeAll : RemoveOpts := { single := false, hint := none }

/-- The options of a `remove` call for the first matching document. -/
def removeOne : RemoveOpts := { single := true, hint := none }

/-- The condition `{_id: id}` on the identifier of a document. -/
def clauseId (id : SKey) : Clause :=
  { field := "_id", servable := true,
    test := fun v => decide (simplifyKey v = some id),
    test3 := fun v => decide (simplifyKey v = some id) }

/-! ## `findAndModify` -/

/-- The options of `findAndModify` that the task reads. `project` stands for
`c._projectFields`, the projection of the cursor made from `opts.fields` (lib/Cursor.js is
not among the sources); it is the identity when no fields are asked for. -/
structure ModifyOpts where
  new : Bool
  remove : Bool
  upsert : Bool
  hint : Option (String → Bool)
  project : Value → Value

/-- The variable `udoc` of the matched path (lines 464 to 468): the replacement document
`$doc` when there is one; otherwise the stored document `obj`, to which the operators are
applied in place. Gives the reference that `udoc` holds and the objects, or the error that
the updater throws. -/
def modifyTarget (updater : Updater) (doc0 : Option Ref) (h : Objs) : Except Err (Ref × Objs) :=
  match doc0 with
  | some r => Except.ok (r, h)
  | none =>
      match updater.update (h.read Ref.stored) false with
      | Except.error e => Except.error e
      | Except.ok d => Except.ok (Ref.stored, h.write Ref.stored d)

/-- Method `Collection.prototype.findAndModify(query, sort, doc, opts, cb)`, the task it
queues, for the compiled query `qt` of `query` and the sort key and order that the cursor
resolves `sort` to: what the callback gets (`undefined` for `cb()`), with the objects that
the task works on.
* No match: nothing without `upsert`; with it, the new base document goes to `_put` and the
  callback gets its projection when `new` is set, `{}` otherwise.
* A match: `robj` is the stored document `obj` itself when `new` is set and `remove` is not,
  a copy of it made before the update otherwise; the current version is taken out of the
  indexes, `udoc` gets the `_id` of `obj` and goes to `_put`, and the callback gets the
  projection of `robj`.
When `_put` ends with an error the objects are given as they were handed to it. -/
def findAndModify (env : Env) (c : Collection) (qt : Query) (query doc : Value)
    (sort_ : Option String) (order : Int) (opts : ModifyOpts) : Run Value × Objs :=
  let updater := Updater.ofSpec doc
  let doc0 : Option Ref := if updater.hasAtomic then none else some Ref.doc
  let h := Objs.start query doc
  match __find env c qt 0 (some 1) sort_ order opts.hint emptyObject with
  | Except.error e => ({ coll := c, outcome := Outcome.thrown e, puts := [] }, h)
  | Except.ok [] =>
      if !opts.upsert then ({ coll := c, outcome := Outcome.ok Value.undef, puts := [] }, h)
      else
        match upsertDoc updater doc0 h with
        | Except.error e => ({ coll := c, outcome := Outcome.failed e, puts := [] }, h)
        | Except.ok (r, h1) =>
            match _put env c (h1.read r) false with
            | (c1, Outcome.ok item) =>
                ({ coll := c1,
                   outcome := Outcome.ok
                     (if opts.new then opts.project ((h1.write r item).read r)
                      else Value.obj []),
                   puts := [h1.read r] }, h1.write r item)
            | (c1, Outcome.failed e) =>
                ({ coll := c1, outcome := Outcome.failed e, puts := [h1.read r] }, h1)
            | (c1, Outcome.thrown e) =>
                ({ coll := c1, outcome := Outcome.failed e, puts := [h1.read r] }, h1)
            | (c1, Outcome.crashed e) =>
                ({ coll := c1, outcome := Outcome.crashed e, puts := [h1.read r] }, h1)
  | Except.ok (pos :: _) =>
      match c._get pos with
      | Except.error e => ({ coll := c, outcome := Outcome.failed e, puts := [] }, h)
      | Except.ok obj =>
          let h1 := h.write Ref.stored obj
          let robj : Ref := if opts.new && !opts.remove then Ref.stored else Ref.copy
          let h2 :=
            if opts.new && !opts.remove then h1
            else h1.write Ref.copy (_cloneDeep (h1.read Ref.stored))
          match simplifyKey (obj.get "_id") with
          | none => ({ coll := c, outcome := Outcome.failed Err.typeError, puts := [] }, h2)
          | some id =>
              -- remove current version of doc from indexes
              let c1 : Collection := { c with _idx := delFromIndexes obj id c._idx }
              match modifyTarget updater doc0 h2 with
              | Except.error e => ({ coll := c1, outcome := Outcome.failed e, puts := [] }, h2)
              | Except.ok (udoc, h3) =>
                  let h4 :=
                    h3.write udoc ((h3.read udoc).set "_id" ((h3.read Ref.stored).get "_id"))
                  -- put will add it back to indexes
                  match _put env c1 (h4.read udoc) opts.remove with
                  | (c2, Outcome.ok item) =>
                      ({ coll := c2,
                         outcome := Outcome.ok (opts.project ((h4.write udoc item).read robj)),
                         puts := [h4.read udoc] }, h4.write udoc item)
                  | (c2, Outcome.failed e) =>
                      ({ coll := c2, outcome := Outcome.failed e, puts := [h4.read udoc] }, h4)
                  | (c2, Outcome.thrown e) =>
                      ({ coll := c2, outcome := Outcome.failed e, puts := [h4.read udoc] }, h4)
                  | (c2, Outcome.crashed e) =>
                      ({ coll := c2, outcome := Outcome.crashed e, puts := [h4.read udoc] },
                        h4)

/-- The options `{new: true}` of a `findAndModify` call, without projection. -/
def modifyNew : ModifyOpts :=
  { new := true, remove := false, upsert := false, hint := none, project := fun d => d }

/-- The options `{}` of a `findAndModify` call, without projection. -/
def modifyOld : ModifyOpts :=
  { new := false, remove := false, upsert := false, hint := none, project := fun d => d }

/-- A replacement document without `_id`. -/
def sampleReplace : Value := Value.obj [("num", Value.num 7), ("pum", Value.num 7)]

/-! ## `ensureIndex` -/

/-- The options of `ensureIndex` that the index keeps. -/
structure IndexOpts where
  unique : Bool

/-- The value of `index.name` when `index` is a property that the plain object `self._idx`
inherits: the name of the inherited function (`Object` for `constructor`), and `undefined`
for `__proto__`, the prototype object. -/
def inheritedName (k : String) : Value :=
  if k = "constructor" then Value.str "Object"
  else if k = "__proto__" then Value.undef
  else Value.str k

/-- The name given to a new index: `key + "_" + (key == '_id' ? '' : c._order)`. -/
def indexName (key : String) (order : Int) : String :=
  key ++ "_" ++ (if key = "_id" then "" else toString order)

/-- The loop of the queued task of `ensureIndex` (lines 110 to 115) over the records of the
position map: each document is read and set in the new index under its simplified
identifier; the loop stops at the first error. -/
def backfill (env : Env) (c : Collection) : TIndex SKey → List (String × Nat) →
    Except Err (TIndex SKey)
  | ix, [] => Except.ok ix
  | ix, (_, pos) :: r =>
      match c._get pos with
      | Except.error e => Except.error e
      | Except.ok obj =>
          match simplifyKey (obj.get "_id") with
          | none => Except.error Err.typeError
          | some id => backfill env c (ix.set env.le obj id) r

/-- Method `Collection.prototype.ensureIndex(obj, options, cb)`, for the sort key `key` and
the order that the cursor resolves `obj` to (`c._sort`, `c._order`; a specification that the
cursor rejects ends the call with the cursor's error before anything else happens). `idle`
says that no operation is pending (`self._tq._tc == -1`); otherwise the registration is a
queued task, and `c` is the collection as that task finds it. Gives the collection afterwards
and what the callback gets. A new key is a new property of `self._idx`, enumerated after the
others (a key that is an array index would be enumerated first; field names are not taken to
be such). -/
def ensureIndex (env : Env) (c : Collection) (key : Option String) (order : Int)
    (opts : IndexOpts) (idle : Bool) : Collection × Outcome Value :=
  if sortOff key then (c, Outcome.thrown Err.noFields)
  else
    match c.readIdx (propKey key) with
    | IdxRead.index ix => (c, Outcome.ok (Value.str ix.name))
    | IdxRead.inherited => (c, Outcome.ok (inheritedName (propKey key)))
    | IdxRead.absent =>
        let index : TIndex SKey :=
          TIndex.new (propKey key) (indexName (propKey key) order) opts.unique
        if idle then
          -- if no operation is pending just register index
          ({ c with _idx := c._idx ++ [(propKey key, index)] },
            Outcome.ok (Value.str index.name))
        else
          -- overwise register index operation
          match backfill env c index c._store with
          | Except.error e => (c, Outcome.failed e)
          | Except.ok ix =>
              ({ c with _idx := c._idx ++ [(propKey key, ix)] },
                Outcome.ok (Value.str index.name))

/-- Index options without uniqueness. -/
def plainIndex : IndexOpts := { unique := false }

/-- A replacement document with a property name that `_ensureIds` refuses. -/
def sampleBadDoc : Value := Value.obj [("a.b", Value.num 1)]

/-! ## Reading a header back -/

/-- The number that a text of decimal digits stands for. -/
def readDecimal (s : String) : Nat :=
  s.data.foldl (fun a ch => 10 * a + (ch.toNat - '0'.toNat)) 0

/-! ## Sequence numbers -/

/-- The sequence numbers of the log are in order: no entry has a greater `_uid` than a later
one, and none is greater than the counter `self._id`. -/
def Collection.UidSorted (c : Collection) : Prop :=
  (c.log.map (fun e => e.key._uid)).Pairwise (fun a b => a ≤ b) ∧
  ∀ e ∈ c.log, e.key._uid ≤ c._id

/-! ## Identifiers as property names -/

/-- Two identifier values are of the same kind: two numbers, two strings, two dates or two
generated identifiers. -/
def sameKind : Value → Value → Bool
  | Value.num _, Value.num _ => true
  | Value.str _, Value.str _ => true
  | Value.date _, Value.date _ => true
  | Value.oid _, Value.oid _ => true
  | _, _ => false

/-- A document whose identifier is the string `"1"`. -/
def sampleStringId : Value :=
  Value.obj [("_id", Value.str "1"), ("num", Value.num 9), ("pum", Value.num 9)]

/-- A document with `_id` 5 that lodash walks like an array and that holds an identifier that
is not persisted, in the property `ref`. -/
def sampleArrayLikeRef : Value :=
  Value.obj [("length", Value.num 0), ("_id", Value.num 5), ("ref", Value.oid (-1))]

/-- The document `{length: 0}` as `insert` hands it to `_put`, with a new identifier as its
`_id`. -/
def sampleArrayLikeNew : Value :=
  Value.obj [("length", Value.num 0), ("_id", freshObjectID)]

/-! ## Theorems -/

/-! ### Round trip of the type wrappers -/

theorem field_wrapProps_of_noDollar (k : String) (hk : k.data.head? = some '$')
    (len : Option Int) :
    ∀ kvs : List (String × Value), anyDollarProp kvs = false →
      Value.field k (wrapProps len kvs) = Value.undef
  | [], _ => rfl
  | (k1, v) :: r, h => by
      simp only [anyDollarProp, Bool.or_eq_false_iff, beq_eq_false_iff_ne, ne_eq] at h
      have hne : k1 ≠ k := by
        intro e
        apply h.1.1
        rw [e]; exact hk
      simp only [wrapProps, Value.field, if_neg hne]
      exact field_wrapProps_of_noDollar k hk len r h.2

theorem wrapValue_num_iff (v : Value) (n : Int) : wrapValue v = Value.num n ↔ v = Value.num n := by
  cases v <;> simp [wrapValue]

theorem field_wrapProps (k : String) (len : Option Int) :
    ∀ kvs : List (String × Value),
      Value.field k (wrapProps len kvs) =
        if visited len k then wrapValue (Value.field k kvs) else Value.field k kvs
  | [] => by
      simp only [wrapProps, Value.field]
      split <;> rfl
  | (k1, v) :: r => by
      by_cases e : k1 = k
      · subst e
        simp only [wrapProps, Value.field, if_true]
      · simp only [wrapProps, Value.field, if_neg e]
        exact field_wrapProps k len r

theorem eachLength_wrapProps (len : Option Int) (kvs : List (String × Value)) :
    eachLength (wrapProps len kvs) = eachLength kvs := by
  unfold eachLength
  rw [field_wrapProps]
  by_cases hv : visited len "length" = true
  · rw [if_pos hv]
    cases hf : Value.field "length" kvs <;> simp only [wrapValue]
  · rw [if_neg hv]

mutual
theorem unwrapValue_wrapValue : ∀ v : Value, hasDollarKey v = false →
    unwrapValue (wrapValue v) = v
  | Value.undef, _ => rfl
  | Value.null, _ => rfl
  | Value.bool _, _ => rfl
  | Value.num _, _ => rfl
  | Value.str _, _ => rfl
  | Value.date _, _ => rfl
  | Value.oid _, _ => rfl
  | Value.bin _, _ => rfl
  | Value.arr xs, h => by
      simp only [hasDollarKey] at h
      simp only [wrapValue, unwrapValue, unwrapItems_wrapItems xs h]
  | Value.obj kvs, h => by
      simp only [hasDollarKey] at h
      have hw : Value.field "$wrap" (wrapProps (eachLength kvs) kvs) = Value.undef :=
        field_wrapProps_of_noDollar "$wrap" (by decide) _ kvs h
      simp only [wrapValue, unwrapValue, hw, wrapTag, eachLength_wrapProps,
        unwrapProps_wrapProps (eachLength kvs) kvs h]
theorem unwrapItems_wrapItems : ∀ xs : List Value, anyDollarItem xs = false →
    unwrapItems (wrapItems xs) = xs
  | [], _ => rfl
  | x :: xs, h => by
      simp only [anyDollarItem, Bool.or_eq_false_iff] at h
      simp only [wrapItems, unwrapItems, unwrapValue_wrapValue x h.1,
        unwrapItems_wrapItems xs h.2]
theorem unwrapProps_wrapProps (len : Option Int) :
    ∀ kvs : List (String × Value), anyDollarProp kvs = false →
      unwrapProps len (wrapProps len kvs) = kvs
  | [], _ => rfl
  | (k, v) :: r, h => by
      simp only [anyDollarProp, Bool.or_eq_false_iff] at h
      by_cases hv : visited len k = true
      · simp only [wrapProps, unwrapProps, hv, if_true, unwrapValue_wrapValue v h.1.2,
          unwrapProps_wrapProps len r h.2]
      · simp only [wrapProps, unwrapProps, hv, Bool.false_eq_true, if_false,
          unwrapProps_wrapProps len r h.2]
end

mutual
theorem hasWrapTag_of_noDollar : ∀ v : Value, hasDollarKey v = false → hasWrapTag v = false
  | Value.undef, _ => rfl
  | Value.null, _ => rfl
  | Value.bool _, _ => rfl
  | Value.num _, _ => rfl
  | Value.str _, _ => rfl
  | Value.date _, _ => rfl
  | Value.oid _, _ => rfl
  | Value.bin _, _ => rfl
  | Value.arr xs, h => by
      simp only [hasDollarKey] at h
      simp only [hasWrapTag, anyWrapTagItem_of_noDollar xs h]
  | Value.obj kvs, h => by
      simp only [hasDollarKey] at h
      simp only [hasWrapTag, anyWrapTagProp_of_noDollar kvs h]
theorem anyWrapTagItem_of_noDollar : ∀ xs : List Value, anyDollarItem xs = false →
    anyWrapTagItem xs = false
  | [], _ => rfl
  | x :: xs, h => by
      simp only [anyDollarItem, Bool.or_eq_false_iff] at h
      simp only [anyWrapTagItem, hasWrapTag_of_noDollar x h.1,
        anyWrapTagItem_of_noDollar xs h.2, Bool.or_self]
theorem anyWrapTagProp_of_noDollar : ∀ kvs : List (String × Value),
    anyDollarProp kvs = false → anyWrapTagProp kvs = false
  | [], _ => rfl
  | (k, v) :: r, h => by
      simp only [anyDollarProp, Bool.or_eq_false_iff, beq_eq_false_iff_ne, ne_eq] at h
      have hk : (k == "$wrap") = false := by
        rw [beq_eq_false_iff_ne]
        intro e
        apply h.1.1
        rw [e]; decide
      simp only [anyWrapTagProp, hk, hasWrapTag_of_noDollar v h.1.2,
        anyWrapTagProp_of_noDollar r h.2, Bool.or_self]
end

theorem unwrapTypes_wrapTypes_eq (D : Value) (h : hasDollarKey D = false) :
    _unwrapTypes (_wrapTypes D) = D := by
  cases D with
  | arr xs =>
      simp only [hasDollarKey] at h
      simp only [_wrapTypes, _unwrapTypes, unwrapItems_wrapItems xs h]
  | obj kvs =>
      simp only [hasDollarKey] at h
      simp only [_wrapTypes, _unwrapTypes, eachLength_wrapProps,
        unwrapProps_wrapProps (eachLength kvs) kvs h]
  | _ => rfl

/-- C5: for every document `D` none of whose property names, at any depth, starts with `$`,
`_unwrapTypes (_wrapTypes D)` is `D` again, whatever dates, identifiers and binaries it holds
and however deeply objects and arrays are nested; hence every serialisation of the result is
the serialisation of `D`, and no `$wrap` property is left anywhere in it. -/
theorem wrapTypes_roundtrip (D : Value) (h : hasDollarKey D = false) :
    _unwrapTypes (_wrapTypes D) = D ∧
    (∀ serialize : Value → String,
      serialize (_unwrapTypes (_wrapTypes D)) = serialize D) ∧
    hasWrapTag (_unwrapTypes (_wrapTypes D)) = false := by
  have e := unwrapTypes_wrapTypes_eq D h
  refine ⟨e, fun serialize => by rw [e], ?_⟩
  rw [e]
  exact hasWrapTag_of_noDollar D h

/-- The sample document has no property name starting with `$`, and the round trip of C5
holds for it. -/
theorem wrapTypes_roundtrip_witness :
    hasDollarKey sampleDoc = false ∧
    (_unwrapTypes (_wrapTypes sampleDoc) = sampleDoc ∧
      (∀ serialize : Value → String,
        serialize (_unwrapTypes (_wrapTypes sampleDoc)) = serialize sampleDoc) ∧
      hasWrapTag (_unwrapTypes (_wrapTypes sampleDoc)) = false) :=
  ⟨by decide, wrapTypes_roundtrip sampleDoc (by decide)⟩

/-! ### Key validation -/

theorem keyError_eq_none_iff (k : String) : keyError k = none ↔ reservedKey k = false := by
  unfold keyError reservedKey
  by_cases h0 : k.length > 0
  · simp only [h0, if_true]
    by_cases h1 : k.data.head? = some '$'
    · simp [h1]
    · by_cases h2 : '.' ∈ k.data
      · simp [h1, h2]
      · simp [h1, h2]
  · have hd : k.data = [] := by
      have : k.data.length = 0 := by
        have e : k.length = k.data.length := rfl
        omega
      exact List.length_eq_zero.mp this
    simp [h0, hd]

theorem keyErrorAt_isSome (len : Option Int) (k : String)
    (h : (keyErrorAt len k).isSome = true) : reservedKey k = true := by
  cases len with
  | some n => simp [keyErrorAt] at h
  | none =>
      simp only [keyErrorAt] at h
      cases hb : reservedKey k with
      | true => rfl
      | false =>
          rw [(keyError_eq_none_iff k).mpr hb] at h
          simp at h

mutual
theorem ensureValue_spec : ∀ (c : Nat) (v : Value),
    (visitsReservedKey v = true → ∃ e, (ensureValue c v).2 = Except.error e) ∧
    (visitsReservedKey v = false →
      ∃ w, (ensureValue c v).2 = Except.ok w ∧ forgetIds w = forgetIds v)
  | c, Value.undef => ⟨fun h => by simp [visitsReservedKey] at h, fun _ => ⟨_, rfl, rfl⟩⟩
  | c, Value.null => ⟨fun h => by simp [visitsReservedKey] at h, fun _ => ⟨_, rfl, rfl⟩⟩
  | c, Value.bool _ => ⟨fun h => by simp [visitsReservedKey] at h, fun _ => ⟨_, rfl, rfl⟩⟩
  | c, Value.num _ => ⟨fun h => by simp [visitsReservedKey] at h, fun _ => ⟨_, rfl, rfl⟩⟩
  | c, Value.str _ => ⟨fun h => by simp [visitsReservedKey] at h, fun _ => ⟨_, rfl, rfl⟩⟩
  | c, Value.date _ => ⟨fun h => by simp [visitsReservedKey] at h, fun _ => ⟨_, rfl, rfl⟩⟩
  | c, Value.bin _ => ⟨fun h => by simp [visitsReservedKey] at h, fun _ => ⟨_, rfl, rfl⟩⟩
  | c, Value.oid i => by
      refine ⟨fun h => by simp [visitsReservedKey] at h, fun _ => ?_⟩
      by_cases hi : i < 0
      · exact ⟨Value.oid (Int.ofNat (c + 1)), by simp only [ensureValue, if_pos hi], rfl⟩
      · exact ⟨Value.oid i, by simp only [ensureValue, if_neg hi], rfl⟩
  | c, Value.arr xs => by
      have ih := ensureItems_spec c xs
      rcases hr : ensureItems c xs with ⟨c1, r⟩
      rw [hr] at ih
      refine ⟨fun h => ?_, fun h => ?_⟩
      · simp only [visitsReservedKey] at h
        obtain ⟨e, he⟩ := ih.1 h
        simp only at he
        subst he
        exact ⟨e, by simp only [ensureValue, hr]⟩
      · simp only [visitsReservedKey] at h
        obtain ⟨ys, he, hf⟩ := ih.2 h
        simp only at he
        subst he
        exact ⟨Value.arr ys, by simp only [ensureValue, hr], by simp only [forgetIds, hf]⟩
  | c, Value.obj kvs => by
      have ih := ensureProps_spec (eachLength kvs) c kvs
      rcases hr : ensureProps (eachLength kvs) c kvs with ⟨c1, r⟩
      rw [hr] at ih
      refine ⟨fun h => ?_, fun h => ?_⟩
      · simp only [visitsReservedKey] at h
        obtain ⟨e, he⟩ := ih.1 h
        simp only at he
        subst he
        exact ⟨e, by simp only [ensureValue, hr]⟩
      · simp only [visitsReservedKey] at h
        obtain ⟨ys, he, hf⟩ := ih.2 h
        simp only at he
        subst he
        exact ⟨Value.obj ys, by simp only [ensureValue, hr], by simp only [forgetIds, hf]⟩
theorem ensureItems_spec : ∀ (c : Nat) (xs : List Value),
    (anyVisitedReservedItem xs = true → ∃ e, (ensureItems c xs).2 = Except.error e) ∧
    (anyVisitedReservedItem xs = false →
      ∃ ys, (ensureItems c xs).2 = Except.ok ys ∧ forgetIdsItems ys = forgetIdsItems xs)
  | c, [] => ⟨fun h => by simp [anyVisitedReservedItem] at h, fun _ => ⟨[], rfl, rfl⟩⟩
  | c, x :: xs => by
      have ihx := ensureValue_spec c x
      rcases hx : ensureValue c x with ⟨c1, rx⟩
      rw [hx] at ihx
      cases rx with
      | error e =>
          refine ⟨fun _ => ⟨e, by simp only [ensureItems, hx]⟩, fun h => ?_⟩
          simp only [anyVisitedReservedItem, Bool.or_eq_false_iff] at h
          obtain ⟨w, hw, _⟩ := ihx.2 h.1
          simp at hw
      | ok y =>
          have hxf : visitsReservedKey x = false := by
            cases hb : visitsReservedKey x with
            | false => rfl
            | true =>
                obtain ⟨e, he⟩ := ihx.1 hb
                simp at he
          obtain ⟨w, hw, hwf⟩ := ihx.2 hxf
          simp only [Except.ok.injEq] at hw
          subst hw
          have ihr := ensureItems_spec c1 xs
          rcases hrest : ensureItems c1 xs with ⟨c2, rr⟩
          rw [hrest] at ihr
          refine ⟨fun h => ?_, fun h => ?_⟩
          · simp only [anyVisitedReservedItem, hxf, Bool.false_or] at h
            obtain ⟨e, he⟩ := ihr.1 h
            simp only at he
            subst he
            exact ⟨e, by simp only [ensureItems, hx, hrest]⟩
          · simp only [anyVisitedReservedItem, hxf, Bool.false_or] at h
            obtain ⟨ys, he, hf⟩ := ihr.2 h
            simp only at he
            subst he
            exact ⟨y :: ys, by simp only [ensureItems, hx, hrest],
              by simp only [forgetIdsItems, hwf, hf]⟩
theorem ensureProps_spec (len : Option Int) : ∀ (c : Nat) (kvs : List (String × Value)),
    (anyVisitedReservedProp len kvs = true →
      ∃ e, (ensureProps len c kvs).2 = Except.error e) ∧
    (anyVisitedReservedProp len kvs = false →
      ∃ r, (ensureProps len c kvs).2 = Except.ok r ∧
        forgetIdsProps r = forgetIdsProps kvs)
  | c, [] => ⟨fun h => by simp [anyVisitedReservedProp] at h, fun _ => ⟨[], rfl, rfl⟩⟩
  | c, (k, v) :: r => by
      cases hk : keyErrorAt len k with
      | some e =>
          refine ⟨fun _ => ⟨e, by simp only [ensureProps, hk]⟩, fun h => ?_⟩
          simp [anyVisitedReservedProp, hk] at h
      | none =>
          have ihv := ensureValue_spec c v
          have hstep : ∃ c1 rv, (if visited len k = true then ensureValue c v
              else (c, Except.ok v)) = (c1, rv) ∧
              ((visited len k && visitsReservedKey v) = true → ∃ e, rv = Except.error e) ∧
              ((visited len k && visitsReservedKey v) = false →
                ∃ w, rv = Except.ok w ∧ forgetIds w = forgetIds v) := by
            by_cases hvis : visited len k = true
            · rcases hv : ensureValue c v with ⟨c1, rv⟩
              rw [hv] at ihv
              refine ⟨c1, rv, by simp only [hvis, if_true], ?_, ?_⟩
              · intro h
                simp only [hvis, Bool.true_and] at h
                exact ihv.1 h
              · intro h
                simp only [hvis, Bool.true_and] at h
                exact ihv.2 h
            · refine ⟨c, Except.ok v, by simp only [hvis, Bool.false_eq_true, if_false],
                ?_, ?_⟩
              · intro h
                simp [hvis] at h
              · intro _
                exact ⟨v, rfl, rfl⟩
          obtain ⟨c1, rv, hv, hbad, hgood⟩ := hstep
          cases rv with
          | error e =>
              refine ⟨fun _ => ⟨e, by simp only [ensureProps, hk, hv]⟩, fun h => ?_⟩
              simp only [anyVisitedReservedProp, Bool.or_eq_false_iff] at h
              obtain ⟨w, hw, _⟩ := hgood h.1.2
              simp at hw
          | ok w =>
              have hvf : (visited len k && visitsReservedKey v) = false := by
                cases hb : (visited len k && visitsReservedKey v) with
                | false => rfl
                | true =>
                    obtain ⟨e, he⟩ := hbad hb
                    simp at he
              obtain ⟨w1, hw, hwf⟩ := hgood hvf
              simp only [Except.ok.injEq] at hw
              subst hw
              have ihr := ensureProps_spec len c1 r
              rcases hrest : ensureProps len c1 r with ⟨c2, rr⟩
              rw [hrest] at ihr
              refine ⟨fun h => ?_, fun h => ?_⟩
              · simp only [anyVisitedReservedProp, hk, hvf, Option.isSome_none,
                  Bool.false_or] at h
                obtain ⟨e, he⟩ := ihr.1 h
                simp only at he
                subst he
                exact ⟨e, by simp only [ensureProps, hk, hv, hrest]⟩
              · simp only [anyVisitedReservedProp, hk, hvf, Option.isSome_none,
                  Bool.false_or] at h
                obtain ⟨ys, he, hf⟩ := ihr.2 h
                simp only at he
                subst he
                exact ⟨(k, w) :: ys, by simp only [ensureProps, hk, hv, hrest],
                  by simp only [forgetIdsProps, hwf, hf]⟩
end

theorem ensureIds_spec (c : Nat) (D : Value) :
    (visitsReservedKey D = true → ∃ e, (_ensureIds c D).2 = Except.error e) ∧
    (visitsReservedKey D = false →
      ∃ w, (_ensureIds c D).2 = Except.ok w ∧ forgetIds w = forgetIds D) := by
  cases D with
  | arr xs =>
      have h := ensureValue_spec c (Value.arr xs)
      simpa only [ensureValue, _ensureIds] using h
  | obj kvs =>
      have h := ensureValue_spec c (Value.obj kvs)
      simpa only [ensureValue, _ensureIds] using h
  | oid i => exact ⟨fun h => by simp [visitsReservedKey] at h, fun _ => ⟨_, rfl, rfl⟩⟩
  | _ => exact ⟨fun h => by simp [visitsReservedKey] at h, fun _ => ⟨_, rfl, rfl⟩⟩

mutual
theorem hasReserved_of_visits : ∀ v : Value, visitsReservedKey v = true →
    hasReservedKey v = true
  | Value.arr xs, h => by
      simp only [visitsReservedKey] at h
      simp only [hasReservedKey, anyReserved_of_visitsItem xs h]
  | Value.obj kvs, h => by
      simp only [visitsReservedKey] at h
      simp only [hasReservedKey, anyReserved_of_visitsProp (eachLength kvs) kvs h]
  | Value.undef, h => by simp [visitsReservedKey] at h
  | Value.null, h => by simp [visitsReservedKey] at h
  | Value.bool _, h => by simp [visitsReservedKey] at h
  | Value.num _, h => by simp [visitsReservedKey] at h
  | Value.str _, h => by simp [visitsReservedKey] at h
  | Value.date _, h => by simp [visitsReservedKey] at h
  | Value.oid _, h => by simp [visitsReservedKey] at h
  | Value.bin _, h => by simp [visitsReservedKey] at h
theorem anyReserved_of_visitsItem : ∀ xs : List Value, anyVisitedReservedItem xs = true →
    anyReservedItem xs = true
  | [], h => by simp [anyVisitedReservedItem] at h
  | x :: xs, h => by
      simp only [anyVisitedReservedItem, Bool.or_eq_true] at h
      simp only [anyReservedItem, Bool.or_eq_true]
      rcases h with h | h
      · exact Or.inl (hasReserved_of_visits x h)
      · exact Or.inr (anyReserved_of_visitsItem xs h)
theorem anyReserved_of_visitsProp (len : Option Int) : ∀ kvs : List (String × Value),
    anyVisitedReservedProp len kvs = true → anyReservedProp kvs = true
  | [], h => by simp [anyVisitedReservedProp] at h
  | (k, v) :: r, h => by
      simp only [anyVisitedReservedProp, Bool.or_eq_true, Bool.and_eq_true] at h
      simp only [anyReservedProp, Bool.or_eq_true]
      rcases h with (h | h) | h
      · exact Or.inl (Or.inl (keyErrorAt_isSome len k h))
      · exact Or.inl (Or.inr (hasReserved_of_visits v h.2))
      · exact Or.inr (anyReserved_of_visitsProp len r h)
end

/-- C6 fails for a document that lodash walks like an array. The document
`{length: 0, "$bad": 1}` has a property name that starts with `$`, and so has
`{a: {length: 0, "b.c": 1}}` one that contains a dot, further down; `_.each` walks an object
with a numeric `length` by the indices below that length, here none, so the callback of
`_ensureIds` never gets these names and `_ensureIds` returns the documents without raising.
Without the `length`, the same names are refused. In general `_ensureIds` raises if and only
if the walk comes to a reserved property name; so the other half of the claim holds: a
document without a reserved property name is returned, the same but for the identifiers that
were persisted. -/
theorem ensureIds_array_like :
    hasReservedKey sampleArrayLike = true ∧
    _ensureIds 1 sampleArrayLike = (1, Except.ok sampleArrayLike) ∧
    hasReservedKey
      (Value.obj [("a", Value.obj [("length", Value.num 0), ("b.c", Value.num 1)])]) = true ∧
    _ensureIds 1
      (Value.obj [("a", Value.obj [("length", Value.num 0), ("b.c", Value.num 1)])]) =
      (1, Except.ok
        (Value.obj [("a", Value.obj [("length", Value.num 0), ("b.c", Value.num 1)])])) ∧
    (_ensureIds 1 (Value.obj [("$bad", Value.num 1)])).2 =
      Except.error (Err.keyDollar "$bad") ∧
    (_ensureIds 1 (Value.obj [("a", Value.obj [("b.c", Value.num 1)])])).2 =
      Except.error (Err.keyDot "b.c") ∧
    (∀ (ctr : Nat) (D : Value),
      (∃ e, (_ensureIds ctr D).2 = Except.error e) ↔ visitsReservedKey D = true) ∧
    (∀ (ctr : Nat) (D : Value),
      hasReservedKey D = true ∨
        ∃ w, (_ensureIds ctr D).2 = Except.ok w ∧ forgetIds w = forgetIds D) := by
  refine ⟨by decide, rfl, by decide, rfl, rfl, rfl, fun ctr D => ?_, fun ctr D => ?_⟩
  · have h := ensureIds_spec ctr D
    refine ⟨fun ⟨e, he⟩ => ?_, h.1⟩
    cases hb : visitsReservedKey D with
    | true => rfl
    | false =>
        obtain ⟨w, hw, _⟩ := h.2 hb
        rw [hw] at he
        simp at he
  · cases hb : visitsReservedKey D with
    | true => exact Or.inl (hasReserved_of_visits D hb)
    | false => exact Or.inr ((ensureIds_spec ctr D).2 hb)

/-! ### Skip and limit -/

theorem sliceRange_eq (range : List Nat) (skip : Nat) (limit : Option Nat)
    (hl : limit ≠ some 0) :
    sliceRange range skip limit = takeLimit limit (range.drop skip) := by
  unfold sliceRange
  by_cases h : (skip != 0 || limit != none) = true
  · rw [if_pos h]
    cases limit with
    | none =>
        simp only [limitOn, takeLimit, splice, Bool.false_eq_true, if_false, min_self]
        apply List.take_of_length_le
        simp only [List.length_drop]
        omega
    | some l =>
        have hl0 : l ≠ 0 := fun e => hl (by rw [e])
        have hon : limitOn (some l) = true := by simp [limitOn, hl0]
        simp only [hon, if_true, takeLimit, splice, Option.getD_some]
        by_cases hle : (range.length : Int) - (skip : Int) ≤ (l : Int)
        · rw [min_eq_left hle]
          rw [List.take_of_length_le, List.take_of_length_le]
          · simp only [List.length_drop]; omega
          · simp only [List.length_drop]; omega
        · rw [min_eq_right (by omega)]
          simp
  · rw [if_neg h]
    simp only [Bool.or_eq_true, bne_iff_ne, ne_eq, not_or, not_not] at h
    obtain ⟨h1, h2⟩ := h
    subst h1; subst h2
    simp [takeLimit]

theorem sliceRange_zero_none (range : List Nat) : sliceRange range 0 none = range := by
  simp [sliceRange]

theorem scanStep_nosort (env : Env) (c : Collection) (matcher : Value → Bool)
    (sort : Option String) (skip : Nat) (limit : Option Nat) (hs : sortOff sort = true)
    (b : List Nat) (g : Nat) (pos : Nat) :
    scanStep env c matcher sort skip limit ⟨b, g, none⟩ pos =
      if limitOn limit = true ∧ limit.getD 0 ≤ b.length then Except.ok ⟨b, g, none⟩
      else
        match c._get pos with
        | Except.error e => Except.error e
        | Except.ok obj =>
            if matcher obj = true then
              Except.ok ⟨if skip ≤ g then b ++ [pos] else b, g + 1, none⟩
            else Except.ok ⟨b, g, none⟩ := by
  unfold scanStep
  by_cases h : limitOn limit = true ∧ limit.getD 0 ≤ b.length
  · rw [if_pos h]
    simp [hs, h.1, h.2]
  · rw [if_neg h]
    have h2 : (sortOff sort && limitOn limit && decide (b.length ≥ limit.getD 0)) = false := by
      rw [Bool.eq_false_iff]
      intro hh
      simp only [Bool.and_eq_true, decide_eq_true_eq] at hh
      exact h ⟨hh.1.2, hh.2⟩
    rw [h2]
    simp only [Bool.false_eq_true, if_false, hs, Bool.not_true, Bool.false_or]
    cases c._get pos with
    | error e => rfl
    | ok obj =>
      simp only
      by_cases hm : matcher obj = true
      · simp only [hm, if_true]
        by_cases hsg : skip ≤ g
        · simp [hsg]
        · simp [hsg]
      · simp [hm]

theorem scanStep_sim (env : Env) (c : Collection) (matcher : Value → Bool)
    (sort : Option String) (skip : Nat) (limit : Option Nat) (hs : sortOff sort = true)
    (hl : limit ≠ some 0) (a : List Nat) (f : Nat) (b : List Nat) (g : Nat)
    (hR : ScanRel skip limit a b g) (pos : Nat) (s : Scan)
    (hfull : scanStep env c matcher sort 0 none ⟨a, f, none⟩ pos = Except.ok s) :
    ∃ s1, scanStep env c matcher sort skip limit ⟨b, g, none⟩ pos = Except.ok s1 ∧
      s.si = none ∧ s1.si = none ∧ ScanRel skip limit s.res s1.res s1.found := by
  rw [scanStep_nosort env c matcher sort 0 none hs] at hfull
  rw [scanStep_nosort env c matcher sort skip limit hs]
  simp only [limitOn, Bool.false_eq_true, false_and, if_false, Nat.zero_le, if_true] at hfull
  obtain ⟨hb, hg⟩ := hR
  cases hget : c._get pos with
  | error e => rw [hget] at hfull; simp at hfull
  | ok obj =>
    rw [hget] at hfull
    simp only at hfull ⊢
    by_cases hm : matcher obj = true
    · simp only [hm, if_true, Except.ok.injEq] at hfull ⊢
      subst hfull
      by_cases hreach : limitOn limit = true ∧ limit.getD 0 ≤ b.length
      · rw [if_pos hreach]
        refine ⟨⟨b, g, none⟩, rfl, rfl, rfl, ?_, Or.inl hreach⟩
        cases limit with
        | none => simp [limitOn] at hreach
        | some l =>
          simp only [takeLimit, Option.getD_some] at hb hreach ⊢
          have hlen : l ≤ (a.drop skip).length := by
            have := hreach.2
            rw [hb, List.length_take] at this
            omega
          have hl0 : l ≠ 0 := fun e => hl (by rw [e])
          have hska : skip ≤ a.length := by
            simp only [List.length_drop] at hlen; omega
          rw [List.drop_append_of_le_length hska, List.take_append_of_le_length hlen]
          exact hb
      · rw [if_neg hreach]
        have hg1 : g = a.length := by
          rcases hg with h | h
          · exact absurd h hreach
          · exact h
        refine ⟨_, rfl, rfl, rfl, ?_, Or.inr (by simp [hg1])⟩
        simp only
        by_cases hsg : skip ≤ g
        · rw [if_pos hsg]
          have hska : skip ≤ a.length := by omega
          rw [List.drop_append_of_le_length hska]
          cases limit with
          | none => simp only [takeLimit] at hb ⊢; rw [hb]
          | some l =>
            simp only [takeLimit, Option.getD_some] at hb hreach ⊢
            have hl0 : l ≠ 0 := fun e => hl (by rw [e])
            have hon : limitOn (some l) = true := by simp [limitOn, hl0]
            have hlt : b.length < l := by
              by_contra hh
              exact hreach ⟨hon, by omega⟩
            have hdl : (a.drop skip).length < l := by
              rw [hb, List.length_take] at hlt
              omega
            have hbd : b = a.drop skip := by
              rw [hb]; exact List.take_of_length_le (by omega)
            rw [hbd]
            symm
            apply List.take_of_length_le
            simp only [List.length_append, List.length_singleton]
            omega
        · rw [if_neg hsg]
          have h1 : List.drop skip (a ++ [pos]) = [] := by
            apply List.drop_of_length_le
            simp only [List.length_append, List.length_singleton]
            omega
          have h2 : List.drop skip a = [] := by
            apply List.drop_of_length_le
            omega
          rw [h1]
          rw [h2] at hb
          exact hb
    · simp only [hm, Bool.false_eq_true, if_false, Except.ok.injEq] at hfull ⊢
      subst hfull
      by_cases hreach : limitOn limit = true ∧ limit.getD 0 ≤ b.length
      · rw [if_pos hreach]
        exact ⟨⟨b, g, none⟩, rfl, rfl, rfl, hb, hg⟩
      · rw [if_neg hreach]
        exact ⟨⟨b, g, none⟩, rfl, rfl, rfl, hb, hg⟩

theorem scanLoop_sim (env : Env) (c : Collection) (matcher : Value → Bool)
    (sort : Option String) (skip : Nat) (limit : Option Nat) (hs : sortOff sort = true)
    (hl : limit ≠ some 0) :
    ∀ (range : List Nat) (a : List Nat) (f : Nat) (b : List Nat) (g : Nat) (s : Scan),
      ScanRel skip limit a b g →
      scanLoop env c matcher sort 0 none ⟨a, f, none⟩ range = Except.ok s →
      ∃ s1, scanLoop env c matcher sort skip limit ⟨b, g, none⟩ range = Except.ok s1 ∧
        s1.res = takeLimit limit (s.res.drop skip)
  | [], a, f, b, g, s, hR, hfull => by
      simp only [scanLoop, Except.ok.injEq] at hfull
      subst hfull
      exact ⟨⟨b, g, none⟩, rfl, hR.1⟩
  | pos :: r, a, f, b, g, s, hR, hfull => by
      simp only [scanLoop] at hfull ⊢
      cases hstep : scanStep env c matcher sort 0 none ⟨a, f, none⟩ pos with
      | error e => rw [hstep] at hfull; simp at hfull
      | ok t =>
        rw [hstep] at hfull
        simp only at hfull
        obtain ⟨t1, ht1, hsi, hsi1, hR1⟩ :=
          scanStep_sim env c matcher sort skip limit hs hl a f b g hR pos t hstep
        rw [ht1]
        simp only
        obtain ⟨ta, tf, tsi⟩ := t
        obtain ⟨tb, tg, tsi1⟩ := t1
        simp only at hsi hsi1 hR1
        subst hsi; subst hsi1
        exact scanLoop_sim env c matcher sort skip limit hs hl r ta tf tb tg s hR1 hfull

theorem scanStep_sorting (env : Env) (c : Collection) (matcher : Value → Bool)
    (sort : Option String) (skip : Nat) (limit : Option Nat) (hs : sortOff sort = false)
    (s : Scan) (pos : Nat) :
    scanStep env c matcher sort skip limit s pos = scanStep env c matcher sort 0 none s pos := by
  unfold scanStep
  simp only [hs, Bool.false_and, Bool.false_eq_true, if_false, Bool.not_false, Bool.true_or,
    if_true]

theorem scanLoop_sorting (env : Env) (c : Collection) (matcher : Value → Bool)
    (sort : Option String) (skip : Nat) (limit : Option Nat) (hs : sortOff sort = false) :
    ∀ (range : List Nat) (s : Scan),
      scanLoop env c matcher sort skip limit s range =
        scanLoop env c matcher sort 0 none s range
  | [], s => rfl
  | pos :: r, s => by
      simp only [scanLoop, scanStep_sorting env c matcher sort skip limit hs]
      cases scanStep env c matcher sort 0 none s pos with
      | error e => rfl
      | ok t => exact scanLoop_sorting env c matcher sort skip limit hs r t

/-- C3: for every query, sort key, skip and limit (`null` or at least 1), whenever
`__find(query, 0, null)` returns a list, `__find(query, skip, limit)` returns that list with
its first `skip` elements dropped and then cut to at most `limit` elements; in particular a
skip that is not smaller than the number of matches gives the empty list. This covers the
direct slice, the scan that stops at the limit, and the slice after a sort pass. -/
theorem find_skip_limit (env : Env) (c : Collection) (qt : Query) (skip : Nat)
    (limit : Option Nat) (sort : Option String) (order : Int)
    (hint : Option (String → Bool)) (arFields : String → Bool) (L : List Nat)
    (hl : limit ≠ some 0)
    (hfull : __find env c qt 0 none sort order hint arFields = Except.ok L) :
    __find env c qt skip limit sort order hint arFields =
      Except.ok (takeLimit limit (L.drop skip)) ∧
    (L.length ≤ skip → __find env c qt skip limit sort order hint arFields = Except.ok []) := by
  have main : __find env c qt skip limit sort order hint arFields =
      Except.ok (takeLimit limit (L.drop skip)) := by
    unfold __find at hfull ⊢
    cases hc : candidates c qt sort order hint with
    | error e => rw [hc] at hfull; simp at hfull
    | ok t =>
      obtain ⟨range, qt1, sort1⟩ := t
      rw [hc] at hfull
      simp only at hfull ⊢
      by_cases hd : (sortOff sort1 && qt1.isEmpty) = true
      · rw [if_pos hd] at hfull ⊢
        rw [sliceRange_zero_none] at hfull
        simp only [Except.ok.injEq] at hfull
        subst hfull
        rw [sliceRange_eq range skip limit hl]
      · rw [if_neg hd] at hfull ⊢
        cases hso : sortOff sort1 with
        | true =>
          simp only [hso, if_true, Bool.not_true, Bool.false_eq_true, if_false] at hfull ⊢
          cases hscan : scanLoop env c
              (if (env.searchInArray || qt1.any fun cl => arFields cl.field) = true
                then qt1.native3 else qt1.native)
              sort1 0 none ⟨[], 0, none⟩ range with
          | error e => rw [hscan] at hfull; simp at hfull
          | ok sfull =>
            rw [hscan] at hfull
            simp only [Except.ok.injEq] at hfull
            obtain ⟨s1, hs1, hres⟩ := scanLoop_sim env c _ sort1 skip limit hso hl range
              [] 0 [] 0 sfull ⟨by cases limit <;> simp [takeLimit], Or.inr rfl⟩ hscan
            rw [hs1]
            simp only [Except.ok.injEq]
            rw [hres, hfull]
        | false =>
          simp only [hso, Bool.false_eq_true, if_false, Bool.not_false, if_true] at hfull ⊢
          rw [scanLoop_sorting env c _ sort1 skip limit hso]
          cases hscan : scanLoop env c
              (if (env.searchInArray || qt1.any fun cl => arFields cl.field) = true
                then qt1.native3 else qt1.native)
              sort1 0 none ⟨[], 0, some (TIndex.new (propKey sort1) "" false)⟩ range with
          | error e => rw [hscan] at hfull; simp at hfull
          | ok sfull =>
            rw [hscan] at hfull
            simp only [Except.ok.injEq] at hfull ⊢
            rw [sliceRange_zero_none] at hfull
            rw [sliceRange_eq _ skip limit hl, hfull]
  refine ⟨main, fun hlen => ?_⟩
  rw [main, List.drop_of_length_le hlen]
  cases limit <;> simp [takeLimit]

/-! ### Association lists -/

theorem lookup_mem {β : Type} (k : String) (v : β) :
    ∀ l : List (String × β), l.lookup k = some v → (k, v) ∈ l
  | [], h => by simp at h
  | (k1, v1) :: r, h => by
      by_cases e : k = k1
      · subst e
        simp only [List.lookup, beq_self_eq_true, Option.some.injEq] at h
        subst h
        exact List.mem_cons_self _ _
      · have hb : (k == k1) = false := by simpa using e
        simp only [List.lookup, hb] at h
        exact List.mem_cons_of_mem _ (lookup_mem k v r h)

theorem lookup_of_mem_nodup {β : Type} (k : String) (v : β) :
    ∀ l : List (String × β), (l.map Prod.fst).Nodup → (k, v) ∈ l → l.lookup k = some v
  | [], _, h => by simp at h
  | (k1, v1) :: r, hn, h => by
      simp only [List.map_cons, List.nodup_cons] at hn
      rcases List.mem_cons.mp h with h1 | h1
      · simp only [Prod.mk.injEq] at h1
        obtain ⟨e1, e2⟩ := h1
        subst e1; subst e2
        simp [List.lookup]
      · have hne : k ≠ k1 := by
          intro e
          subst e
          exact hn.1 (List.mem_map.mpr ⟨(k, v), h1, rfl⟩)
        have hb : (k == k1) = false := by simpa using hne
        simp only [List.lookup, hb]
        exact lookup_of_mem_nodup k v r hn.2 h1

theorem mem_unique_of_nodup {β : Type} (l : List (String × β))
    (hn : (l.map Prod.fst).Nodup) (k : String) (v w : β) (h1 : (k, v) ∈ l)
    (h2 : (k, w) ∈ l) : v = w := by
  have a := lookup_of_mem_nodup k v l hn h1
  have b := lookup_of_mem_nodup k w l hn h2
  rw [a] at b
  exact Option.some.inj b

/-! ### Splitting a query -/

theorem split_of_mem (k : String) : ∀ qt : Query, (∃ cl ∈ qt, cl.field = k) →
    ∃ cl, (qt.split k).1 = some cl ∧ cl.field = k ∧ qt.Perm (cl :: (qt.split k).2)
  | [], h => by obtain ⟨cl, hm, _⟩ := h; simp at hm
  | c0 :: r, h => by
      by_cases e : c0.field = k
      · refine ⟨c0, ?_, e, ?_⟩
        · simp [Query.split, e]
        · simp [Query.split, e]
      · have hb : (c0.field == k) = false := by simpa using e
        have h1 : ∃ cl ∈ r, cl.field = k := by
          obtain ⟨cl, hm, hf⟩ := h
          rcases List.mem_cons.mp hm with h2 | h2
          · subst h2; exact absurd hf e
          · exact ⟨cl, h2, hf⟩
        obtain ⟨cl, hs, hf, hp⟩ := split_of_mem k r h1
        refine ⟨cl, ?_, hf, ?_⟩
        · simp only [Query.split, hb, Bool.false_eq_true, if_false]
          exact hs
        · simp only [Query.split, hb, Bool.false_eq_true, if_false]
          exact (List.Perm.cons c0 hp).trans (List.Perm.swap cl c0 _)

theorem ex_pos_mem (k : String) : ∀ qt : Query, qt._ex k ≠ 0 → ∃ cl ∈ qt, cl.field = k
  | [], h => by simp [Query._ex] at h
  | c0 :: r, h => by
      by_cases e : c0.field = k
      · exact ⟨c0, List.mem_cons_self _ _, e⟩
      · have hb : (c0.field == k) = false := by simpa using e
        have : Query._ex r k ≠ 0 := by
          simpa [Query._ex, List.filter_cons, hb] using h
        obtain ⟨cl, hm, hf⟩ := ex_pos_mem k r this
        exact ⟨cl, List.mem_cons_of_mem _ hm, hf⟩

theorem ex_perm (k : String) (q1 q2 : Query) (h : q1.Perm q2) :
    Query._ex q1 k = Query._ex q2 k := by
  unfold Query._ex
  exact ((h.filter _).map _).sum_eq

theorem ex_split_ne (qt : Query) (k k1 : String) (hne : k1 ≠ k)
    (hk : ∃ cl ∈ qt, cl.field = k) : Query._ex (qt.split k).2 k1 = Query._ex qt k1 := by
  obtain ⟨cl, _, hf, hp⟩ := split_of_mem k qt hk
  rw [ex_perm k1 qt _ hp]
  have hb : (cl.field == k1) = false := by
    rw [hf]; simpa using (Ne.symm hne)
  simp [Query._ex, List.filter_cons, hb]

theorem splitAll_spec : ∀ (ks : List String) (qt : Query), ks.Nodup →
    (∀ k ∈ ks, Query._ex qt k = 1) →
    (∀ kv ∈ (splitAll qt ks).1, ∃ cl, kv.2 = some cl ∧ cl.field = kv.1) ∧
    (splitAll qt ks).1.map Prod.fst = ks ∧
    qt.Perm ((splitAll qt ks).1.filterMap Prod.snd ++ (splitAll qt ks).2)
  | [], qt, _, _ => by simp [splitAll]
  | k :: ks, qt, hn, hex => by
      have hk : ∃ cl ∈ qt, cl.field = k :=
        ex_pos_mem k qt (by rw [hex k (List.mem_cons_self _ _)]; decide)
      obtain ⟨cl, hs, hf, hp⟩ := split_of_mem k qt hk
      rw [List.nodup_cons] at hn
      have hex1 : ∀ k1 ∈ ks, Query._ex (qt.split k).2 k1 = 1 := by
        intro k1 hk1
        have hne : k1 ≠ k := fun e => hn.1 (e ▸ hk1)
        rw [ex_split_ne qt k k1 hne hk]
        exact hex k1 (List.mem_cons_of_mem _ hk1)
      obtain ⟨ih1, ih2, ih3⟩ := splitAll_spec ks (qt.split k).2 hn.2 hex1
      refine ⟨?_, ?_, ?_⟩
      · intro kv hkv
        simp only [splitAll, List.mem_cons] at hkv
        rcases hkv with h | h
        · subst h; exact ⟨cl, hs, hf⟩
        · exact ih1 kv h
      · simp only [splitAll, List.map_cons, ih2]
      · simp only [splitAll, List.filterMap_cons, hs, List.cons_append]
        exact hp.trans (List.Perm.cons cl ih3)

theorem lookup_isSome_of_mem {β : Type} (k : String) :
    ∀ l : List (String × β), k ∈ l.map Prod.fst → ∃ v, l.lookup k = some v
  | [], h => by simp at h
  | (k1, v1) :: r, h => by
      by_cases e : k = k1
      · subst e; exact ⟨v1, by simp [List.lookup]⟩
      · have hb : (k == k1) = false := by simpa using e
        simp only [List.map_cons, List.mem_cons] at h
        rcases h with h | h
        · exact absurd h e
        · obtain ⟨v, hv⟩ := lookup_isSome_of_mem k r h
          exact ⟨v, by simp only [List.lookup, hb]; exact hv⟩

theorem indexLookups_eq (c : Collection) : ∀ io : List (String × Option Clause),
    (∀ kv ∈ io, ∃ cl, kv.2 = some cl ∧ cl.field = kv.1) →
    (∀ kv ∈ io, ∃ ix, c.idx kv.1 = some ix) →
    indexLookups c io = Except.ok (io.map (idsFor c))
  | [], _, _ => rfl
  | (k, sub) :: r, h1, h2 => by
      obtain ⟨cl, hcl, _⟩ := h1 (k, sub) (List.mem_cons_self _ _)
      obtain ⟨ix, hix⟩ := h2 (k, sub) (List.mem_cons_self _ _)
      simp only at hcl hix
      subst hcl
      have ih := indexLookups_eq c r (fun kv hkv => h1 kv (List.mem_cons_of_mem _ hkv))
        (fun kv hkv => h2 kv (List.mem_cons_of_mem _ hkv))
      simp only [indexLookups, hix, ih, List.map_cons, idsFor]

theorem positionsOf_eq (c : Collection) : ∀ ids : List SKey,
    (∀ id ∈ ids, ∃ p, c._store.lookup id.propName = some p) →
    positionsOf c ids = Except.ok (ids.map c.posD)
  | [], _ => rfl
  | id :: r, h => by
      obtain ⟨p, hp⟩ := h id (List.mem_cons_self _ _)
      have ih := positionsOf_eq c r (fun i hi => h i (List.mem_cons_of_mem _ hi))
      simp only [positionsOf, Collection.posOf, hp, ih, List.map_cons, Collection.posD,
        Option.getD_some]

theorem mem_intersectIndexes (id : SKey) : ∀ p : List (List SKey), p ≠ [] →
    (id ∈ intersectIndexes p ↔ ∀ m ∈ p, id ∈ m)
  | [], h => absurd rfl h
  | l :: ls, _ => by
      simp only [intersectIndexes, List.mem_filter, List.all_eq_true, List.elem_eq_mem,
        List.contains_eq_any_beq, List.any_eq_true, beq_iff_eq, exists_eq_right,
        decide_eq_true_eq, List.mem_cons, forall_eq_or_imp]

theorem mem_index (cl : Clause) (ix : TIndex SKey) (id : SKey) :
    id ∈ cl._index ix ↔ ∃ e ∈ ix.entries, cl.test e.1 = true ∧ e.2 = id := by
  simp only [Clause._index, List.mem_map, List.mem_filter]
  constructor
  · rintro ⟨e, ⟨h1, h2⟩, h3⟩; exact ⟨e, h1, h2, h3⟩
  · rintro ⟨e, h1, h2, h3⟩; exact ⟨e, ⟨h1, h2⟩, h3⟩

/-! ### Entries of a consistent index -/

theorem entry_facts {env : Env} {c : Collection} (hc : Consistent env c) {k : String}
    {ix : TIndex SKey} (hix : (k, ix) ∈ c._idx)
    {e : Value × SKey} (he : e ∈ ix.entries) :
    ∃ d, (e.2.propName, c.posD e.2) ∈ c._store ∧ c._get (c.posD e.2) = Except.ok d ∧
      simplifyKey (d.get "_id") = some e.2 ∧ e.1 = getFieldValue d k ∧
      c._store.lookup e.2.propName = some (c.posD e.2) := by
  obtain ⟨pos, d, h1, h2, h3, h4⟩ := hc.idx_sound k ix hix e he
  have hl := lookup_of_mem_nodup _ _ _ hc.store_nodup h1
  have hp : c.posD e.2 = pos := by simp [Collection.posD, hl]
  rw [hp]
  exact ⟨d, h1, h2, h3, h4, hl⟩

theorem pos_name_unique {env : Env} {c : Collection} (hc : Consistent env c)
    {n1 n2 : String} {pos : Nat} (h1 : (n1, pos) ∈ c._store)
    (h2 : (n2, pos) ∈ c._store) : n1 = n2 := by
  have hn := hc.pos_nodup
  have key : ∀ l : List (String × Nat), (l.map Prod.snd).Nodup → (n1, pos) ∈ l →
      (n2, pos) ∈ l → n1 = n2 := by
    intro l
    induction l with
    | nil => intro _ h; simp at h
    | cons x r ih =>
      intro hnd a b
      simp only [List.map_cons, List.nodup_cons] at hnd
      rcases List.mem_cons.mp a with a1 | a1 <;> rcases List.mem_cons.mp b with b1 | b1
      · rw [← a1] at b1; exact (Prod.mk.inj b1).1.symm
      · exfalso; apply hnd.1; rw [← a1]; exact List.mem_map.mpr ⟨(n2, pos), b1, rfl⟩
      · exfalso; apply hnd.1; rw [← b1]; exact List.mem_map.mpr ⟨(n1, pos), a1, rfl⟩
      · exact ih hnd.2 a1 b1
  exact key _ hn h1 h2

theorem get_unique {c : Collection} {pos : Nat} {d1 d2 : Value} (h1 : c._get pos = Except.ok d1)
    (h2 : c._get pos = Except.ok d2) : d1 = d2 := by
  rw [h1] at h2
  exact Except.ok.inj h2

theorem keyAt_entry {env : Env} {c : Collection} (hc : Consistent env c) {k : String}
    {ix : TIndex SKey} (hix : (k, ix) ∈ c._idx) {e : Value × SKey} (he : e ∈ ix.entries) :
    c.keyAt k (c.posD e.2) = e.1 := by
  obtain ⟨d, _, h2, _, h4, _⟩ := entry_facts hc hix he
  simp only [Collection.keyAt, h2, h4]

theorem liveAt_entry {env : Env} {c : Collection} (hc : Consistent env c) {k : String}
    {ix : TIndex SKey} (hix : (k, ix) ∈ c._idx) {e : Value × SKey} (he : e ∈ ix.entries) :
    ∃ d, c.LiveAt (c.posD e.2) d ∧ e.1 = getFieldValue d k := by
  obtain ⟨d, h1, h2, _, h4, _⟩ := entry_facts hc hix he
  exact ⟨d, ⟨_, h1, h2⟩, h4⟩

theorem entry_of_live {env : Env} {c : Collection} (hc : Consistent env c) {k : String}
    {ix : TIndex SKey} (hix : (k, ix) ∈ c._idx) {pos : Nat} {d : Value}
    (hl : c.LiveAt pos d) :
    ∃ e ∈ ix.entries, c.posD e.2 = pos ∧ e.1 = getFieldValue d k ∧
      simplifyKey (d.get "_id") = some e.2 := by
  obtain ⟨name, hm, hg⟩ := hl
  obtain ⟨e, he, hn⟩ := hc.idx_complete k ix hix name pos hm
  obtain ⟨d1, h1, h2, h3, h4, _⟩ := entry_facts hc hix he
  rw [hn] at h1
  have hp : c.posD e.2 = pos := mem_unique_of_nodup _ hc.store_nodup _ _ _ h1 hm
  rw [hp] at h2
  have hd : d1 = d := get_unique h2 hg
  subst hd
  exact ⟨e, he, hp, h4, h3⟩

theorem ids_positions {env : Env} {c : Collection} (hc : Consistent env c) {k : String}
    {ix : TIndex SKey} (hix : (k, ix) ∈ c._idx) (ids : List SKey) (hnd : ids.Nodup)
    (hmem : ∀ id ∈ ids, ∃ e ∈ ix.entries, e.2 = id) :
    positionsOf c ids = Except.ok (ids.map c.posD) ∧ (ids.map c.posD).Nodup := by
  constructor
  · apply positionsOf_eq
    intro id hid
    obtain ⟨e, he, h⟩ := hmem id hid
    obtain ⟨_, _, _, _, _, hl⟩ := entry_facts hc hix he
    rw [h] at hl
    exact ⟨_, hl⟩
  · apply List.Nodup.map_on _ hnd
    intro x hx y hy hxy
    obtain ⟨e1, he1, h1⟩ := hmem x hx
    obtain ⟨e2, he2, h2⟩ := hmem y hy
    obtain ⟨d1, a1, a2, a3, _, _⟩ := entry_facts hc hix he1
    obtain ⟨d2, b1, b2, b3, _, _⟩ := entry_facts hc hix he2
    rw [h1] at a1 a2 a3
    rw [h2] at b1 b2 b3
    rw [hxy] at a2
    have hd : d1 = d2 := get_unique a2 b2
    subst hd
    rw [a3] at b3
    exact Option.some.inj b3

theorem entries_sorted_positions {env : Env} {c : Collection} (hc : Consistent env c)
    {k : String} {ix : TIndex SKey} (hix : (k, ix) ∈ c._idx) (es : List (Value × SKey))
    (hsub : es.Sublist ix.entries) :
    ((es.map Prod.snd).map c.posD).Pairwise
      (fun a b => env.le (c.keyAt k a) (c.keyAt k b) = true) := by
  rw [List.map_map, List.pairwise_map]
  have hs : es.Pairwise (fun a b => env.le a.1 b.1 = true) :=
    (hc.idx_sorted k ix hix).sublist hsub
  refine hs.imp_of_mem ?_
  intro a b ha hb hab
  simp only [Function.comp]
  rw [keyAt_entry hc hix (hsub.subset ha), keyAt_entry hc hix (hsub.subset hb)]
  exact hab

theorem all_positions {env : Env} {c : Collection} (hc : Consistent env c) {k : String}
    {ix : TIndex SKey} (hix : (k, ix) ∈ c._idx) :
    positionsOf c ix.all = Except.ok (ix.all.map c.posD) ∧ (ix.all.map c.posD).Nodup ∧
    (∀ pos, pos ∈ ix.all.map c.posD ↔ ∃ d, c.LiveAt pos d) ∧
    (ix.all.map c.posD).Pairwise (fun a b => env.le (c.keyAt k a) (c.keyAt k b) = true) := by
  have h := ids_positions hc hix ix.all (hc.idx_ids_nodup k ix hix)
    (fun id hid => by
      obtain ⟨e, he, h⟩ := List.mem_map.mp hid
      exact ⟨e, he, h⟩)
  refine ⟨h.1, h.2, ?_, ?_⟩
  · intro pos
    constructor
    · intro hp
      obtain ⟨id, hid, e1⟩ := List.mem_map.mp hp
      obtain ⟨e, he, e2⟩ := List.mem_map.mp hid
      obtain ⟨d, hl, _⟩ := liveAt_entry hc hix he
      rw [e2, e1] at hl
      exact ⟨d, hl⟩
    · rintro ⟨d, hl⟩
      obtain ⟨e, he, hp, _, _⟩ := entry_of_live hc hix hl
      exact List.mem_map.mpr ⟨e.2, List.mem_map.mpr ⟨e, he, rfl⟩, hp⟩
  · exact entries_sorted_positions hc hix ix.entries (List.Sublist.refl _)

theorem possibleIndexes_spec {env : Env} {c : Collection} (hc : Consistent env c) (qt : Query)
    (hint : Option (String → Bool)) :
    (possibleIndexes c qt hint).Nodup ∧
    ∀ k ∈ possibleIndexes c qt hint, Query._ex qt k = 1 ∧ ∃ ix, c.idx k = some ix := by
  unfold possibleIndexes
  by_cases h : qt.length > 0
  · rw [if_pos h]
    constructor
    · exact (hc.idx_nodup).sublist ((List.filter_sublist _).map _)
    · intro k hk
      obtain ⟨kv, hkv, e⟩ := List.mem_map.mp hk
      rw [List.mem_filter] at hkv
      subst e
      constructor
      · have := hkv.2
        simp only [Bool.and_eq_true, beq_iff_eq] at this
        exact this.1
      · exact lookup_isSome_of_mem _ _ (List.mem_map.mpr ⟨kv, hkv.1, rfl⟩)
  · rw [if_neg h]
    simp

theorem io_range {env : Env} {c : Collection} (hc : Consistent env c)
    (io : List (String × Option Clause)) (hne : io ≠ [])
    (h1 : ∀ kv ∈ io, ∃ cl, kv.2 = some cl ∧ cl.field = kv.1)
    (h2 : ∀ kv ∈ io, ∃ ix, c.idx kv.1 = some ix)
    (ids : List SKey) (hnd : ids.Nodup)
    (hids : ∀ id, id ∈ ids ↔ ∀ kv ∈ io, id ∈ idsFor c kv) :
    positionsOf c ids = Except.ok (ids.map c.posD) ∧ (ids.map c.posD).Nodup ∧
    ∀ pos, pos ∈ ids.map c.posD ↔
      ∃ d, c.LiveAt pos d ∧
        ∀ cl ∈ io.filterMap Prod.snd, cl.test (getFieldValue d cl.field) = true := by
  -- what membership in one list of `p` means
  have hkv : ∀ kv ∈ io, ∃ cl ix, kv.2 = some cl ∧ cl.field = kv.1 ∧ (kv.1, ix) ∈ c._idx ∧
      idsFor c kv = cl._index ix := by
    intro kv hm
    obtain ⟨cl, a, b⟩ := h1 kv hm
    obtain ⟨ix, hix⟩ := h2 kv hm
    refine ⟨cl, ix, a, b, lookup_mem _ _ _ hix, ?_⟩
    simp only [idsFor, a, hix]
  obtain ⟨kv0, hkv0⟩ := List.exists_mem_of_ne_nil io hne
  obtain ⟨cl0, ix0, _, _, hix0, hf0⟩ := hkv kv0 hkv0
  have hent : ∀ id ∈ ids, ∃ e ∈ ix0.entries, e.2 = id := by
    intro id hid
    have := (hids id).mp hid kv0 hkv0
    rw [hf0, mem_index] at this
    obtain ⟨e, he, _, h⟩ := this
    exact ⟨e, he, h⟩
  obtain ⟨hp, hn⟩ := ids_positions hc hix0 ids hnd hent
  refine ⟨hp, hn, ?_⟩
  intro pos
  constructor
  · intro hpos
    obtain ⟨id, hid, e1⟩ := List.mem_map.mp hpos
    obtain ⟨e0, he0, e2⟩ := hent id hid
    obtain ⟨d, hl, _⟩ := liveAt_entry hc hix0 he0
    rw [e2, e1] at hl
    refine ⟨d, hl, ?_⟩
    intro cl hcl
    obtain ⟨kv, hm, hs⟩ := List.mem_filterMap.mp hcl
    obtain ⟨cl1, ix, a, b, hix, hf⟩ := hkv kv hm
    rw [a] at hs
    have hcl1 : cl1 = cl := Option.some.inj hs
    subst hcl1
    have := (hids id).mp hid kv hm
    rw [hf, mem_index] at this
    obtain ⟨e, he, ht, h⟩ := this
    obtain ⟨d1, hl1, hv⟩ := liveAt_entry hc hix he
    rw [h, e1] at hl1
    obtain ⟨_, _, g1⟩ := hl1
    obtain ⟨_, _, g⟩ := hl
    have hd : d1 = d := get_unique g1 g
    subst hd
    rw [b, ← hv]
    exact ht
  · rintro ⟨d, hl, hall⟩
    obtain ⟨e0, he0, hp0, _, hk0⟩ := entry_of_live hc hix0 hl
    refine List.mem_map.mpr ⟨e0.2, ?_, hp0⟩
    rw [hids]
    intro kv hm
    obtain ⟨cl, ix, a, b, hix, hf⟩ := hkv kv hm
    obtain ⟨e, he, _, hv, hk⟩ := entry_of_live hc hix hl
    rw [hk0] at hk
    have hid : e0.2 = e.2 := Option.some.inj hk
    rw [hf, mem_index]
    refine ⟨e, he, ?_, hid.symm⟩
    have := hall cl (List.mem_filterMap.mpr ⟨kv, hm, a⟩)
    rw [b, ← hv] at this
    exact this

theorem index_nodup {env : Env} {c : Collection} (hc : Consistent env c) {k : String}
    {ix : TIndex SKey} (hix : (k, ix) ∈ c._idx) (cl : Clause) : (cl._index ix).Nodup := by
  unfold Clause._index
  exact (hc.idx_ids_nodup k ix hix).sublist ((List.filter_sublist _).map _)

theorem readIdx_cases (c : Collection) (k : String) :
    (∃ ix, c.readIdx k = IdxRead.index ix ∧ c.idx k = some ix) ∨
    (c.readIdx k = IdxRead.inherited ∧ c.idx k = none) ∨
    (c.readIdx k = IdxRead.absent ∧ c.idx k = none) := by
  unfold Collection.readIdx
  cases h : c.idx k with
  | some ix => exact Or.inl ⟨ix, rfl, rfl⟩
  | none =>
    cases hp : objectProtoNames.contains k with
    | true => exact Or.inr (Or.inl ⟨rfl, rfl⟩)
    | false => exact Or.inr (Or.inr ⟨rfl, rfl⟩)

theorem readIdx_null (c : Collection) : c.readIdx "null" ≠ IdxRead.inherited := by
  unfold Collection.readIdx
  cases c.idx "null" with
  | some ix => simp
  | none =>
    have h : objectProtoNames.contains "null" = false := by decide
    simp only [h]
    exact fun e => by cases e

theorem sortedBy_of_asc (env : Env) (c : Collection) (s : String) (order : Int)
    (l : List Nat)
    (h : l.Pairwise (fun a b => env.le (c.keyAt s a) (c.keyAt s b) = true)) :
    SortedBy env c s order (if (order == -1) = true then l.reverse else l) := by
  unfold SortedBy
  by_cases ho : order = -1
  · have hb : (order == -1) = true := by simpa using ho
    rw [if_pos ho, if_pos hb, List.pairwise_reverse]
    exact h
  · have hb : ¬ ((order == -1) = true) := by simpa using ho
    rw [if_neg ho, if_neg hb]
    exact h

theorem candidatesByQuery_spec {env : Env} {c : Collection} (hc : Consistent env c)
    (qt : Query) (sort_ : Option String) (order : Int) (hint : Option (String → Bool))
    (hsafe : c.readIdx (propKey sort_) ≠ IdxRead.inherited) :
    ∃ range qt1 sortA sp,
      candidatesByQuery c qt sort_ order hint = Except.ok (range, qt1, sortA) ∧
      qt.Perm (sp ++ qt1) ∧ range.Nodup ∧
      (∀ pos, pos ∈ range ↔
        ∃ d, c.LiveAt pos d ∧ ∀ cl ∈ sp, cl.test (getFieldValue d cl.field) = true) ∧
      (sortA = sort_ ∨
        (sortA = none ∧ ∀ s, sort_ = some s → SortedBy env c s order range)) := by
  obtain ⟨hnd, hpi⟩ := possibleIndexes_spec hc qt hint
  unfold candidatesByQuery
  simp only
  by_cases hlen : (possibleIndexes c qt hint).length > 0
  · rw [if_pos hlen]
    obtain ⟨h1, h2, h3⟩ := splitAll_spec _ qt hnd (fun k hk => (hpi k hk).1)
    have hix : ∀ kv ∈ (splitAll qt (possibleIndexes c qt hint)).1,
        ∃ ix, c.idx kv.1 = some ix := by
      intro kv hm
      have : kv.1 ∈ possibleIndexes c qt hint := by
        rw [← h2]; exact List.mem_map.mpr ⟨kv, hm, rfl⟩
      exact (hpi _ this).2
    rw [indexLookups_eq c _ h1 hix]
    simp only
    have hione : (splitAll qt (possibleIndexes c qt hint)).1 ≠ [] := by
      intro e
      rw [e] at h2
      rw [← h2] at hlen
      simp at hlen
    -- the three shapes of `p`
    generalize hio : (splitAll qt (possibleIndexes c qt hint)).1 = io at h1 h2 h3 hix hione
    generalize hq1 : (splitAll qt (possibleIndexes c qt hint)).2 = qt1 at h3
    by_cases hone : ((possibleIndexes c qt hint).length == 1) = true
    · rw [if_pos hone]
      have hl1 : io.length = 1 := by
        have := congrArg List.length h2
        rw [List.length_map] at this
        rw [this]; simpa using hone
      obtain ⟨kv0, hkv0⟩ : ∃ kv0, io = [kv0] := List.length_eq_one.mp hl1
      subst hkv0
      obtain ⟨cl0, hs0, hf0⟩ := h1 kv0 (List.mem_singleton_self _)
      obtain ⟨ix0, hi0⟩ := hix kv0 (List.mem_singleton_self _)
      have hmem0 : (kv0.1, ix0) ∈ c._idx := lookup_mem _ _ _ hi0
      have hfor : idsFor c kv0 = cl0._index ix0 := by simp only [idsFor, hs0, hi0]
      have hpi0 : possibleIndexes c qt hint = [kv0.1] := by
        rw [← h2]; rfl
      simp only [List.map_cons, List.map_nil, List.headD_cons, hfor, hpi0]
      by_cases hsort : (some kv0.1 == sort_) = true
      · rw [if_pos hsort]
        simp only
        have hsort1 : sort_ = some kv0.1 := by
          simp only [beq_iff_eq] at hsort; exact hsort.symm
        have hnd0 := index_nodup hc hmem0 cl0
        -- positions of the list of the index, in index order
        obtain ⟨hp, hn, hm⟩ := io_range hc [kv0] hione h1 hix (cl0._index ix0) hnd0
          (by intro id; simp [hfor])
        have hrev : positionsOf c
            (if (order == -1) = true then (cl0._index ix0).reverse else cl0._index ix0) =
            Except.ok (if (order == -1) = true then ((cl0._index ix0).map c.posD).reverse
              else (cl0._index ix0).map c.posD) := by
          by_cases ho : (order == -1) = true
          · rw [if_pos ho, if_pos ho, ← List.map_reverse]
            apply positionsOf_eq
            intro id hid
            rw [List.mem_reverse, mem_index] at hid
            obtain ⟨e, he, _, h⟩ := hid
            obtain ⟨_, _, _, _, _, hl⟩ := entry_facts hc hmem0 he
            rw [h] at hl
            exact ⟨_, hl⟩
          · rw [if_neg ho, if_neg ho]; exact hp
        rw [hrev]
        refine ⟨_, qt1, none, _, rfl, h3, ?_, ?_, Or.inr ⟨rfl, ?_⟩⟩
        · by_cases ho : (order == -1) = true
          · rw [if_pos ho, List.nodup_reverse]; exact hn
          · rw [if_neg ho]; exact hn
        · intro pos
          rw [← hm pos]
          by_cases ho : (order == -1) = true
          · rw [if_pos ho, List.mem_reverse]
          · rw [if_neg ho]
        · intro s hs
          rw [hsort1] at hs
          have hs1 : kv0.1 = s := Option.some.inj hs
          rw [← hs1]
          apply sortedBy_of_asc
          exact entries_sorted_positions hc hmem0 _ (List.filter_sublist _)
      · rw [if_neg hsort]
        simp only
        have hnd0 := index_nodup hc hmem0 cl0
        obtain ⟨hp, hn, hm⟩ := io_range hc [kv0] hione h1 hix (cl0._index ix0) hnd0
          (by intro id; simp [hfor])
        rw [hp]
        exact ⟨_, qt1, sort_, _, rfl, h3, hn, hm, Or.inl rfl⟩
    · rw [if_neg hone]
      simp only
      have hpne : io.map (idsFor c) ≠ [] := by
        intro e; exact hione (List.map_eq_nil_iff.mp e)
      obtain ⟨kv0, r, hior⟩ : ∃ kv0 r, io = kv0 :: r := by
        cases io with
        | nil => exact absurd rfl hione
        | cons a b => exact ⟨a, b, rfl⟩
      have hnd0 : (intersectIndexes (io.map (idsFor c))).Nodup := by
        subst hior
        obtain ⟨cl0, hs0, _⟩ := h1 kv0 (List.mem_cons_self _ _)
        obtain ⟨ix0, hi0⟩ := hix kv0 (List.mem_cons_self _ _)
        have hfor : idsFor c kv0 = cl0._index ix0 := by simp only [idsFor, hs0, hi0]
        simp only [List.map_cons, intersectIndexes, hfor]
        exact (index_nodup hc (lookup_mem _ _ _ hi0) cl0).sublist (List.filter_sublist _)
      obtain ⟨hp, hn, hm⟩ := io_range hc io hione h1 hix _ hnd0
        (by
          intro id
          rw [mem_intersectIndexes id _ hpne]
          simp only [List.mem_map, forall_exists_index, and_imp, forall_apply_eq_imp_iff₂])
      rw [hp]
      exact ⟨_, qt1, sort_, _, rfl, h3, hn, hm, Or.inl rfl⟩
  · rw [if_neg hlen]
    rcases readIdx_cases c (propKey sort_) with
      ⟨ix, hread, hidx⟩ | ⟨hread, _⟩ | ⟨hread, hidx⟩
    · rw [hread]
      simp only
      have hmem := lookup_mem _ _ _ hidx
      obtain ⟨hp, hn, hm, hsrt⟩ := all_positions hc hmem
      rw [hp]
      refine ⟨_, qt, none, [], rfl, by simp, ?_, ?_, Or.inr ⟨rfl, ?_⟩⟩
      · by_cases ho : (order == -1) = true
        · rw [if_pos ho, List.nodup_reverse]; exact hn
        · rw [if_neg ho]; exact hn
      · intro pos
        have : pos ∈ (if (order == -1) = true then (ix.all.map c.posD).reverse
            else ix.all.map c.posD) ↔ pos ∈ ix.all.map c.posD := by
          by_cases ho : (order == -1) = true
          · rw [if_pos ho, List.mem_reverse]
          · rw [if_neg ho]
        rw [this, hm pos]
        simp
      · intro s hs
        subst hs
        exact sortedBy_of_asc env c s order _ hsrt
    · exact absurd hread hsafe
    · rw [hread]
      simp only
      refine ⟨_, qt, sort_, [], rfl, by simp, hc.pos_nodup, ?_, Or.inl rfl⟩
      intro pos
      constructor
      · intro hpos
        obtain ⟨r, hr, e⟩ := List.mem_map.mp hpos
        obtain ⟨d, id, hg, _, _⟩ := hc.live r.1 r.2 hr
        rw [e] at hg
        refine ⟨d, ⟨r.1, ?_, hg⟩, by simp⟩
        rw [← e]; exact hr
      · rintro ⟨d, ⟨name, hmem, _⟩, _⟩
        exact List.mem_map.mpr ⟨(name, pos), hmem, rfl⟩

theorem candidates_spec {env : Env} {c : Collection} (hc : Consistent env c)
    (qt : Query) (sort_ : Option String) (order : Int) (hint : Option (String → Bool))
    (hsafe : c.readIdx (propKey sort_) ≠ IdxRead.inherited) :
    ∃ range qt1 sort1 sp,
      candidates c qt sort_ order hint = Except.ok (range, qt1, sort1) ∧
      qt.Perm (sp ++ qt1) ∧ range.Nodup ∧
      (∀ pos, pos ∈ range ↔
        ∃ d, c.LiveAt pos d ∧ ∀ cl ∈ sp, cl.test (getFieldValue d cl.field) = true) ∧
      ((sort1 = sort_ ∧ c.idx (propKey sort_) = none) ∨
        (sort1 = none ∧
          ∀ s, sort_ = some s → c.idx "null" = none → SortedBy env c s order range)) := by
  obtain ⟨range, qt1, sortA, sp, heq, hperm, hnd, hmem, hsort⟩ :=
    candidatesByQuery_spec hc qt sort_ order hint hsafe
  have hsafeA : c.readIdx (propKey sortA) ≠ IdxRead.inherited := by
    rcases hsort with h | ⟨h, _⟩
    · rw [h]; exact hsafe
    · rw [h]; exact readIdx_null c
  unfold candidates
  rw [heq]
  simp only
  rcases readIdx_cases c (propKey sortA) with
    ⟨ix, hread, hidx⟩ | ⟨hread, _⟩ | ⟨hread, hidx⟩
  · rw [hread]
    simp only
    have hm := lookup_mem _ _ _ hidx
    obtain ⟨hp, hn, hlive, hsrt⟩ := all_positions hc hm
    rw [hp]
    simp only
    refine ⟨_, qt1, none, sp, rfl, hperm, ?_, ?_, Or.inr ⟨rfl, ?_⟩⟩
    · by_cases ho : (order == -1) = true
      · rw [if_pos ho, List.nodup_reverse]; exact hn.filter _
      · rw [if_neg ho]; exact hn.filter _
    · intro pos
      have h1 : pos ∈ (if (order == -1) = true then
            ((ix.all.map c.posD).filter (fun pos => range.contains pos)).reverse
            else (ix.all.map c.posD).filter (fun pos => range.contains pos)) ↔
          pos ∈ (ix.all.map c.posD).filter (fun pos => range.contains pos) := by
        by_cases ho : (order == -1) = true
        · rw [if_pos ho, List.mem_reverse]
        · rw [if_neg ho]
      rw [h1, List.mem_filter, hlive pos, ← hmem pos]
      have hcon : (range.contains pos = true) ↔ pos ∈ range := by
        simp only [List.contains, List.elem_eq_mem, decide_eq_true_eq]
      rw [hcon]
      constructor
      · exact fun h => h.2
      · intro h
        obtain ⟨d, hl, _⟩ := (hmem pos).mp h
        exact ⟨⟨d, hl⟩, h⟩
    · intro s hs hnull
      rcases hsort with h | ⟨h, _⟩
      · rw [h, hs] at hidx
        simp only [propKey] at hidx
        have hm1 : (s, ix) ∈ c._idx := lookup_mem _ _ _ hidx
        have hs2 : ((ix.all.map c.posD).filter (fun pos => range.contains pos)).Pairwise
            (fun a b => env.le (c.keyAt s a) (c.keyAt s b) = true) :=
          (all_positions hc hm1).2.2.2.sublist (List.filter_sublist _)
        exact sortedBy_of_asc env c s order _ hs2
      · rw [h] at hidx
        simp only [propKey] at hidx
        rw [hnull] at hidx
        simp at hidx
  · exact absurd hread hsafeA
  · rw [hread]
    simp only
    refine ⟨range, qt1, sortA, sp, rfl, hperm, hnd, hmem, ?_⟩
    rcases hsort with h | ⟨h, hs⟩
    · left
      rw [h] at hidx
      exact ⟨h, hidx⟩
    · right
      exact ⟨h, fun s a _ => hs s a⟩

/-! ### The scanning loop -/

/-- The matches of a scan, in scanning order. -/
theorem scanLoop_nosort_full (env : Env) (c : Collection) (matcher : Value → Bool)
    (sort : Option String) (hs : sortOff sort = true) :
    ∀ (range : List Nat) (a : List Nat) (f : Nat),
      (∀ pos ∈ range, ∃ d, c._get pos = Except.ok d) →
      ∃ g, scanLoop env c matcher sort 0 none ⟨a, f, none⟩ range =
        Except.ok ⟨a ++ range.filter (fun pos => matcher (c.keyDoc pos)), g, none⟩
  | [], a, f, _ => ⟨f, by simp [scanLoop]⟩
  | pos :: r, a, f, h => by
      obtain ⟨d, hd⟩ := h pos (List.mem_cons_self _ _)
      have hr := fun p hp => h p (List.mem_cons_of_mem _ hp)
      simp only [scanLoop]
      rw [scanStep_nosort env c matcher sort 0 none hs]
      simp only [limitOn, Bool.false_eq_true, false_and, if_false, hd, Nat.zero_le, if_true]
      have hk : c.keyDoc pos = d := by simp [Collection.keyDoc, hd]
      by_cases hm : matcher d = true
      · simp only [hm, if_true]
        obtain ⟨g, hg⟩ := scanLoop_nosort_full env c matcher sort hs r (a ++ [pos]) (f + 1) hr
        refine ⟨g, ?_⟩
        rw [hg]
        simp [List.filter_cons, hk, hm]
      · simp only [hm, Bool.false_eq_true, if_false]
        obtain ⟨g, hg⟩ := scanLoop_nosort_full env c matcher sort hs r a f hr
        refine ⟨g, ?_⟩
        rw [hg]
        simp [List.filter_cons, hk, hm]

theorem orderedIns_perm {ι : Type} (le : Value → Value → Bool) (e : Value × ι) :
    ∀ l : List (Value × ι), (orderedIns le e l).Perm (e :: l)
  | [] => List.Perm.refl _
  | x :: r => by
      by_cases h : le e.1 x.1 = true
      · simp only [orderedIns, h, if_true]
        exact List.Perm.refl _
      · simp only [orderedIns, h, Bool.false_eq_true, if_false]
        exact (List.Perm.cons x (orderedIns_perm le e r)).trans (List.Perm.swap e x r)

theorem orderedIns_sorted {ι : Type} (le : Value → Value → Bool)
    (htot : ∀ a b, le a b = true ∨ le b a = true)
    (htrans : ∀ a b c, le a b = true → le b c = true → le a c = true) (e : Value × ι) :
    ∀ l : List (Value × ι), l.Pairwise (fun a b => le a.1 b.1 = true) →
      (orderedIns le e l).Pairwise (fun a b => le a.1 b.1 = true)
  | [], _ => by simp [orderedIns]
  | x :: r, hs => by
      rw [List.pairwise_cons] at hs
      by_cases h : le e.1 x.1 = true
      · simp only [orderedIns, h, if_true]
        rw [List.pairwise_cons]
        refine ⟨?_, List.pairwise_cons.mpr hs⟩
        intro y hy
        rcases List.mem_cons.mp hy with e1 | e1
        · rw [e1]; exact h
        · exact htrans _ _ _ h (hs.1 y e1)
      · simp only [orderedIns, h, Bool.false_eq_true, if_false]
        rw [List.pairwise_cons]
        refine ⟨?_, orderedIns_sorted le htot htrans e r hs.2⟩
        intro y hy
        have := (orderedIns_perm le e r).mem_iff.mp hy
        rcases List.mem_cons.mp this with e1 | e1
        · rw [e1]
          rcases htot e.1 x.1 with t | t
          · exact absurd t h
          · exact t
        · exact hs.1 y e1

theorem scanLoop_sort_full (env : Env) (c : Collection) (matcher : Value → Bool)
    (sort : Option String) (hs : sortOff sort = false) :
    ∀ (range : List Nat) (a : List Nat) (f : Nat) (si : TIndex Nat),
      (∀ pos ∈ range, ∃ d, c._get pos = Except.ok d) →
      ∃ g si1, scanLoop env c matcher sort 0 none ⟨a, f, some si⟩ range =
          Except.ok ⟨a, g, some si1⟩ ∧
        si1.key = si.key ∧
        (si1.entries.map Prod.snd).Perm
          (si.entries.map Prod.snd ++ range.filter (fun pos => matcher (c.keyDoc pos))) ∧
        (∀ e ∈ si1.entries, e ∈ si.entries ∨ e.1 = c.keyAt si.key e.2) ∧
        ((∀ x y, env.le x y = true ∨ env.le y x = true) →
          (∀ x y z, env.le x y = true → env.le y z = true → env.le x z = true) →
          si.entries.Pairwise (fun x y => env.le x.1 y.1 = true) →
          si1.entries.Pairwise (fun x y => env.le x.1 y.1 = true))
  | [], a, f, si, _ =>
      ⟨f, si, by simp [scanLoop], rfl, by simp, fun e he => Or.inl he, fun _ _ h => h⟩
  | pos :: r, a, f, si, h => by
      obtain ⟨d, hd⟩ := h pos (List.mem_cons_self _ _)
      have hr := fun p hp => h p (List.mem_cons_of_mem _ hp)
      have hk : c.keyDoc pos = d := by simp [Collection.keyDoc, hd]
      have hstep : scanStep env c matcher sort 0 none ⟨a, f, some si⟩ pos =
          if matcher d = true then Except.ok ⟨a, f + 1, some (si.set env.le d pos)⟩
          else Except.ok ⟨a, f, some si⟩ := by
        unfold scanStep
        simp only [hs, Bool.false_and, Bool.false_eq_true, if_false, hd, Bool.not_false,
          Bool.true_or, if_true]
      simp only [scanLoop, hstep]
      by_cases hm : matcher d = true
      · simp only [hm, if_true]
        obtain ⟨g, si1, h1, h2, h3, h4, h5⟩ :=
          scanLoop_sort_full env c matcher sort hs r a (f + 1) (si.set env.le d pos) hr
        refine ⟨g, si1, h1, h2, ?_, ?_, ?_⟩
        · refine h3.trans ?_
          simp only [TIndex.set, List.filter_cons, hk, hm, if_true]
          have := (orderedIns_perm env.le (getFieldValue d si.key, pos) si.entries).map Prod.snd
          refine (List.Perm.append_right _ this).trans ?_
          simp only [List.map_cons, List.cons_append]
          exact (List.perm_middle).symm
        · intro e he
          rcases h4 e he with h6 | h6
          · simp only [TIndex.set] at h6
            have := (orderedIns_perm env.le _ si.entries).mem_iff.mp h6
            rcases List.mem_cons.mp this with e1 | e1
            · right
              rw [e1]
              simp only [Collection.keyAt, hd]
            · exact Or.inl e1
          · right
            simpa only [TIndex.set] using h6
        · intro htot htrans hsorted
          apply h5 htot htrans
          simp only [TIndex.set]
          exact orderedIns_sorted env.le htot htrans _ _ hsorted
      · simp only [hm, Bool.false_eq_true, if_false]
        obtain ⟨g, si1, h1, h2, h3, h4, h5⟩ :=
          scanLoop_sort_full env c matcher sort hs r a f si hr
        refine ⟨g, si1, h1, h2, ?_, h4, h5⟩
        simpa only [List.filter_cons, hk, hm, Bool.false_eq_true, if_false] using h3

theorem native_iff (qt : Query) (d : Value) :
    qt.native d = true ↔ ∀ cl ∈ qt, cl.test (getFieldValue d cl.field) = true := by
  simp only [Query.native, List.all_eq_true]

theorem keyDoc_of_live {c : Collection} {pos : Nat} {d : Value} (h : c.LiveAt pos d) :
    c.keyDoc pos = d := by
  obtain ⟨_, _, hg⟩ := h
  simp [Collection.keyDoc, hg]

theorem sortedBy_sublist {env : Env} {c : Collection} {s : String} {order : Int}
    {l1 l2 : List Nat} (hsub : l1.Sublist l2) (h : SortedBy env c s order l2) :
    SortedBy env c s order l1 := by
  unfold SortedBy at h ⊢
  by_cases ho : order = -1
  · rw [if_pos ho] at h ⊢; exact h.sublist hsub
  · rw [if_neg ho] at h ⊢; exact h.sublist hsub

theorem sortOff_some_iff (s : String) : sortOff (some s) = true ↔ s = "" := by
  simp [sortOff]

theorem find_spec {env : Env} {c : Collection} (hc : Consistent env c) (qt : Query)
    (sort_ : Option String) (order : Int) (hint : Option (String → Bool))
    (arFields : String → Bool) (hmode : ScalarMode env qt arFields)
    (hsafe : c.readIdx (propKey sort_) ≠ IdxRead.inherited) :
    ∃ res, __find env c qt 0 none sort_ order hint arFields = Except.ok res ∧ res.Nodup ∧
      (∀ pos, pos ∈ res ↔ ∃ d, c.LiveAt pos d ∧ qt.native d = true) ∧
      (∀ s, sort_ = some s → s ≠ "" → c.idx "null" = none →
        (∀ x y, env.le x y = true ∨ env.le y x = true) →
        (∀ x y z, env.le x y = true → env.le y z = true → env.le x z = true) →
        SortedBy env c s order res) := by
  obtain ⟨range, qt1, sort1, sp, heq, hperm, hnd, hmem, hsort⟩ :=
    candidates_spec hc qt sort_ order hint hsafe
  have hget : ∀ pos ∈ range, ∃ d, c._get pos = Except.ok d := by
    intro pos hp
    obtain ⟨d, ⟨_, _, hg⟩, _⟩ := (hmem pos).mp hp
    exact ⟨d, hg⟩
  have hmatch : ∀ pos, (pos ∈ range ∧ qt1.native (c.keyDoc pos) = true) ↔
      ∃ d, c.LiveAt pos d ∧ qt.native d = true := by
    intro pos
    rw [hmem pos]
    constructor
    · rintro ⟨⟨d, hl, hsp⟩, hn⟩
      rw [keyDoc_of_live hl, native_iff] at hn
      refine ⟨d, hl, ?_⟩
      rw [native_iff]
      intro cl hcl
      rcases List.mem_append.mp (hperm.mem_iff.mp hcl) with h | h
      · exact hsp cl h
      · exact hn cl h
    · rintro ⟨d, hl, hn⟩
      rw [native_iff] at hn
      refine ⟨⟨d, hl, fun cl hcl =>
        hn cl (hperm.mem_iff.mpr (List.mem_append_left _ hcl))⟩, ?_⟩
      rw [keyDoc_of_live hl, native_iff]
      exact fun cl hcl => hn cl (hperm.mem_iff.mpr (List.mem_append_right _ hcl))
  have harr : (env.searchInArray || qt1.any fun cl => arFields cl.field) = false := by
    rw [Bool.or_eq_false_iff]
    refine ⟨hmode.1, ?_⟩
    rw [Bool.eq_false_iff]
    intro h
    rw [List.any_eq_true] at h
    obtain ⟨cl, hcl, hf⟩ := h
    rw [hmode.2 cl (hperm.mem_iff.mpr (List.mem_append_right _ hcl))] at hf
    exact Bool.false_ne_true hf
  unfold __find
  rw [heq]
  simp only [harr, Bool.false_eq_true, if_false]
  by_cases hd : (sortOff sort1 && qt1.isEmpty) = true
  · rw [if_pos hd, sliceRange_zero_none]
    simp only [Bool.and_eq_true, List.isEmpty_iff] at hd
    obtain ⟨hso, hq⟩ := hd
    subst hq
    refine ⟨range, rfl, hnd, ?_, ?_⟩
    · intro pos
      rw [← hmatch pos]
      simp [Query.native]
    · intro s hs hne hnull _ _
      rcases hsort with ⟨h, _⟩ | ⟨_, h⟩
      · rw [h, hs, sortOff_some_iff] at hso
        exact absurd hso hne
      · exact h s hs hnull
  · rw [if_neg hd]
    cases hso : sortOff sort1 with
    | true =>
      simp only [if_true, Bool.not_true, Bool.false_eq_true, if_false]
      obtain ⟨g, hg⟩ := scanLoop_nosort_full env c qt1.native sort1 hso range [] 0 hget
      rw [hg]
      simp only [List.nil_append]
      refine ⟨_, rfl, hnd.filter _, ?_, ?_⟩
      · intro pos
        rw [List.mem_filter, hmatch pos]
      · intro s hs hne hnull _ _
        rcases hsort with ⟨h, _⟩ | ⟨_, h⟩
        · rw [h, hs, sortOff_some_iff] at hso
          exact absurd hso hne
        · exact sortedBy_sublist (List.filter_sublist _) (h s hs hnull)
    | false =>
      simp only [Bool.false_eq_true, if_false, Bool.not_false, if_true]
      obtain ⟨g, si1, h1, h2, h3, h4, h5⟩ := scanLoop_sort_full env c qt1.native sort1 hso
        range [] 0 (TIndex.new (propKey sort1) "" false) hget
      rw [h1]
      simp only [Option.map_some', Option.getD_some, sliceRange_zero_none]
      simp only [TIndex.new, List.map_nil, List.nil_append] at h2 h3 h4
      have hall : si1.all = si1.entries.map Prod.snd := rfl
      have hrev : ∀ pos, pos ∈ (if (order == -1) = true then si1.all.reverse else si1.all) ↔
          pos ∈ si1.all := by
        intro pos
        by_cases ho : (order == -1) = true
        · rw [if_pos ho, List.mem_reverse]
        · rw [if_neg ho]
      refine ⟨_, rfl, ?_, ?_, ?_⟩
      · have : si1.all.Nodup := by
          rw [hall]; exact h3.nodup_iff.mpr (hnd.filter _)
        by_cases ho : (order == -1) = true
        · rw [if_pos ho, List.nodup_reverse]; exact this
        · rw [if_neg ho]; exact this
      · intro pos
        rw [hrev pos, hall, h3.mem_iff, List.mem_filter, hmatch pos]
      · intro s hs hne hnull htot htrans
        have hs1 : sort1 = some s := by
          rcases hsort with ⟨h, _⟩ | ⟨h, _⟩
          · rw [h, hs]
          · rw [h] at hso; simp [sortOff] at hso
        have hsorted := h5 htot htrans (by simp [TIndex.new])
        apply sortedBy_of_asc
        rw [hall, List.pairwise_map]
        refine hsorted.imp_of_mem ?_
        intro a b ha hb hab
        have ea := h4 a ha
        have eb := h4 b hb
        simp only [List.not_mem_nil, false_or] at ea eb
        rw [hs1] at ea eb
        simp only [propKey] at ea eb
        rw [← ea, ← eb]
        exact hab

/-! ### The sample collection is consistent -/

theorem sampleEnv_total : ∀ x y, sampleEnv.le x y = true ∨ sampleEnv.le y x = true := by
  intro x y
  simp only [sampleEnv, decide_eq_true_eq]
  omega

theorem sampleEnv_trans :
    ∀ x y z, sampleEnv.le x y = true → sampleEnv.le y z = true → sampleEnv.le x z = true := by
  intro x y z
  simp only [sampleEnv, decide_eq_true_eq]
  omega

theorem sampleColl_consistent : Consistent sampleEnv sampleColl where
  idx_nodup := by decide
  store_nodup := by decide
  pos_nodup := by decide
  live := by
    intro name pos h
    simp only [sampleColl, List.mem_cons, Prod.mk.injEq, List.mem_singleton,
      List.not_mem_nil, or_false] at h
    rcases h with ⟨rfl, rfl⟩ | ⟨rfl, rfl⟩ | ⟨rfl, rfl⟩
    · exact ⟨sampleItem 1 5 1, SKey.num 1, rfl, rfl, rfl⟩
    · exact ⟨sampleItem 2 3 2, SKey.num 2, rfl, rfl, rfl⟩
    · exact ⟨sampleItem 3 8 3, SKey.num 3, rfl, rfl, rfl⟩
  idx_key := by
    intro k ix h
    simp only [sampleColl, List.mem_cons, Prod.mk.injEq, List.mem_singleton,
      List.not_mem_nil, or_false] at h
    rcases h with ⟨rfl, rfl⟩ | ⟨rfl, rfl⟩ <;> rfl
  idx_sound := by
    intro k ix h e he
    simp only [sampleColl, List.mem_cons, Prod.mk.injEq, List.mem_singleton,
      List.not_mem_nil, or_false] at h
    rcases h with ⟨rfl, rfl⟩ | ⟨rfl, rfl⟩
    · simp only [List.mem_cons, List.mem_singleton, List.not_mem_nil, or_false] at he
      rcases he with rfl | rfl | rfl
      · exact ⟨0, sampleItem 1 5 1, by decide, rfl, rfl, rfl⟩
      · exact ⟨10, sampleItem 2 3 2, by decide, rfl, rfl, rfl⟩
      · exact ⟨20, sampleItem 3 8 3, by decide, rfl, rfl, rfl⟩
    · simp only [List.mem_cons, List.mem_singleton, List.not_mem_nil, or_false] at he
      rcases he with rfl | rfl | rfl
      · exact ⟨10, sampleItem 2 3 2, by decide, rfl, rfl, rfl⟩
      · exact ⟨0, sampleItem 1 5 1, by decide, rfl, rfl, rfl⟩
      · exact ⟨20, sampleItem 3 8 3, by decide, rfl, rfl, rfl⟩
  idx_complete := by
    intro k ix h name pos hs
    simp only [sampleColl, List.mem_cons, Prod.mk.injEq, List.mem_singleton,
      List.not_mem_nil, or_false] at h hs
    rcases h with ⟨rfl, rfl⟩ | ⟨rfl, rfl⟩ <;>
      rcases hs with ⟨rfl, rfl⟩ | ⟨rfl, rfl⟩ | ⟨rfl, rfl⟩
    · exact ⟨(Value.num 1, SKey.num 1), by simp, rfl⟩
    · exact ⟨(Value.num 2, SKey.num 2), by simp, rfl⟩
    · exact ⟨(Value.num 3, SKey.num 3), by simp, rfl⟩
    · exact ⟨(Value.num 5, SKey.num 1), by simp, rfl⟩
    · exact ⟨(Value.num 3, SKey.num 2), by simp, rfl⟩
    · exact ⟨(Value.num 8, SKey.num 3), by simp, rfl⟩
  idx_ids_nodup := by
    intro k ix h
    simp only [sampleColl, List.mem_cons, Prod.mk.injEq, List.mem_singleton,
      List.not_mem_nil, or_false] at h
    rcases h with ⟨rfl, rfl⟩ | ⟨rfl, rfl⟩ <;> decide
  idx_sorted := by
    intro k ix h
    simp only [sampleColl, List.mem_cons, Prod.mk.injEq, List.mem_singleton,
      List.not_mem_nil, or_false] at h
    rcases h with ⟨rfl, rfl⟩ | ⟨rfl, rfl⟩ <;> decide

theorem consistent_take {env : Env} {c : Collection} (hc : Consistent env c) (n : Nat) :
    Consistent env { c with _idx := c._idx.take n } where
  idx_nodup := hc.idx_nodup.sublist ((List.take_sublist n _).map _)
  store_nodup := hc.store_nodup
  pos_nodup := hc.pos_nodup
  live := hc.live
  idx_key := fun k ix h => hc.idx_key k ix (List.mem_of_mem_take h)
  idx_sound := fun k ix h => hc.idx_sound k ix (List.mem_of_mem_take h)
  idx_complete := fun k ix h => hc.idx_complete k ix (List.mem_of_mem_take h)
  idx_ids_nodup := fun k ix h => hc.idx_ids_nodup k ix (List.mem_of_mem_take h)
  idx_sorted := fun k ix h => hc.idx_sorted k ix (List.mem_of_mem_take h)

theorem sampleCollPlain_consistent : Consistent sampleEnv sampleCollPlain :=
  consistent_take sampleColl_consistent 1

theorem sampleQuery_scalar : ScalarMode sampleEnv sampleQuery noArFields :=
  ⟨rfl, fun _ _ => rfl⟩

theorem liveAt_congr {c c2 : Collection} (h1 : c2._store = c._store) (h2 : c2.log = c.log)
    (pos : Nat) (d : Value) : c2.LiveAt pos d ↔ c.LiveAt pos d := by
  simp only [Collection.LiveAt, Collection._get, h1, h2]

/-! ### The planner returns the matching documents -/

/-- C1: in every collection state in which each declared field index reflects exactly the
live documents, and with the plain matcher in use, `__find` with skip 0, no limit and no sort
returns exactly the log offsets of the live documents that satisfy the whole query, none
missing, none extra and none twice; and the set is the same in every other such state of the
same log and position map, whatever indexes that state declares and whatever hint is given
(full scan, one index, or several intersected). -/
theorem find_exact (env : Env) (c : Collection) (qt : Query) (order : Int)
    (hint : Option (String → Bool)) (arFields : String → Bool)
    (hc : Consistent env c) (hmode : ScalarMode env qt arFields) :
    ∃ res, __find env c qt 0 none none order hint arFields = Except.ok res ∧
      (∀ pos, pos ∈ res ↔ ∃ d, c.LiveAt pos d ∧ qt.native d = true) ∧
      res.Nodup ∧
      (∀ (c2 : Collection) (hint2 : Option (String → Bool)), Consistent env c2 →
        c2._store = c._store → c2.log = c.log →
        ∃ res2, __find env c2 qt 0 none none order hint2 arFields = Except.ok res2 ∧
          ∀ pos, pos ∈ res2 ↔ pos ∈ res) := by
  obtain ⟨res, h1, h2, h3, _⟩ :=
    find_spec hc qt none order hint arFields hmode (readIdx_null c)
  refine ⟨res, h1, h3, h2, ?_⟩
  intro c2 hint2 hc2 hs hl
  obtain ⟨res2, g1, _, g3, _⟩ :=
    find_spec hc2 qt none order hint2 arFields hmode (readIdx_null c2)
  refine ⟨res2, g1, fun pos => ?_⟩
  rw [g3 pos, h3 pos]
  constructor
  · rintro ⟨d, a, b⟩; exact ⟨d, (liveAt_congr hs hl pos d).mp a, b⟩
  · rintro ⟨d, a, b⟩; exact ⟨d, (liveAt_congr hs hl pos d).mpr a, b⟩

/-- The sample collection is consistent, and the conclusion of C1 holds for the sample query
on it. -/
theorem find_exact_witness :
    Consistent sampleEnv sampleColl ∧ ScalarMode sampleEnv sampleQuery noArFields ∧
    ∃ res, __find sampleEnv sampleColl sampleQuery 0 none none 1 none noArFields =
        Except.ok res ∧
      (∀ pos, pos ∈ res ↔ ∃ d, sampleColl.LiveAt pos d ∧ sampleQuery.native d = true) ∧
      res.Nodup ∧
      (∀ (c2 : Collection) (hint2 : Option (String → Bool)), Consistent sampleEnv c2 →
        c2._store = sampleColl._store → c2.log = sampleColl.log →
        ∃ res2, __find sampleEnv c2 sampleQuery 0 none none 1 hint2 noArFields =
            Except.ok res2 ∧
          ∀ pos, pos ∈ res2 ↔ pos ∈ res) :=
  ⟨sampleColl_consistent, sampleQuery_scalar,
    find_exact sampleEnv sampleColl sampleQuery 1 none noArFields sampleColl_consistent
      sampleQuery_scalar⟩

/-! ### Sorting -/

theorem readIdx_of_not_proto (c : Collection) (k : String)
    (h : objectProtoNames.contains k = false) : c.readIdx k ≠ IdxRead.inherited := by
  unfold Collection.readIdx
  cases c.idx k with
  | some ix => simp
  | none =>
    simp only [h]
    exact fun e => by cases e

/-- C4 (as amended): for every query and every sort field that is not the empty string (and
not the name of a property that objects inherit, such as `constructor`), in a state in which
each declared field index reflects exactly the live documents and no index is declared under
the key `null`, with the plain matcher in use and indexed values in a total order, `__find`
with skip 0 and no limit returns the matching documents, each once, in ascending order of the
sort field when order is 1 and in descending order when order is -1; and in every other such
state of the same log and position map, whatever indexes it declares and whatever hint is
given, the result is a rearrangement of the same documents. -/
theorem find_sorted (env : Env) (c : Collection) (qt : Query) (s : String) (order : Int)
    (hint : Option (String → Bool)) (arFields : String → Bool)
    (hc : Consistent env c) (hmode : ScalarMode env qt arFields)
    (hs : s ≠ "") (hown : objectProtoNames.contains s = false)
    (hnull : c.idx "null" = none)
    (htot : ∀ x y, env.le x y = true ∨ env.le y x = true)
    (htrans : ∀ x y z, env.le x y = true → env.le y z = true → env.le x z = true) :
    ∃ res, __find env c qt 0 none (some s) order hint arFields = Except.ok res ∧
      (order = 1 → res.Pairwise (fun a b => env.le (c.keyAt s a) (c.keyAt s b) = true)) ∧
      (order = -1 → res.Pairwise (fun a b => env.le (c.keyAt s b) (c.keyAt s a) = true)) ∧
      res.Nodup ∧
      (∀ pos, pos ∈ res ↔ ∃ d, c.LiveAt pos d ∧ qt.native d = true) ∧
      (∀ (c2 : Collection) (hint2 : Option (String → Bool)), Consistent env c2 →
        c2._store = c._store → c2.log = c.log →
        ∃ res2, __find env c2 qt 0 none (some s) order hint2 arFields = Except.ok res2 ∧
          res2.Perm res) := by
  obtain ⟨res, h1, h2, h3, h4⟩ :=
    find_spec hc qt (some s) order hint arFields hmode (readIdx_of_not_proto c s hown)
  have hsorted := h4 s rfl hs hnull htot htrans
  refine ⟨res, h1, ?_, ?_, h2, h3, ?_⟩
  · intro ho
    unfold SortedBy at hsorted
    rw [if_neg (by rw [ho]; decide)] at hsorted
    exact hsorted
  · intro ho
    unfold SortedBy at hsorted
    rw [if_pos ho] at hsorted
    exact hsorted
  · intro c2 hint2 hc2 hst hl
    obtain ⟨res2, g1, g2, g3, _⟩ :=
      find_spec hc2 qt (some s) order hint2 arFields hmode (readIdx_of_not_proto c2 s hown)
    refine ⟨res2, g1, ?_⟩
    rw [List.perm_ext_iff_of_nodup g2 h2]
    intro pos
    rw [g3 pos, h3 pos]
    constructor
    · rintro ⟨d, a, b⟩; exact ⟨d, (liveAt_congr hst hl pos d).mp a, b⟩
    · rintro ⟨d, a, b⟩; exact ⟨d, (liveAt_congr hst hl pos d).mpr a, b⟩

/-- The sample collection meets the hypotheses of the amended C4 for the sort field `num` in
descending order, and the conclusion holds there. -/
theorem find_sorted_witness :
    Consistent sampleEnv sampleColl ∧ ScalarMode sampleEnv sampleQuery noArFields ∧
    "num" ≠ "" ∧ objectProtoNames.contains "num" = false ∧
    sampleColl.idx "null" = none ∧
    (∀ x y, sampleEnv.le x y = true ∨ sampleEnv.le y x = true) ∧
    (∀ x y z, sampleEnv.le x y = true → sampleEnv.le y z = true →
      sampleEnv.le x z = true) ∧
    ∃ res, __find sampleEnv sampleColl sampleQuery 0 none (some "num") (-1) none
        noArFields = Except.ok res ∧
      ((-1 : Int) = 1 → res.Pairwise (fun a b =>
        sampleEnv.le (sampleColl.keyAt "num" a) (sampleColl.keyAt "num" b) = true)) ∧
      ((-1 : Int) = -1 → res.Pairwise (fun a b =>
        sampleEnv.le (sampleColl.keyAt "num" b) (sampleColl.keyAt "num" a) = true)) ∧
      res.Nodup ∧
      (∀ pos, pos ∈ res ↔ ∃ d, sampleColl.LiveAt pos d ∧ sampleQuery.native d = true) ∧
      (∀ (c2 : Collection) (hint2 : Option (String → Bool)), Consistent sampleEnv c2 →
        c2._store = sampleColl._store → c2.log = sampleColl.log →
        ∃ res2, __find sampleEnv c2 sampleQuery 0 none (some "num") (-1) hint2
            noArFields = Except.ok res2 ∧
          res2.Perm res) :=
  ⟨sampleColl_consistent, sampleQuery_scalar, by decide, by decide, rfl, sampleEnv_total,
    sampleEnv_trans,
    find_sorted sampleEnv sampleColl sampleQuery "num" (-1) none noArFields
      sampleColl_consistent sampleQuery_scalar (by decide) (by decide) rfl sampleEnv_total
      sampleEnv_trans⟩

theorem emptyKeyColl_consistent : Consistent sampleEnv emptyKeyColl where
  idx_nodup := by decide
  store_nodup := by decide
  pos_nodup := by decide
  live := by
    intro name pos h
    simp only [emptyKeyColl, List.mem_cons, Prod.mk.injEq, List.mem_singleton,
      List.not_mem_nil, or_false] at h
    rcases h with ⟨rfl, rfl⟩ | ⟨rfl, rfl⟩
    · exact ⟨_, SKey.num 1, rfl, rfl, rfl⟩
    · exact ⟨_, SKey.num 2, rfl, rfl, rfl⟩
  idx_key := by
    intro k ix h
    simp only [emptyKeyColl, List.mem_singleton, Prod.mk.injEq] at h
    obtain ⟨rfl, rfl⟩ := h
    rfl
  idx_sound := by
    intro k ix h e he
    simp only [emptyKeyColl, List.mem_singleton, Prod.mk.injEq] at h
    obtain ⟨rfl, rfl⟩ := h
    simp only [List.mem_cons, List.mem_singleton, List.not_mem_nil, or_false] at he
    rcases he with rfl | rfl
    · exact ⟨0, _, by decide, rfl, rfl, rfl⟩
    · exact ⟨10, _, by decide, rfl, rfl, rfl⟩
  idx_complete := by
    intro k ix h name pos hs
    simp only [emptyKeyColl, List.mem_cons, Prod.mk.injEq, List.mem_singleton,
      List.not_mem_nil, or_false] at h hs
    obtain ⟨rfl, rfl⟩ := h
    rcases hs with ⟨rfl, rfl⟩ | ⟨rfl, rfl⟩
    · exact ⟨(Value.num 1, SKey.num 1), by simp, rfl⟩
    · exact ⟨(Value.num 2, SKey.num 2), by simp, rfl⟩
  idx_ids_nodup := by
    intro k ix h
    simp only [emptyKeyColl, List.mem_singleton, Prod.mk.injEq] at h
    obtain ⟨rfl, rfl⟩ := h
    decide
  idx_sorted := by
    intro k ix h
    simp only [emptyKeyColl, List.mem_singleton, Prod.mk.injEq] at h
    obtain ⟨rfl, rfl⟩ := h
    decide

/-- C4, as stated, fails for the sort field with the empty name: `!sort` holds for it, so
`__find` makes no sort at all. In a consistent collection whose two documents hold 2 and 1 in
that field, `__find` with the empty query, skip 0, no limit, that sort field and order 1
returns the offsets in stored order, the document holding 2 before the one holding 1. (With
the sort field `constructor`, which reads an inherited property off `self._idx`, `__find`
throws.) -/
theorem find_sorted_counterexample :
    Consistent sampleEnv emptyKeyColl ∧ ScalarMode sampleEnv [] noArFields ∧
    __find sampleEnv emptyKeyColl [] 0 none (some "") 1 none noArFields =
      Except.ok [0, 10] ∧
    emptyKeyColl.keyAt "" 0 = Value.num 2 ∧ emptyKeyColl.keyAt "" 10 = Value.num 1 ∧
    sampleEnv.le (emptyKeyColl.keyAt "" 0) (emptyKeyColl.keyAt "" 10) = false ∧
    __find sampleEnv emptyKeyColl [] 0 none (some "constructor") 1 none noArFields =
      Except.error Err.typeError :=
  ⟨emptyKeyColl_consistent, ⟨rfl, fun _ h => absurd h (List.not_mem_nil _)⟩, rfl, rfl, rfl,
    by decide, rfl⟩

/-- The conclusion of C3 for skip 1 and limit 1 on the sample collection, where the search
sorted by `num` in descending order returns the offsets 20, 0, 10. -/
theorem find_skip_limit_witness :
    (some 1 : Option Nat) ≠ some 0 ∧
    __find sampleEnv sampleColl [clauseLt "pum" 9] 0 none (some "num") (-1) none
      noArFields = Except.ok [20, 0, 10] ∧
    (__find sampleEnv sampleColl [clauseLt "pum" 9] 1 (some 1) (some "num") (-1) none
        noArFields = Except.ok (takeLimit (some 1) (([20, 0, 10] : List Nat).drop 1)) ∧
      (([20, 0, 10] : List Nat).length ≤ 1 →
        __find sampleEnv sampleColl [clauseLt "pum" 9] 1 (some 1) (some "num") (-1) none
          noArFields = Except.ok [])) :=
  ⟨by decide, rfl,
    find_skip_limit sampleEnv sampleColl [clauseLt "pum" 9] 1 (some 1) (some "num") (-1)
      none noArFields [20, 0, 10] (by decide) rfl⟩

/-! ### `find` loses its arguments -/

theorem find_reads_no_argument (merge : Props → Arg → Props) (a : Arg) (rest : List Arg) :
    ∃ c, find merge (a :: rest) = FindResult.returned c ∧ c.query = Arg.undefined := by
  have h0 : ¬ (rest.length + 1 = 0) := by omega
  have hcb : (argAt [] (rest.length + 1 - 1)).isFunction = false := by
    simp [argAt, Arg.undefined, Arg.isFunction]
  have hfi :
      (findInner merge []
        ⟨none, Arg.val (Value.obj []), [], (a :: rest).length⟩).cb = none ∧
      (findInner merge []
        ⟨none, Arg.val (Value.obj []), [], (a :: rest).length⟩).query = Arg.undefined := by
    simp only [findInner, List.length_cons, h0, if_false, hcb, Bool.not_false, if_true]
    split
    · exact ⟨rfl, rfl⟩
    · split
      · split <;> exact ⟨rfl, rfl⟩
      · split <;> exact ⟨rfl, rfl⟩
  unfold find
  simp only
  rw [hfi.1]
  refine ⟨_, rfl, ?_⟩
  split <;> split <;> split <;> exact hfi.2

/-- C2 (what the code does): for every query `q` and callback `cb`, `find(q)` returns a
cursor whose query expression is `undefined`, not `q`, and `find(q, cb)` returns a cursor
over `undefined` as well and never calls `cb`; with whatever arguments `find` is called, it
returns a cursor over `undefined`. The inner function that sorts out the arguments reads its
own, empty, `arguments` object. -/
theorem find_drops_arguments (merge : Props → Arg → Props) (q : Value) (cb : String) :
    find merge [Arg.val q] =
      FindResult.returned
        { query := Arg.undefined, fields := Arg.undefined, opts := [],
          skip := none, limit := none, sort := none } ∧
    find merge [Arg.val q, Arg.fn cb] =
      FindResult.returned
        { query := Arg.undefined, fields := Arg.undefined,
          opts := [("fields", Arg.undefined)],
          skip := none, limit := none, sort := none } ∧
    (∀ (a : Arg) (rest : List Arg),
      ∃ c, find merge (a :: rest) = FindResult.returned c ∧ c.query = Arg.undefined) :=
  ⟨rfl, rfl, find_reads_no_argument merge⟩

/-! ### Validation in `_put` -/

theorem ensureValue_isUndefined (c : Nat) (v w : Value) (c1 : Nat)
    (h : ensureValue c v = (c1, Except.ok w)) : w.isUndefined = v.isUndefined := by
  cases v with
  | oid i =>
      simp only [ensureValue] at h
      by_cases hi : i < 0
      · simp only [hi, if_true, Prod.mk.injEq, Except.ok.injEq] at h
        rw [← h.2]; rfl
      · simp only [hi, if_false, Prod.mk.injEq, Except.ok.injEq] at h
        rw [← h.2]
  | arr xs =>
      simp only [ensureValue] at h
      rcases hr : ensureItems c xs with ⟨c2, r⟩
      rw [hr] at h
      cases r with
      | error e => simp at h
      | ok ys =>
          simp only [Prod.mk.injEq, Except.ok.injEq] at h
          rw [← h.2]; rfl
  | obj kvs =>
      simp only [ensureValue] at h
      rcases hr : ensureProps (eachLength kvs) c kvs with ⟨c2, r⟩
      rw [hr] at h
      cases r with
      | error e => simp at h
      | ok ys =>
          simp only [Prod.mk.injEq, Except.ok.injEq] at h
          rw [← h.2]; rfl
  | _ =>
      simp only [ensureValue, Prod.mk.injEq, Except.ok.injEq] at h
      rw [← h.2]

theorem ensureProps_field_isUndefined (k : String) (len : Option Int) :
    ∀ (c : Nat) (kvs r : List (String × Value)) (c1 : Nat),
      ensureProps len c kvs = (c1, Except.ok r) →
      (Value.field k r).isUndefined = (Value.field k kvs).isUndefined
  | c, [], r, c1, h => by
      simp only [ensureProps, Prod.mk.injEq, Except.ok.injEq] at h
      rw [← h.2]
  | c, (k0, v) :: rest, r, c1, h => by
      simp only [ensureProps] at h
      cases hk : keyErrorAt len k0 with
      | some e => rw [hk] at h; simp at h
      | none =>
          rw [hk] at h
          simp only at h
          rcases hv : (if visited len k0 = true then ensureValue c v
            else (c, Except.ok v)) with ⟨c2, rv⟩
          rw [hv] at h
          cases rv with
          | error e => simp at h
          | ok w =>
              simp only at h
              rcases hrest : ensureProps len c2 rest with ⟨c3, rr⟩
              rw [hrest] at h
              cases rr with
              | error e => simp at h
              | ok r2 =>
                  simp only [Prod.mk.injEq, Except.ok.injEq] at h
                  rw [← h.2]
                  by_cases e : k0 = k
                  · simp only [Value.field, e, if_true]
                    by_cases hvis : visited len k0 = true
                    · rw [if_pos hvis] at hv
                      exact ensureValue_isUndefined c v w c2 hv
                    · rw [if_neg hvis] at hv
                      simp only [Prod.mk.injEq, Except.ok.injEq] at hv
                      rw [hv.2]
                  · simp only [Value.field, e, if_false]
                    exact ensureProps_field_isUndefined k len c2 rest r2 c3 hrest

theorem ensureIds_id_isUndefined (c : Nat) (item item1 : Value) (c1 : Nat)
    (h : _ensureIds c item = (c1, Except.ok item1)) :
    (item1.get "_id").isUndefined = (item.get "_id").isUndefined := by
  cases item with
  | arr xs =>
      simp only [_ensureIds] at h
      rcases hr : ensureItems c xs with ⟨c2, r⟩
      rw [hr] at h
      cases r with
      | error e => simp at h
      | ok ys =>
          simp only [Prod.mk.injEq, Except.ok.injEq] at h
          rw [← h.2]; rfl
  | obj kvs =>
      simp only [_ensureIds] at h
      rcases hr : ensureProps (eachLength kvs) c kvs with ⟨c2, r⟩
      rw [hr] at h
      cases r with
      | error e => simp at h
      | ok ys =>
          simp only [Prod.mk.injEq, Except.ok.injEq] at h
          rw [← h.2]
          simp only [Value.get]
          exact ensureProps_field_isUndefined "_id" (eachLength kvs) c kvs ys c2 hr
  | _ =>
      simp only [_ensureIds, Prod.mk.injEq, Except.ok.injEq] at h
      rw [← h.2]

/-- An item that the walk of `_ensureIds` finds a reserved property name in, or that has no
`_id`, is refused by `_put`: the call ends with an error, thrown or handed to its callback,
and the log, the file size, the position map and the field indexes are what they were. -/
theorem put_rejects_visited (env : Env) (c : Collection) (item : Value) (remove : Bool)
    (h : visitsReservedKey item = true ∨ (item.get "_id").isUndefined = true) :
    (∃ e, (_put env c item remove).2 = Outcome.thrown e ∨
      (_put env c item remove).2 = Outcome.failed e) ∧
    (_put env c item remove).1.log = c.log ∧
    (_put env c item remove).1._fsize = c._fsize ∧
    (_put env c item remove).1._store = c._store ∧
    (_put env c item remove).1._idx = c._idx := by
  have hspec := ensureIds_spec c._id item
  rcases hr : _ensureIds c._id item with ⟨ctr, r⟩
  cases r with
  | error e =>
      have hp : _put env c item remove = ({ c with _id := ctr }, Outcome.thrown e) := by
        simp only [_put, hr]
      rw [hp]
      exact ⟨⟨e, Or.inl rfl⟩, rfl, rfl, rfl, rfl⟩
  | ok item1 =>
      have hnores : visitsReservedKey item = false := by
        cases hb : visitsReservedKey item with
        | false => rfl
        | true =>
            obtain ⟨e, he⟩ := hspec.1 hb
            rw [hr] at he
            simp at he
      have hid : (item.get "_id").isUndefined = true := by
        rcases h with h | h
        · rw [hnores] at h; exact absurd h (by decide)
        · exact h
      have hid1 : (item1.get "_id").isUndefined = true := by
        rw [ensureIds_id_isUndefined c._id item item1 ctr hr]; exact hid
      have hp : _put env c item remove =
          ({ c with _id := ctr }, Outcome.failed Err.invalidKey) := by
        simp only [_put, hr, hid1, if_true]
      rw [hp]
      exact ⟨⟨Err.invalidKey, Or.inr rfl⟩, rfl, rfl, rfl, rfl⟩

/-- C7 fails for an item that lodash walks like an array. The item
`{length: 0, _id: 4, "$bad": 1}` has a property name that starts with `$`, and it has an
`_id`; `_ensureIds` walks it by the indices below its `length`, so it checks no name, and
`_put` goes on to `_putWrite` and to the index update: the call ends well with the item, the
log has a new entry for it at offset 30, the file size and the position map take it in, and
both field indexes get an entry for identifier 4. The same item without `length` is refused
and leaves the collection as it was. -/
theorem put_array_like_written :
    hasReservedKey sampleArrayLikeItem = true ∧
    (sampleArrayLikeItem.get "_id").isUndefined = false ∧
    (_put sampleEnv sampleColl sampleArrayLikeItem false).2 =
      Outcome.ok sampleArrayLikeItem ∧
    (_put sampleEnv sampleColl sampleArrayLikeItem false).1.log.map
        (fun e => (e.pos, e.item)) =
      sampleColl.log.map (fun e => (e.pos, e.item)) ++ [(30, sampleArrayLikeItem)] ∧
    (_put sampleEnv sampleColl sampleArrayLikeItem false).1._fsize = 84 ∧
    sampleColl._fsize = 30 ∧
    (_put sampleEnv sampleColl sampleArrayLikeItem false).1._store =
      [("1", 0), ("2", 10), ("3", 20), ("4", 30)] ∧
    (_put sampleEnv sampleColl sampleArrayLikeItem false).1._idx.map
        (fun p => (p.1, p.2.entries)) =
      [("_id", [(Value.num 1, SKey.num 1), (Value.num 2, SKey.num 2),
          (Value.num 3, SKey.num 3), (Value.num 4, SKey.num 4)]),
       ("num", [(Value.undef, SKey.num 4), (Value.num 3, SKey.num 2),
          (Value.num 5, SKey.num 1), (Value.num 8, SKey.num 3)])] ∧
    _put sampleEnv sampleColl (Value.obj [("_id", Value.num 4), ("$bad", Value.num 1)])
        false =
      (sampleColl, Outcome.thrown (Err.keyDollar "$bad")) :=
  ⟨by decide, rfl, rfl, rfl, rfl, rfl, rfl, rfl, rfl⟩

/-! ### Identifiers are attached before `_put` -/

theorem field_setField (k : String) (x : Value) :
    ∀ kvs : List (String × Value), Value.field k (Value.setField k x kvs) = x
  | [] => by simp [Value.setField, Value.field]
  | (k1, v) :: r => by
      by_cases e : k1 = k
      · simp [Value.setField, Value.field, e]
      · simp [Value.setField, Value.field, e, field_setField k x r]

theorem attachId_spec (doc : Value) (hdoc : doc.isDoc = true) :
    ((attachId doc).get "_id").isUndefined = false ∧
    ((doc.get "_id").isUndefined = true → (attachId doc).get "_id" = freshObjectID) ∧
    ((doc.get "_id").isUndefined = false → attachId doc = doc) := by
  cases doc with
  | obj kvs =>
      unfold attachId
      by_cases h : ((Value.obj kvs).get "_id").isUndefined = true
      · rw [if_pos h]
        have e : ((Value.obj kvs).set "_id" freshObjectID).get "_id" = freshObjectID := by
          simp only [Value.set, Value.get, field_setField]
        refine ⟨by rw [e]; rfl, fun _ => e, fun h2 => ?_⟩
        rw [h] at h2; exact absurd h2 (by decide)
      · rw [if_neg h]
        have h2 : ((Value.obj kvs).get "_id").isUndefined = false := by
          simpa using h
        exact ⟨h2, fun h3 => absurd h3 h, fun _ => rfl⟩
  | _ => simp [Value.isDoc] at hdoc

theorem insertLoop_puts (env : Env) : ∀ (docs : List Value) (c : Collection),
    (insertLoop env c docs).puts <+: docs.map attachId ∧
    (∀ items, (insertLoop env c docs).outcome = Outcome.ok items →
      (insertLoop env c docs).puts = docs.map attachId)
  | [], c => by simp [insertLoop]
  | doc :: r, c => by
      have hd : (if (doc.get "_id").isUndefined = true then doc.set "_id" freshObjectID
          else doc) = attachId doc := rfl
      simp only [insertLoop, hd, List.map_cons]
      rcases hp : _put env c (attachId doc) false with ⟨c1, o⟩
      cases o with
      | ok item =>
          simp only
          obtain ⟨ih1, ih2⟩ := insertLoop_puts env r c1
          refine ⟨(List.prefix_cons_inj _).mpr ih1, ?_⟩
          intro items hi
          cases ho : (insertLoop env c1 r).outcome with
          | ok its => rw [ih2 its ho]
          | failed e => rw [ho] at hi; simp at hi
          | thrown e => rw [ho] at hi; simp at hi
          | crashed e => rw [ho] at hi; simp at hi
      | failed e =>
          simp only
          exact ⟨(List.prefix_cons_inj _).mpr List.nil_prefix, fun _ h => by simp at h⟩
      | thrown e =>
          simp only
          exact ⟨(List.prefix_cons_inj _).mpr List.nil_prefix, fun _ h => by simp at h⟩
      | crashed e =>
          simp only
          exact ⟨(List.prefix_cons_inj _).mpr List.nil_prefix, fun _ h => by simp at h⟩

/-- C8: `insert` and `save` hand to `_put` the document with a newly generated identifier
attached when it has no `_id`, and the document as it is when it has one.
For `insert`, the items handed to `_put` are, in order, the documents so prepared (all of
them when the insert succeeds, those up to the first refusal otherwise), every one of them
has an `_id`, and the first reaches `_put` on the collection as `insert` found it.
For `save`, a document without `_id` reaches `_put` with the new identifier on the
collection as `save` found it, and a document with an `_id` reaches `_put` as it is (or not
at all, when the record of its identifier or its stored version cannot be read). -/
theorem ids_attached_before_put (env : Env) (c : Collection) :
    (∀ docs : List Value, (∀ d ∈ docs, d.isDoc = true) →
      (insert env c docs).puts <+: docs.map attachId ∧
      (∀ items, (insert env c docs).outcome = Outcome.ok items →
        (insert env c docs).puts = docs.map attachId) ∧
      (∀ item ∈ (insert env c docs).puts, (item.get "_id").isUndefined = false) ∧
      (∀ d ∈ docs, ((d.get "_id").isUndefined = true →
          (attachId d).get "_id" = freshObjectID) ∧
        ((d.get "_id").isUndefined = false → attachId d = d))) ∧
    (∀ doc : Value, doc.isDoc = true →
      (insert env c [doc]).coll = (_put env c (attachId doc) false).1) ∧
    (∀ doc : Value, doc.isDoc = true → (doc.get "_id").isUndefined = true →
      (attachId doc).get "_id" = freshObjectID ∧
      (save env c doc).puts = [attachId doc] ∧
      (save env c doc).coll = (_put env c (attachId doc) false).1) ∧
    (∀ doc : Value, (doc.get "_id").isUndefined = false →
      (save env c doc).puts = [doc] ∨ (save env c doc).puts = []) := by
  refine ⟨?_, ?_, ?_, ?_⟩
  · intro docs hdocs
    obtain ⟨h1, h2⟩ := insertLoop_puts env docs c
    refine ⟨h1, h2, ?_, ?_⟩
    · intro item hitem
      have := h1.subset hitem
      obtain ⟨d, hd, e⟩ := List.mem_map.mp this
      rw [← e]
      exact (attachId_spec d (hdocs d hd)).1
    · intro d hd
      exact (attachId_spec d (hdocs d hd)).2
  · intro doc _
    have hd : (if (doc.get "_id").isUndefined = true then doc.set "_id" freshObjectID
        else doc) = attachId doc := rfl
    simp only [insert, insertLoop, hd]
    rcases hp : _put env c (attachId doc) false with ⟨c1, o⟩
    cases o <;> rfl
  · intro doc hdoc hun
    have ha : attachId doc = doc.set "_id" freshObjectID := by
      unfold attachId; rw [if_pos hun]
    refine ⟨(attachId_spec doc hdoc).2.1 hun, ?_, ?_⟩
    · simp only [save, hun, if_true, ha]
      rcases hp : _put env c (doc.set "_id" freshObjectID) false with ⟨c1, o⟩
      cases o <;> rfl
    · simp only [save, hun, if_true, ha]
      rcases hp : _put env c (doc.set "_id" freshObjectID) false with ⟨c1, o⟩
      cases o <;> rfl
  · intro doc hdef
    simp only [save, hdef, Bool.false_eq_true, if_false]
    cases simplifyKey (doc.get "_id") with
    | none => right; rfl
    | some id =>
        simp only
        cases c._store.lookup id.propName with
        | none =>
            simp only
            cases hproto : objectProtoNames.contains id.propName with
            | true => right; rfl
            | false =>
                left
                simp only [Bool.false_eq_true, if_false]
                rcases hp : _put env c doc false with ⟨c1, o⟩
                cases o <;> rfl
        | some pos =>
            simp only
            cases c._get pos with
            | error e => right; rfl
            | ok oldDoc =>
                left
                simp only
                rcases hp : _put env { c with _idx := delFromIndexes oldDoc id c._idx } doc
                  false with ⟨c1, o⟩
                cases o <;> rfl

/-- The conclusion of C8 for the insert of a document without `_id` and one with `_id` into
the sample collection. -/
theorem ids_attached_before_put_witness :
    (∀ d ∈ [sampleNewDoc, sampleItem 4 1 1], d.isDoc = true) ∧
    ((insert sampleEnv sampleColl [sampleNewDoc, sampleItem 4 1 1]).puts <+:
        [sampleNewDoc, sampleItem 4 1 1].map attachId ∧
      (∀ items, (insert sampleEnv sampleColl [sampleNewDoc, sampleItem 4 1 1]).outcome =
          Outcome.ok items →
        (insert sampleEnv sampleColl [sampleNewDoc, sampleItem 4 1 1]).puts =
          [sampleNewDoc, sampleItem 4 1 1].map attachId) ∧
      (∀ item ∈ (insert sampleEnv sampleColl [sampleNewDoc, sampleItem 4 1 1]).puts,
        (item.get "_id").isUndefined = false) ∧
      (∀ d ∈ [sampleNewDoc, sampleItem 4 1 1],
        ((d.get "_id").isUndefined = true → (attachId d).get "_id" = freshObjectID) ∧
        ((d.get "_id").isUndefined = false → attachId d = d))) ∧
    (insert sampleEnv sampleColl [sampleNewDoc, sampleItem 4 1 1]).puts =
      [Value.obj [("num", Value.num 1), ("pum", Value.num 1), ("_id", Value.oid (-1))],
        sampleItem 4 1 1] :=
  ⟨by decide,
    (ids_attached_before_put sampleEnv sampleColl).1 [sampleNewDoc, sampleItem 4 1 1]
      (by decide),
    rfl⟩

/-! ### The outcome of `update` -/

theorem put_ok_log (env : Env) (c c1 : Collection) (item it : Value) (remove : Bool)
    (h : _put env c item remove = (c1, Outcome.ok it)) :
    ∃ entry : LogEntry, c1.log = c.log ++ [entry] ∧ entry.item = it ∧
      entry.remove = remove := by
  unfold _put at h
  rcases hr : _ensureIds c._id item with ⟨ctr, r⟩
  rw [hr] at h
  cases r with
  | error e => simp at h
  | ok item1 =>
    simp only at h
    by_cases hu : (item1.get "_id").isUndefined = true
    · rw [if_pos hu] at h; simp at h
    · rw [if_neg hu] at h
      cases hk : simplifyKey ((_unwrapTypes (_wrapTypes item1)).get "_id") with
      | none => rw [hk] at h; simp at h
      | some id =>
        rw [hk] at h
        simp only at h
        cases hchk : (if remove = true then (Except.ok () : Except Err Unit)
            else checkIndexes env (_unwrapTypes (_wrapTypes item1))
              ({ c with _id := ctr } : Collection)._idx) with
        | error e => rw [hchk] at h; simp at h
        | ok u =>
          rw [hchk] at h
          simp only at h
          unfold _putWrite at h
          by_cases hw : env.writeFails ({ c with _id := ctr } : Collection)._fsize = true
          · rw [if_pos hw] at h; simp at h
          · rw [if_neg hw] at h
            simp only [Prod.mk.injEq, Outcome.ok.injEq] at h
            obtain ⟨h1, h2⟩ := h
            rw [← h1, ← h2]
            exact ⟨_, rfl, rfl, rfl⟩

theorem put_error_log (env : Env) (c : Collection) (item : Value) (remove : Bool)
    (h : (_put env c item remove).2.isError = true) :
    (_put env c item remove).1.log = c.log := by
  rcases hp : _put env c item remove with ⟨c1, o⟩
  rw [hp] at h
  simp only at h ⊢
  unfold _put at hp
  rcases hr : _ensureIds c._id item with ⟨ctr, r⟩
  rw [hr] at hp
  cases r with
  | error e =>
    simp only [Prod.mk.injEq] at hp
    rw [← hp.1]
  | ok item1 =>
    simp only at hp
    by_cases hu : (item1.get "_id").isUndefined = true
    · rw [if_pos hu] at hp
      simp only [Prod.mk.injEq] at hp
      rw [← hp.1]
    · rw [if_neg hu] at hp
      cases hk : simplifyKey ((_unwrapTypes (_wrapTypes item1)).get "_id") with
      | none =>
        rw [hk] at hp
        simp only [Prod.mk.injEq] at hp
        rw [← hp.1]
      | some id =>
        rw [hk] at hp
        simp only at hp
        cases hchk : (if remove = true then (Except.ok () : Except Err Unit)
            else checkIndexes env (_unwrapTypes (_wrapTypes item1))
              ({ c with _id := ctr } : Collection)._idx) with
        | error e =>
          rw [hchk] at hp
          simp only [Prod.mk.injEq] at hp
          rw [← hp.1]
        | ok u =>
          rw [hchk] at hp
          simp only at hp
          unfold _putWrite at hp
          by_cases hw : env.writeFails ({ c with _id := ctr } : Collection)._fsize = true
          · rw [if_pos hw] at hp
            simp only [Prod.mk.injEq] at hp
            rw [← hp.1]
          · rw [if_neg hw] at hp
            simp only [Prod.mk.injEq] at hp
            rw [← hp.2] at h
            simp [Outcome.isError] at h

theorem scanLoop_length_le (env : Env) (c : Collection) (matcher : Value → Bool)
    (sort : Option String) (skip l : Nat) (hs : sortOff sort = true) (hl : 1 ≤ l) :
    ∀ (range : List Nat) (b : List Nat) (g : Nat) (s : Scan),
      b.length ≤ l →
      scanLoop env c matcher sort skip (some l) ⟨b, g, none⟩ range = Except.ok s →
      s.res.length ≤ l
  | [], b, g, s, hb, h => by
      simp only [scanLoop, Except.ok.injEq] at h
      rw [← h]; exact hb
  | pos :: r, b, g, s, hb, h => by
      simp only [scanLoop] at h
      rw [scanStep_nosort env c matcher sort skip (some l) hs] at h
      have hon : limitOn (some l) = true := by
        simp only [limitOn, bne_iff_ne, ne_eq]; omega
      simp only [hon, true_and, Option.getD_some] at h
      by_cases hreach : l ≤ b.length
      · rw [if_pos hreach] at h
        exact scanLoop_length_le env c matcher sort skip l hs hl r b g s hb h
      · rw [if_neg hreach] at h
        cases hg : c._get pos with
        | error e => rw [hg] at h; simp at h
        | ok obj =>
          rw [hg] at h
          simp only at h
          by_cases hm : matcher obj = true
          · rw [if_pos hm] at h
            refine scanLoop_length_le env c matcher sort skip l hs hl r _ _ s ?_ h
            by_cases hsg : skip ≤ g
            · rw [if_pos hsg]
              simp only [List.length_append, List.length_singleton]
              omega
            · rw [if_neg hsg]; exact hb
          · rw [if_neg hm] at h
            exact scanLoop_length_le env c matcher sort skip l hs hl r b g s hb h

theorem find_length_le_limit (env : Env) (c : Collection) (qt : Query) (skip l : Nat)
    (sort : Option String) (order : Int) (hint : Option (String → Bool))
    (arFields : String → Bool) (res : List Nat) (hl : 1 ≤ l)
    (h : __find env c qt skip (some l) sort order hint arFields = Except.ok res) :
    res.length ≤ l := by
  have hl0 : (some l : Option Nat) ≠ some 0 := by
    intro e
    have := Option.some.inj e
    omega
  unfold __find at h
  cases hc : candidates c qt sort order hint with
  | error e => rw [hc] at h; simp at h
  | ok t =>
    obtain ⟨range, qt1, sort1⟩ := t
    rw [hc] at h
    simp only at h
    by_cases hd : (sortOff sort1 && qt1.isEmpty) = true
    · rw [if_pos hd] at h
      simp only [Except.ok.injEq] at h
      rw [← h, sliceRange_eq _ _ _ hl0]
      simp only [takeLimit, List.length_take]
      omega
    · rw [if_neg hd] at h
      cases hso : sortOff sort1 with
      | true =>
        simp only [hso, if_true, Bool.not_true, Bool.false_eq_true, if_false] at h
        cases hscan : scanLoop env c
            (if (env.searchInArray || qt1.any fun cl => arFields cl.field) = true
              then qt1.native3 else qt1.native)
            sort1 skip (some l) ⟨[], 0, none⟩ range with
        | error e => rw [hscan] at h; simp at h
        | ok s =>
          rw [hscan] at h
          simp only [Except.ok.injEq] at h
          rw [← h]
          exact scanLoop_length_le env c _ sort1 skip l hso hl range [] 0 s
            (by simp) hscan
      | false =>
        simp only [hso, Bool.false_eq_true, if_false, Bool.not_false, if_true] at h
        cases hscan : scanLoop env c
            (if (env.searchInArray || qt1.any fun cl => arFields cl.field) = true
              then qt1.native3 else qt1.native)
            sort1 skip (some l) ⟨[], 0, some (TIndex.new (propKey sort1) "" false)⟩
            range with
        | error e => rw [hscan] at h; simp at h
        | ok s =>
          rw [hscan] at h
          simp only [Except.ok.injEq] at h
          rw [← h, sliceRange_eq _ _ _ hl0]
          simp only [takeLimit, List.length_take]
          omega

/-- C9: when the search of `update` returns the offsets `res`,
* with no match and no upsert asked for, `update` reports the count 0 and the collection is
  what it was (nothing is written);
* with no match and an upsert asked for, `update` appends exactly one entry, a document, to
  the log and reports `(1, {updatedExisting: false, upserted: <the _id of that document>,
  n: 1})`, unless it ends with an error, and then the log is what it was;
* with `k = res.length >= 1` matches, unless it ends with an error, `update` reports
  `(k, {updatedExisting: true, n: k})`, and `k` is 1 unless the `multi` option is set. -/
theorem update_outcome (env : Env) (c : Collection) (qt : Query) (query doc : Value)
    (opts : UpdateOpts) (res : List Nat)
    (hfind : __find env c qt 0 (if opts.multi then none else some 1) none 0 opts.hint
      emptyObject = Except.ok res) :
    (res = [] → opts.upsert = false →
      (update env c qt query doc opts).outcome = Outcome.ok ⟨0, none⟩ ∧
      (update env c qt query doc opts).coll = c ∧
      (update env c qt query doc opts).puts = []) ∧
    (res = [] → opts.upsert = true →
      ((update env c qt query doc opts).outcome.isError = true ∧
        (update env c qt query doc opts).coll.log = c.log) ∨
      ∃ entry : LogEntry,
        (update env c qt query doc opts).coll.log = c.log ++ [entry] ∧
        entry.remove = false ∧
        (update env c qt query doc opts).outcome =
          Outcome.ok ⟨1, some ⟨false, 1, some (entry.item.get "_id")⟩⟩) ∧
    (res ≠ [] →
      ((update env c qt query doc opts).outcome.isError = true ∨
        (update env c qt query doc opts).outcome =
          Outcome.ok ⟨res.length, some ⟨true, res.length, none⟩⟩) ∧
      (opts.multi = false → res.length = 1)) := by
  refine ⟨?_, ?_, ?_⟩
  · intro hres hup
    subst hres
    simp only [update, hfind, List.isEmpty_nil, if_true, hup, Bool.not_false, and_self]
  · intro hres hup
    subst hres
    simp only [update, hfind, List.isEmpty_nil, if_true, hup, Bool.not_true,
      Bool.false_eq_true, if_false]
    cases hu : (Updater.ofSpec doc).update
        ((if (Updater.ofSpec doc).hasAtomic = true then none else some doc).getD query)
        true with
    | error e => left; exact ⟨rfl, rfl⟩
    | ok d1 =>
      simp only
      have hlog := put_error_log env c
        (if (d1.get "_id").isUndefined = true then d1.set "_id" freshObjectID else d1) false
      rcases hp : _put env c
          (if (d1.get "_id").isUndefined = true then d1.set "_id" freshObjectID else d1)
          false with ⟨c1, o⟩
      rw [hp] at hlog
      cases o with
      | ok item =>
        right
        obtain ⟨entry, h1, h2, h3⟩ := put_ok_log env c c1 _ item false hp
        refine ⟨entry, h1, h3, ?_⟩
        simp only
        rw [h2]
      | failed e => left; exact ⟨rfl, hlog rfl⟩
      | thrown e => left; exact ⟨rfl, hlog rfl⟩
      | crashed e => left; exact ⟨rfl, hlog rfl⟩
  · intro hres
    constructor
    · have hne : res.isEmpty = false := by
        cases res with
        | nil => exact absurd rfl hres
        | cons a b => rfl
      simp only [update, hfind, hne, Bool.false_eq_true, if_false]
      rcases hloop : updateLoop env (Updater.ofSpec doc)
          { coll := c,
            doc := if (Updater.ofSpec doc).hasAtomic = true then none else some doc,
            puts := [] } res with ⟨s, o⟩
      cases o with
      | ok u => right; rfl
      | failed e => left; rfl
      | thrown e => left; rfl
      | crashed e => left; rfl
    · intro hm
      rw [hm] at hfind
      simp only [Bool.false_eq_true, if_false] at hfind
      have := find_length_le_limit env c qt 0 1 none 0 opts.hint _ res (Nat.le_refl 1) hfind
      cases res with
      | nil => exact absurd rfl hres
      | cons a b =>
        simp only [List.length_cons] at this ⊢
        omega

/-- The conclusion of C9 on the sample collection: an update of one matched document reports
`(1, {updatedExisting: true, n: 1})`, and an upsert reports the identifier of the document it
wrote. -/
theorem update_outcome_witness :
    __find sampleEnv sampleColl [clauseLt "num" 4] 0
      (if plainOpts.multi then none else some 1) none 0 plainOpts.hint emptyObject =
      Except.ok [10] ∧
    (([10] : List Nat) ≠ [] →
      ((update sampleEnv sampleColl [clauseLt "num" 4] (Value.obj []) sampleSetPum
          plainOpts).outcome.isError = true ∨
        (update sampleEnv sampleColl [clauseLt "num" 4] (Value.obj []) sampleSetPum
          plainOpts).outcome =
          Outcome.ok ⟨([10] : List Nat).length,
            some ⟨true, ([10] : List Nat).length, none⟩⟩) ∧
      (plainOpts.multi = false → ([10] : List Nat).length = 1)) ∧
    (update sampleEnv sampleColl [clauseLt "num" 4] (Value.obj []) sampleSetPum
      plainOpts).outcome = Outcome.ok ⟨1, some ⟨true, 1, none⟩⟩ ∧
    (update sampleEnv sampleColl [clauseLt "num" 0] (Value.obj [("num", Value.num (-5))])
      sampleSetPum { plainOpts with upsert := true }).outcome =
      Outcome.ok ⟨1, some ⟨false, 1, some (Value.oid 2)⟩⟩ :=
  ⟨rfl,
    (update_outcome sampleEnv sampleColl [clauseLt "num" 4] (Value.obj []) sampleSetPum
      plainOpts [10] rfl).2.2,
    rfl, rfl⟩

/-! ### Updates that name the identifier -/

theorem applyOps_set_id (upsert : Bool) (v : Value) :
    ∀ (ops : List UpdOp) (d : Value), UpdOp.set "_id" v ∈ ops →
      ∃ e, applyOps upsert ops d = Except.error e
  | [], _, h => by simp at h
  | op :: r, d, h => by
      simp only [applyOps]
      cases hop : op.apply d upsert with
      | error e => exact ⟨e, rfl⟩
      | ok d1 =>
          simp only
          rcases List.mem_cons.mp h with h1 | h1
          · rw [← h1] at hop
            have ht : touchesId "_id" = true := by decide
            simp [UpdOp.apply, ht] at hop
          · exact applyOps_set_id upsert v r d1 h1

theorem updateLoop_puts_extend (env : Env) (u : Updater) :
    ∀ (r : List Nat) (s : UpdateLoop), s.puts <+: (updateLoop env u s r).1.puts
  | [], s => by simp [updateLoop]
  | pos :: r, s => by
      simp only [updateLoop]
      cases hg : s.coll._get pos with
      | error e => exact List.prefix_refl _
      | ok obj =>
        simp only
        cases hk : simplifyKey (obj.get "_id") with
        | none => exact List.prefix_refl _
        | some id =>
          simp only
          split
          · exact List.prefix_refl _
          · split
            · exact (List.prefix_append _ _).trans (updateLoop_puts_extend env u r
                { coll := _, doc := _, puts := s.puts ++ [_] })
            · exact List.prefix_append _ _
            · exact List.prefix_append _ _
            · exact List.prefix_append _ _

/-- C10 (as amended): for every update that matches at least one document,
* when the update specification is atomic and sets `_id` with `$set`, `update` is rejected:
  its callback receives an error and no result, nothing is handed to `_put` and the log is
  what it was;
* when the update specification is a replacement document, it is not rejected for the `_id`
  it carries: what `update` hands to `_put` for the first matched document is the
  replacement document with its `_id` overwritten by the matched document's. -/
theorem update_id_immutable (env : Env) (c : Collection) (qt : Query) (query doc : Value)
    (opts : UpdateOpts) (pos : Nat) (rest : List Nat)
    (hfind : __find env c qt 0 (if opts.multi then none else some 1) none 0 opts.hint
      emptyObject = Except.ok (pos :: rest)) :
    ((∃ v, UpdOp.set "_id" v ∈ (Updater.ofSpec doc).ops) →
      (∃ e, (update env c qt query doc opts).outcome = Outcome.failed e) ∧
      (update env c qt query doc opts).puts = [] ∧
      (update env c qt query doc opts).coll.log = c.log) ∧
    ((Updater.ofSpec doc).hasAtomic = false →
      ∀ obj id, c._get pos = Except.ok obj → simplifyKey (obj.get "_id") = some id →
        (update env c qt query doc opts).puts.head? =
          some (doc.set "_id" (obj.get "_id"))) := by
  constructor
  · rintro ⟨v, hv⟩
    have hat : (Updater.ofSpec doc).hasAtomic = true := by
      unfold Updater.hasAtomic
      cases hops : (Updater.ofSpec doc).ops with
      | nil => rw [hops] at hv; simp at hv
      | cons a b => rfl
    simp only [update, hfind, List.isEmpty_cons, Bool.false_eq_true, if_false, hat, if_true,
      updateLoop]
    cases hg : c._get pos with
    | error e => refine ⟨⟨e, rfl⟩, ?_, ?_⟩ <;> rfl
    | ok obj =>
      simp only
      cases hk : simplifyKey (obj.get "_id") with
      | none => refine ⟨⟨Err.typeError, rfl⟩, ?_, ?_⟩ <;> rfl
      | some id =>
        simp only
        obtain ⟨e, he⟩ := applyOps_set_id false v (Updater.ofSpec doc).ops obj hv
        simp only [Updater.update, he]
        exact ⟨⟨e, rfl⟩, trivial, trivial⟩
  · intro hat obj id hg hk
    simp only [update, hfind, List.isEmpty_cons, Bool.false_eq_true, if_false, hat,
      updateLoop, hg, hk]
    rcases hp : _put env { c with _idx := delFromIndexes obj id c._idx }
        (doc.set "_id" (obj.get "_id")) false with ⟨c2, o⟩
    cases o with
    | ok item =>
      simp only [List.nil_append]
      have hpre := updateLoop_puts_extend env (Updater.ofSpec doc) rest
        { coll := c2, doc := Option.map (fun _ => item) (some doc),
          puts := [doc.set "_id" (obj.get "_id")] }
      obtain ⟨t, ht⟩ := hpre
      rcases hloop : updateLoop env (Updater.ofSpec doc)
          { coll := c2, doc := Option.map (fun _ => item) (some doc),
            puts := [doc.set "_id" (obj.get "_id")] } rest with ⟨s2, o2⟩
      rw [hloop] at ht
      simp only [List.singleton_append] at ht
      cases o2 <;> simp only [← ht, List.head?_cons]
    | failed e => rfl
    | thrown e => rfl
    | crashed e => rfl

/-- The conclusion of the amended C10 on the sample collection: the update `{$set: {_id:
"newId"}}` of a matched document is rejected and nothing is written. -/
theorem update_id_immutable_witness :
    __find sampleEnv sampleColl [clauseLt "num" 4] 0
      (if plainOpts.multi then none else some 1) none 0 plainOpts.hint emptyObject =
      Except.ok [10] ∧
    (∃ v, UpdOp.set "_id" v ∈ (Updater.ofSpec sampleSetId).ops) ∧
    ((∃ e, (update sampleEnv sampleColl [clauseLt "num" 4] (Value.obj []) sampleSetId
        plainOpts).outcome = Outcome.failed e) ∧
      (update sampleEnv sampleColl [clauseLt "num" 4] (Value.obj []) sampleSetId
        plainOpts).puts = [] ∧
      (update sampleEnv sampleColl [clauseLt "num" 4] (Value.obj []) sampleSetId
        plainOpts).coll.log = sampleColl.log) :=
  ⟨rfl, ⟨Value.str "newId", List.Mem.head _⟩,
    (update_id_immutable sampleEnv sampleColl [clauseLt "num" 4] (Value.obj []) sampleSetId
      plainOpts 10 [] rfl).1 ⟨Value.str "newId", List.Mem.head _⟩⟩

/-- C10, as stated, fails for a replacement document: in the sample collection, where the
query `{num: {$lt: 4}}` matches the document with `_id` 2, the update with the replacement
document `{_id: 99, num: 7, pum: 7}` is not rejected. It reports
`(1, {updatedExisting: true, n: 1})`, and the document written is
`{_id: 2, num: 7, pum: 7}`, recorded under the identifier 2. -/
theorem update_id_immutable_counterexample :
    __find sampleEnv sampleColl [clauseLt "num" 4] 0 (some 1) none 0 none emptyObject =
      Except.ok [10] ∧
    sampleColl._get 10 = Except.ok (sampleItem 2 3 2) ∧
    sampleReplacement.get "_id" = Value.num 99 ∧
    (update sampleEnv sampleColl [clauseLt "num" 4] (Value.obj []) sampleReplacement
      plainOpts).outcome = Outcome.ok ⟨1, some ⟨true, 1, none⟩⟩ ∧
    (update sampleEnv sampleColl [clauseLt "num" 4] (Value.obj []) sampleReplacement
      plainOpts).coll._store = [("1", 0), ("2", 30), ("3", 20)] ∧
    (update sampleEnv sampleColl [clauseLt "num" 4] (Value.obj []) sampleReplacement
      plainOpts).coll._get 30 =
      Except.ok (Value.obj [("_id", Value.num 2), ("num", Value.num 7),
        ("pum", Value.num 7)]) :=
  ⟨rfl, rfl, rfl, rfl, rfl, rfl⟩

/-! ### What a successful `_put` leaves behind -/

theorem put_ok_inv (env : Env) (c c1 : Collection) (item it : Value) (remove : Bool)
    (h : _put env c item remove = (c1, Outcome.ok it)) :
    ∃ (ctr : Nat) (item1 : Value) (id : SKey) (entry : LogEntry),
      _ensureIds c._id item = (ctr, Except.ok item1) ∧
      it = _unwrapTypes (_wrapTypes item1) ∧
      simplifyKey (it.get "_id") = some id ∧
      env.writeFails c._fsize = false ∧
      (remove = false → checkIndexes env it c._idx = Except.ok ()) ∧
      c1._id = ctr ∧
      c1._idx = updateIndexes env it id remove c._idx ∧
      c1._store =
        (if remove then c._store.filter (fun r => r.1 != id.propName)
         else if (c._store.lookup id.propName).isSome then
           c._store.map (fun r => if r.1 == id.propName then (r.1, c._fsize) else r)
         else c._store ++ [(id.propName, c._fsize)]) ∧
      c1.log = c.log ++ [entry] ∧
      c1._fsize = c._fsize + entry.buf.utf8ByteSize ∧
      entry.pos = c._fsize ∧ entry.item = it ∧ entry.remove = remove ∧
      entry.key._id = id ∧ entry.key._uid = ctr ∧
      entry.key._a = (if remove then some "del" else none) ∧
      entry.buf =
        headerText (pad10 (env.stringify entry.key.toValue).utf8ByteSize)
          (pad10 (if remove then "" else env.stringify (_wrapTypes item1)).utf8ByteSize) ++
          "\n" ++ env.stringify entry.key.toValue ++ "\n" ++
          (if remove then "" else env.stringify (_wrapTypes item1)) ++ "\n" := by
  unfold _put at h
  rcases hr : _ensureIds c._id item with ⟨ctr, r⟩
  rw [hr] at h
  cases r with
  | error e => simp at h
  | ok item1 =>
    simp only at h
    by_cases hu : (item1.get "_id").isUndefined = true
    · rw [if_pos hu] at h; simp at h
    · rw [if_neg hu] at h
      cases hk : simplifyKey ((_unwrapTypes (_wrapTypes item1)).get "_id") with
      | none => rw [hk] at h; simp at h
      | some id =>
        rw [hk] at h
        simp only at h
        cases hchk : (if remove = true then (Except.ok () : Except Err Unit)
            else checkIndexes env (_unwrapTypes (_wrapTypes item1))
              ({ c with _id := ctr } : Collection)._idx) with
        | error e => rw [hchk] at h; simp at h
        | ok u =>
          rw [hchk] at h
          simp only at h
          unfold _putWrite at h
          by_cases hw : env.writeFails ({ c with _id := ctr } : Collection)._fsize = true
          · rw [if_pos hw] at h; simp at h
          · rw [if_neg hw] at h
            simp only [Prod.mk.injEq, Outcome.ok.injEq] at h
            obtain ⟨h1, h2⟩ := h
            subst h2
            subst h1
            refine ⟨ctr, item1, id, _, rfl, rfl, hk, ?_, ?_, rfl, rfl, rfl, rfl, rfl, rfl, rfl,
              rfl, rfl, rfl, rfl, rfl⟩
            · simpa using hw
            · intro hrem
              rw [hrem] at hchk
              simpa using hchk

/-! ### Upsert: the new document and the caller's objects -/

mutual
theorem cloneDeep_eq : ∀ v : Value, _cloneDeep v = v
  | Value.arr xs => by simp only [_cloneDeep, cloneItems_eq xs]
  | Value.obj kvs => by simp only [_cloneDeep, cloneProps_eq kvs]
  | Value.undef => rfl
  | Value.null => rfl
  | Value.bool _ => rfl
  | Value.num _ => rfl
  | Value.str _ => rfl
  | Value.date _ => rfl
  | Value.oid _ => rfl
  | Value.bin _ => rfl
theorem cloneItems_eq : ∀ xs : List Value, cloneItems xs = xs
  | [] => rfl
  | x :: xs => by simp only [cloneItems, cloneDeep_eq x, cloneItems_eq xs]
theorem cloneProps_eq : ∀ kvs : List (String × Value), cloneProps kvs = kvs
  | [] => rfl
  | (k, v) :: r => by simp only [cloneProps, cloneDeep_eq v, cloneProps_eq r]
end

theorem upsertDoc_frame (updater : Updater) (doc0 : Option Ref) (h h1 : Objs) (r : Ref)
    (hu : upsertDoc updater doc0 h = Except.ok (r, h1)) :
    r = Ref.copy ∧ h1.query = h.query ∧ h1.doc = h.doc ∧ h1.stored = h.stored := by
  unfold upsertDoc at hu
  simp only at hu
  split at hu
  · simp at hu
  · simp only [Except.ok.injEq, Prod.mk.injEq] at hu
    obtain ⟨hr, hh⟩ := hu
    subst hr
    subst hh
    refine ⟨rfl, ?_⟩
    split <;> simp [Objs.write]

theorem upsertDoc_value (updater : Updater) (doc0 : Option Ref) (h : Objs) :
    upsertDoc updater doc0 h =
      match updater.update (h.read (doc0.getD Ref.query)) true with
      | Except.error e => Except.error e
      | Except.ok d1 =>
          Except.ok (Ref.copy, (h.write Ref.copy (_cloneDeep (h.read (doc0.getD Ref.query)))).write
            Ref.copy (attachId d1)) := by
  unfold upsertDoc
  have hr : ∀ v : Value, (h.write Ref.copy v).read Ref.copy = v := fun _ => rfl
  simp only [cloneDeep_eq, hr]
  cases updater.update (h.read (doc0.getD Ref.query)) true with
  | error e => rfl
  | ok d1 =>
      simp only [attachId, Objs.read, Objs.write]
      split <;> rfl

/-- C11: an `update` with upsert requested that matches no document is the upsert task on the
objects `query` and `doc` of the caller. The task builds the new document in the object that
`_cloneDeep` makes: for an atomic update specification it is the copy of the query with the
operators applied (or the updater refuses and nothing goes to `_put`), for a plain
replacement it is the copy of the update document; in both cases a new identifier is
attached when the document has none, and that document is what goes to `_put`. The caller's
query object and update document are, after the task, what they were before it. -/
theorem upsert_from_copy (env : Env) (c : Collection) (qt : Query) (query doc : Value)
    (opts : UpdateOpts) (hup : opts.upsert = true)
    (hfind : __find env c qt 0 (if opts.multi then none else some 1) none 0 opts.hint
      emptyObject = Except.ok []) :
    update env c qt query doc opts = (upsertTask env c query doc).1 ∧
    (upsertTask env c query doc).2.query = query ∧
    (upsertTask env c query doc).2.doc = doc ∧
    ((Updater.ofSpec doc).hasAtomic = true →
      (∀ e, (Updater.ofSpec doc).update (_cloneDeep query) true = Except.error e →
        (update env c qt query doc opts).puts = [] ∧
        (update env c qt query doc opts).outcome = Outcome.failed e) ∧
      (∀ d1, (Updater.ofSpec doc).update (_cloneDeep query) true = Except.ok d1 →
        (update env c qt query doc opts).puts = [attachId d1])) ∧
    ((Updater.ofSpec doc).hasAtomic = false →
      (update env c qt query doc opts).puts = [attachId (_cloneDeep doc)]) := by
  have hrun : update env c qt query doc opts = (upsertTask env c query doc).1 := by
    unfold update upsertTask
    simp only [hfind, hup, List.isEmpty_nil, if_true, Bool.not_true, Bool.false_eq_true,
      if_false]
    rw [upsertDoc_value]
    have hsrc : (Objs.start query doc).read
        ((if (Updater.ofSpec doc).hasAtomic = true then none else some Ref.doc).getD
          Ref.query) =
        (if (Updater.ofSpec doc).hasAtomic = true then none else some doc).getD query := by
      cases (Updater.ofSpec doc).hasAtomic <;> rfl
    rw [hsrc]
    cases (Updater.ofSpec doc).update
        ((if (Updater.ofSpec doc).hasAtomic = true then none else some doc).getD query)
        true with
    | error e => rfl
    | ok d1 =>
        simp only [Objs.read, Objs.write, attachId]
        rcases _put env c
          (if (d1.get "_id").isUndefined = true then d1.set "_id" freshObjectID else d1)
          false with ⟨c1, o⟩
        cases o <;> rfl
  have hframe : (upsertTask env c query doc).2.query = query ∧
      (upsertTask env c query doc).2.doc = doc := by
    unfold upsertTask
    simp only
    cases hu : upsertDoc (Updater.ofSpec doc)
        (if (Updater.ofSpec doc).hasAtomic = true then none else some Ref.doc)
        (Objs.start query doc) with
    | error e => exact ⟨rfl, rfl⟩
    | ok p =>
        obtain ⟨r, h1⟩ := p
        obtain ⟨hr, hq, hd, _⟩ := upsertDoc_frame _ _ _ _ _ hu
        subst hr
        simp only
        rcases _put env c (h1.read Ref.copy) false with ⟨c1, o⟩
        cases o <;> simp only [Objs.write, hq, hd] <;> exact ⟨rfl, rfl⟩
  refine ⟨hrun, hframe.1, hframe.2, ?_, ?_⟩
  · intro hat
    constructor
    · intro e he
      rw [cloneDeep_eq] at he
      unfold update
      simp only [hfind, hup, hat, List.isEmpty_nil, if_true, Bool.not_true,
        Bool.false_eq_true, if_false, Option.getD_none, he, and_self]
    · intro d1 hd1
      rw [cloneDeep_eq] at hd1
      unfold update
      simp only [hfind, hup, hat, List.isEmpty_nil, if_true, Bool.not_true,
        Bool.false_eq_true, if_false, Option.getD_none, hd1, attachId]
      rcases _put env c
        (if (d1.get "_id").isUndefined = true then d1.set "_id" freshObjectID else d1)
        false with ⟨c1, o⟩
      cases o <;> rfl
  · intro hat
    have hops : (Updater.ofSpec doc).ops = [] := by
      simpa [Updater.hasAtomic] using hat
    rw [cloneDeep_eq]
    unfold update
    simp only [hfind, hup, hat, List.isEmpty_nil, if_true, Bool.not_true,
      Bool.false_eq_true, if_false, Option.getD_some, Updater.update, hops, applyOps,
      attachId]
    rcases _put env c
      (if (doc.get "_id").isUndefined = true then doc.set "_id" freshObjectID else doc)
      false with ⟨c1, o⟩
    cases o <;> rfl

theorem upsert_from_copy_witness :
    __find sampleEnv sampleColl [clauseLt "num" 0] 0
      (if upsertOpts.multi then none else some 1) none 0 upsertOpts.hint emptyObject =
      Except.ok [] ∧
    (upsertTask sampleEnv sampleColl sampleNoMatch sampleSetPum).2.query = sampleNoMatch ∧
    (upsertTask sampleEnv sampleColl sampleNoMatch sampleSetPum).2.doc = sampleSetPum ∧
    (update sampleEnv sampleColl [clauseLt "num" 0] sampleNoMatch sampleSetPum
      upsertOpts).puts =
      [Value.obj [("num", Value.num (-5)), ("pum", Value.num 9), ("_id", Value.oid (-1))]] ∧
    (update sampleEnv sampleColl [clauseLt "num" 0] sampleNoMatch sampleNewDoc
      upsertOpts).puts =
      [Value.obj [("num", Value.num 1), ("pum", Value.num 1), ("_id", Value.oid (-1))]] :=
  ⟨rfl,
    (upsert_from_copy sampleEnv sampleColl [clauseLt "num" 0] sampleNoMatch sampleSetPum
      upsertOpts rfl rfl).2.1,
    (upsert_from_copy sampleEnv sampleColl [clauseLt "num" 0] sampleNoMatch sampleSetPum
      upsertOpts rfl rfl).2.2.1,
    ((upsert_from_copy sampleEnv sampleColl [clauseLt "num" 0] sampleNoMatch sampleSetPum
      upsertOpts rfl rfl).2.2.2.1 rfl).2 _ rfl,
    (upsert_from_copy sampleEnv sampleColl [clauseLt "num" 0] sampleNoMatch sampleNewDoc
      upsertOpts rfl rfl).2.2.2.2 rfl⟩

/-! ### What `save` reports -/

theorem save_finish (env : Env) (c : Collection) (doc : Value) (isUpdate : Bool)
    (r : Run SaveResult)
    (hr : r =
      match _put env c doc false with
      | (c1, Outcome.ok item) =>
          { coll := c1,
            outcome := Outcome.ok (if isUpdate then SaveResult.updated else SaveResult.saved item),
            puts := [doc] }
      | (c1, Outcome.failed e) => { coll := c1, outcome := Outcome.failed e, puts := [doc] }
      | (c1, Outcome.thrown e) => { coll := c1, outcome := Outcome.failed e, puts := [doc] }
      | (c1, Outcome.crashed e) => { coll := c1, outcome := Outcome.crashed e, puts := [doc] }) :
    (∀ c1 item, _put env c doc false = (c1, Outcome.ok item) →
      r.outcome = Outcome.ok (if isUpdate then SaveResult.updated else SaveResult.saved item) ∧
      r.coll = c1 ∧ (item.get "_id").isUndefined = false ∧
      ∃ entry : LogEntry, c1.log = c.log ++ [entry] ∧ entry.item = item ∧
        entry.remove = false) ∧
    ((_put env c doc false).2.isError = true → r.outcome.isError = true) := by
  subst hr
  constructor
  · intro c1 item hp
    rw [hp]
    refine ⟨rfl, rfl, ?_, ?_⟩
    · obtain ⟨ctr, item1, id, entry, _, _, hid, _⟩ := put_ok_inv env c c1 doc item false hp
      cases hv : item.get "_id" with
      | undef => rw [hv] at hid; simp [simplifyKey] at hid
      | _ => rfl
    · obtain ⟨ctr, item1, id, entry, _, _, _, _, _, _, _, _, hlog, _, _, hit, hrem, _⟩ :=
        put_ok_inv env c c1 doc item false hp
      exact ⟨entry, hlog, hit, hrem⟩
  · intro herr
    rcases hp : _put env c doc false with ⟨c1, o⟩
    rw [hp] at herr
    cases o with
    | ok item => simp [Outcome.isError] at herr
    | failed e => rfl
    | thrown e => rfl
    | crashed e => rfl

/-- C12 (as amended): `save` hands to its callback the saved document itself, not its
identifier, when the document is new, and `1` when a document with that `_id` was in the
position map.
* A document without `_id` goes to `_put` with a newly generated identifier attached; when
  `_put` succeeds `save` reports the document as `_put` left it, which carries an `_id` and is
  the item of the entry appended to the log.
* A document whose `_id` has no record in the position map (and is not named like a
  property that objects inherit) goes to `_put` as it is, with the same report.
* A document whose `_id` has a record, the stored version of which can be read, goes to
  `_put` after the stored version is taken out of the indexes; when `_put` succeeds `save`
  reports `1`.
In each case `save` reports an error when `_put` ends with an error. -/
theorem save_result (env : Env) (c : Collection) (doc : Value) :
    ((doc.get "_id").isUndefined = true →
      (∀ c1 item, _put env c (attachId doc) false = (c1, Outcome.ok item) →
        (save env c doc).outcome = Outcome.ok (SaveResult.saved item) ∧
        (save env c doc).coll = c1 ∧ (item.get "_id").isUndefined = false ∧
        ∃ entry : LogEntry, c1.log = c.log ++ [entry] ∧ entry.item = item ∧
          entry.remove = false) ∧
      ((_put env c (attachId doc) false).2.isError = true →
        (save env c doc).outcome.isError = true)) ∧
    (∀ id, simplifyKey (doc.get "_id") = some id → c._store.lookup id.propName = none →
      objectProtoNames.contains id.propName = false →
      (∀ c1 item, _put env c doc false = (c1, Outcome.ok item) →
        (save env c doc).outcome = Outcome.ok (SaveResult.saved item) ∧
        (save env c doc).coll = c1 ∧ (item.get "_id").isUndefined = false ∧
        ∃ entry : LogEntry, c1.log = c.log ++ [entry] ∧ entry.item = item ∧
          entry.remove = false) ∧
      ((_put env c doc false).2.isError = true →
        (save env c doc).outcome.isError = true)) ∧
    (∀ id pos old, simplifyKey (doc.get "_id") = some id →
      c._store.lookup id.propName = some pos → c._get pos = Except.ok old →
      (∀ c1 item,
        _put env { c with _idx := delFromIndexes old id c._idx } doc false =
          (c1, Outcome.ok item) →
        (save env c doc).outcome = Outcome.ok SaveResult.updated ∧
        (save env c doc).coll = c1 ∧
        ∃ entry : LogEntry, c1.log = c.log ++ [entry] ∧ entry.item = item ∧
          entry.remove = false) ∧
      ((_put env { c with _idx := delFromIndexes old id c._idx } doc false).2.isError =
          true →
        (save env c doc).outcome.isError = true)) := by
  have hdef : ∀ id, simplifyKey (doc.get "_id") = some id →
      (doc.get "_id").isUndefined = false := by
    intro id hid
    cases hv : doc.get "_id" with
    | undef => rw [hv] at hid; simp [simplifyKey] at hid
    | _ => rfl
  refine ⟨?_, ?_, ?_⟩
  · intro hno
    have ha : attachId doc = doc.set "_id" freshObjectID := by
      simp only [attachId, hno, if_true]
    rw [ha]
    have hs := save_finish env c (doc.set "_id" freshObjectID) false (save env c doc) (by
      rcases hp : _put env c (doc.set "_id" freshObjectID) false with ⟨c1, o⟩
      cases o <;> simp only [save, hno, if_true, hp])
    simpa only [Bool.false_eq_true, if_false] using hs
  · intro id hid hlook hproto
    have hs := save_finish env c doc false (save env c doc) (by
      rcases hp : _put env c doc false with ⟨c1, o⟩
      cases o <;>
        simp only [save, hdef id hid, Bool.false_eq_true, if_false, hid, hlook, hproto, hp])
    simpa only [Bool.false_eq_true, if_false] using hs
  · intro id pos old hid hlook hget
    have hs := save_finish env { c with _idx := delFromIndexes old id c._idx } doc true
      (save env c doc) (by
      rcases hp : _put env { c with _idx := delFromIndexes old id c._idx } doc false with
        ⟨c1, o⟩
      cases o <;>
        simp only [save, hdef id hid, Bool.false_eq_true, if_false, hid, hlook, hget, if_true,
          hp])
    simp only [if_true] at hs
    refine ⟨fun c1 item hp => ?_, hs.2⟩
    obtain ⟨h1, h2, _, h4⟩ := hs.1 c1 item hp
    exact ⟨h1, h2, h4⟩

theorem save_result_witness :
    (sampleNewDoc.get "_id").isUndefined = true ∧
    (save sampleEnv sampleColl sampleNewDoc).outcome =
      Outcome.ok (SaveResult.saved
        (Value.obj [("num", Value.num 1), ("pum", Value.num 1), ("_id", Value.oid 2)])) ∧
    (save sampleEnv sampleColl (sampleItem 2 7 7)).outcome = Outcome.ok SaveResult.updated ∧
    (save sampleEnv sampleColl (sampleItem 4 7 7)).outcome =
      Outcome.ok (SaveResult.saved (sampleItem 4 7 7)) :=
  ⟨rfl,
    (((save_result sampleEnv sampleColl sampleNewDoc).1 rfl).1 _ _ rfl).1,
    (((save_result sampleEnv sampleColl (sampleItem 2 7 7)).2.2 (SKey.num 2) 10
      (sampleItem 2 3 2) rfl rfl rfl).1 _ _ rfl).1,
    (((save_result sampleEnv sampleColl (sampleItem 4 7 7)).2.1 (SKey.num 4) rfl rfl
      rfl).1 _ _ rfl).1⟩

/-- C12 (as stated) fails: for a new document `{num: 1, pum: 1}` the callback of `save` gets
the document, with the generated identifier attached, and not the generated identifier. -/
theorem save_result_counterexample :
    (sampleNewDoc.get "_id").isUndefined = true ∧
    (save sampleEnv sampleColl sampleNewDoc).outcome =
      Outcome.ok (SaveResult.saved
        (Value.obj [("num", Value.num 1), ("pum", Value.num 1), ("_id", Value.oid 2)])) ∧
    (save sampleEnv sampleColl sampleNewDoc).outcome ≠
      Outcome.ok (SaveResult.saved (Value.oid 2)) :=
  ⟨rfl, rfl, fun h => by
    have h2 : (Outcome.ok (SaveResult.saved
        (Value.obj [("num", Value.num 1), ("pum", Value.num 1), ("_id", Value.oid 2)])) :
        Outcome SaveResult) = Outcome.ok (SaveResult.saved (Value.oid 2)) := h
    injection h2 with h3
    injection h3 with h4
    cases h4⟩

/-! ### Removal of documents -/

mutual
theorem ensureValue_settled : ∀ (ctr : Nat) (v : Value),
    hasReservedKey v = false → hasFreshId v = false →
    ensureValue ctr v = (ctr, Except.ok v)
  | ctr, Value.oid i, _, hf => by
      have hi : ¬ i < 0 := by simpa [hasFreshId] using hf
      simp only [ensureValue, hi, if_false]
  | ctr, Value.arr xs, hr, hf => by
      simp only [hasReservedKey] at hr
      simp only [hasFreshId] at hf
      simp only [ensureValue, ensureItems_settled ctr xs hr hf]
  | ctr, Value.obj kvs, hr, hf => by
      simp only [hasReservedKey] at hr
      simp only [hasFreshId] at hf
      simp only [ensureValue, ensureProps_settled (eachLength kvs) ctr kvs hr hf]
  | ctr, Value.undef, _, _ => rfl
  | ctr, Value.null, _, _ => rfl
  | ctr, Value.bool _, _, _ => rfl
  | ctr, Value.num _, _, _ => rfl
  | ctr, Value.str _, _, _ => rfl
  | ctr, Value.date _, _, _ => rfl
  | ctr, Value.bin _, _, _ => rfl
theorem ensureItems_settled : ∀ (ctr : Nat) (xs : List Value),
    anyReservedItem xs = false → anyFreshItem xs = false →
    ensureItems ctr xs = (ctr, Except.ok xs)
  | ctr, [], _, _ => rfl
  | ctr, x :: xs, hr, hf => by
      simp only [anyReservedItem, Bool.or_eq_false_iff] at hr
      simp only [anyFreshItem, Bool.or_eq_false_iff] at hf
      simp only [ensureItems, ensureValue_settled ctr x hr.1 hf.1,
        ensureItems_settled ctr xs hr.2 hf.2]
theorem ensureProps_settled (len : Option Int) : ∀ (ctr : Nat) (kvs : List (String × Value)),
    anyReservedProp kvs = false → anyFreshProp kvs = false →
    ensureProps len ctr kvs = (ctr, Except.ok kvs)
  | ctr, [], _, _ => rfl
  | ctr, (k, v) :: r, hr, hf => by
      simp only [anyReservedProp, Bool.or_eq_false_iff] at hr
      simp only [anyFreshProp, Bool.or_eq_false_iff] at hf
      have hk : keyErrorAt len k = none := by
        cases len with
        | none => exact (keyError_eq_none_iff k).mpr hr.1.1
        | some n => rfl
      have hv : (if visited len k = true then ensureValue ctr v else (ctr, Except.ok v)) =
          (ctr, Except.ok v) := by
        by_cases hvis : visited len k = true
        · rw [if_pos hvis]; exact ensureValue_settled ctr v hr.1.2 hf.1
        · rw [if_neg hvis]
      simp only [ensureProps, hk, hv, ensureProps_settled len ctr r hr.2 hf.2]
end

theorem ensureIds_settled (ctr : Nat) (d : Value) (hr : hasReservedKey d = false)
    (hf : hasFreshId d = false) : _ensureIds ctr d = (ctr, Except.ok d) := by
  cases d with
  | arr xs =>
      have h := ensureValue_settled ctr (Value.arr xs) hr hf
      simpa only [ensureValue, _ensureIds] using h
  | obj kvs =>
      have h := ensureValue_settled ctr (Value.obj kvs) hr hf
      simpa only [ensureValue, _ensureIds] using h
  | _ => rfl

mutual
theorem hasDollarKey_of_reserved : ∀ v : Value, hasReservedKey v = false →
    hasDollarKey v = false
  | Value.arr xs, h => by
      simp only [hasReservedKey] at h
      simp only [hasDollarKey, anyDollarItem_of_reserved xs h]
  | Value.obj kvs, h => by
      simp only [hasReservedKey] at h
      simp only [hasDollarKey, anyDollarProp_of_reserved kvs h]
  | Value.undef, _ => rfl
  | Value.null, _ => rfl
  | Value.bool _, _ => rfl
  | Value.num _, _ => rfl
  | Value.str _, _ => rfl
  | Value.date _, _ => rfl
  | Value.oid _, _ => rfl
  | Value.bin _, _ => rfl
theorem anyDollarItem_of_reserved : ∀ xs : List Value, anyReservedItem xs = false →
    anyDollarItem xs = false
  | [], _ => rfl
  | x :: xs, h => by
      simp only [anyReservedItem, Bool.or_eq_false_iff] at h
      simp only [anyDollarItem, hasDollarKey_of_reserved x h.1,
        anyDollarItem_of_reserved xs h.2, Bool.or_self]
theorem anyDollarProp_of_reserved : ∀ kvs : List (String × Value),
    anyReservedProp kvs = false → anyDollarProp kvs = false
  | [], _ => rfl
  | (k, v) :: r, h => by
      simp only [anyReservedProp, Bool.or_eq_false_iff, reservedKey] at h
      simp only [anyDollarProp, h.1.1.1, hasDollarKey_of_reserved v h.1.2,
        anyDollarProp_of_reserved r h.2, Bool.or_self]
end

theorem put_remove_settled (env : Env) (c : Collection) (d : Value) (id : SKey)
    (hr : hasReservedKey d = false) (hf : hasFreshId d = false)
    (hid : simplifyKey (d.get "_id") = some id) (hw : env.writeFails c._fsize = false) :
    ∃ (c1 : Collection) (entry : LogEntry),
      _put env c d true = (c1, Outcome.ok d) ∧
      c1._store = c._store.filter (fun r => r.1 != id.propName) ∧
      c1._idx = updateIndexes env d id true c._idx ∧
      c1._id = c._id ∧
      c1.log = c.log ++ [entry] ∧
      entry.pos = c._fsize ∧ entry.item = d ∧ entry.remove = true ∧
      entry.key._id = id ∧ entry.key._a = some "del" := by
  have hu : (d.get "_id").isUndefined = false := by
    cases hv : d.get "_id" with
    | undef => rw [hv] at hid; simp [simplifyKey] at hid
    | _ => rfl
  have hwrap : _unwrapTypes (_wrapTypes d) = d :=
    unwrapTypes_wrapTypes_eq d (hasDollarKey_of_reserved d hr)
  rcases hp : _put env c d true with ⟨c1, o⟩
  have ho : o = Outcome.ok d := by
    unfold _put at hp
    rw [ensureIds_settled c._id d hr hf] at hp
    simp only [hu, Bool.false_eq_true, if_false, hwrap, hid, if_true, _putWrite, hw,
      Prod.mk.injEq] at hp
    exact hp.2.symm
  subst ho
  obtain ⟨ctr, item1, id1, entry, he, hit, hid1, _, _, hctr, hidx, hstore, hlog, _, hpos,
    hitem, hrem, hkid, _, hka, _⟩ := put_ok_inv env c c1 d d true hp
  rw [ensureIds_settled c._id d hr hf] at he
  simp only [Prod.mk.injEq, Except.ok.injEq] at he
  rw [hid] at hid1
  simp only [Option.some.injEq] at hid1
  subst hid1
  refine ⟨c1, entry, rfl, ?_, hidx, by rw [hctr, ← he.1], hlog, hpos, hitem, hrem, hkid, ?_⟩
  · simpa using hstore
  · simpa using hka

theorem get_of_log (c c1 : Collection) (entry : LogEntry) (hlog : c1.log = c.log ++ [entry])
    (pos : Nat) (d : Value) (h : c._get pos = Except.ok d) : c1._get pos = Except.ok d := by
  unfold Collection._get at h ⊢
  rw [hlog, List.find?_append]
  cases hf : c.log.find? (fun e => e.pos == pos) with
  | none => rw [hf] at h; simp at h
  | some e => rw [hf] at h; simpa using h

theorem eraseEntry_sublist {ι : Type} [DecidableEq ι] (id : ι) :
    ∀ l : List (Value × ι), (eraseEntry id l).Sublist l
  | [] => List.Sublist.refl _
  | x :: r => by
      by_cases h : x.2 = id
      · simp only [eraseEntry, h, if_true]
        exact List.sublist_cons_self _ _
      · simp only [eraseEntry, h, if_false]
        exact (eraseEntry_sublist id r).cons₂ x

theorem mem_eraseEntry {ι : Type} [DecidableEq ι] (id : ι) (e : Value × ι) :
    ∀ l : List (Value × ι), (l.map Prod.snd).Nodup →
      (e ∈ eraseEntry id l ↔ e ∈ l ∧ e.2 ≠ id)
  | [], _ => by simp [eraseEntry]
  | x :: r, hn => by
      simp only [List.map_cons, List.nodup_cons] at hn
      by_cases h : x.2 = id
      · simp only [eraseEntry, h, if_true, List.mem_cons]
        constructor
        · intro he
          refine ⟨Or.inr he, fun h2 => hn.1 ?_⟩
          rw [h, ← h2]
          exact List.mem_map_of_mem _ he
        · rintro ⟨he | he, hne⟩
          · rw [he] at hne; exact absurd h hne
          · exact he
      · simp only [eraseEntry, h, if_false, List.mem_cons, mem_eraseEntry id e r hn.2]
        constructor
        · rintro (he | ⟨he, hne⟩)
          · exact ⟨Or.inl he, by rw [he]; exact h⟩
          · exact ⟨Or.inr he, hne⟩
        · rintro ⟨he | he, hne⟩
          · exact Or.inl he
          · exact Or.inr ⟨he, hne⟩

theorem updateIndexes_mem (env : Env) (d : Value) (id : SKey) (idx : List (String × TIndex SKey))
    (k : String) (ix1 : TIndex SKey) (h : (k, ix1) ∈ updateIndexes env d id true idx) :
    ∃ ix, (k, ix) ∈ idx ∧ ix1 = ix.del d id := by
  simp only [updateIndexes, if_true, List.mem_map, Prod.mk.injEq] at h
  obtain ⟨kv, hkv, h1, h2⟩ := h
  exact ⟨kv.2, by rw [← h1]; exact hkv, h2.symm⟩

theorem store_after_remove {env : Env} {c : Collection} (hc : Consistent env c)
    {name : String} {pos : Nat} (hmem : (name, pos) ∈ c._store) (n : String) (p : Nat) :
    (n, p) ∈ c._store.filter (fun r => r.1 != name) ↔ (n, p) ∈ c._store ∧ p ≠ pos := by
  simp only [List.mem_filter, bne_iff_ne, ne_eq]
  constructor
  · rintro ⟨h1, h2⟩
    refine ⟨h1, fun hp => h2 ?_⟩
    subst hp
    exact pos_name_unique hc h1 hmem
  · rintro ⟨h1, h2⟩
    refine ⟨h1, fun hn => h2 ?_⟩
    subst hn
    exact mem_unique_of_nodup c._store hc.store_nodup n p pos h1 hmem

theorem consistent_remove {env : Env} {c : Collection} (hc : Consistent env c)
    (hs : c.Settled) {name : String} {pos : Nat} {d : Value} {id : SKey}
    (hmem : (name, pos) ∈ c._store) (hget : c._get pos = Except.ok d)
    (hid : simplifyKey (d.get "_id") = some id) (c1 : Collection) (entry : LogEntry)
    (hstore : c1._store = c._store.filter (fun r => r.1 != id.propName))
    (hidx : c1._idx = updateIndexes env d id true c._idx)
    (hlog : c1.log = c.log ++ [entry]) :
    Consistent env c1 ∧ c1.Settled ∧
    (∀ n p, (n, p) ∈ c1._store ↔ (n, p) ∈ c._store ∧ p ≠ pos) := by
  have hname : id.propName = name := by
    obtain ⟨d1, id1, hg1, hi1, hn1⟩ := hc.live name pos hmem
    have hd : d1 = d := get_unique hg1 hget
    subst hd
    rw [hid] at hi1
    simp only [Option.some.injEq] at hi1
    rw [hi1]; exact hn1
  rw [hname] at hstore
  have hst : ∀ n p, (n, p) ∈ c1._store ↔ (n, p) ∈ c._store ∧ p ≠ pos := by
    intro n p
    rw [hstore]
    exact store_after_remove hc hmem n p
  have hsub : c1._store.Sublist c._store := by
    rw [hstore]; exact List.filter_sublist _
  have hgets : ∀ p d1, c._get p = Except.ok d1 → c1._get p = Except.ok d1 :=
    fun p d1 h => get_of_log c c1 entry hlog p d1 h
  have hne : ∀ e : Value × SKey, ∀ k ix, (k, ix) ∈ c._idx → e ∈ ix.entries →
      (e.2 ≠ id ↔ e.2.propName ≠ name) := by
    intro e k ix hix he
    constructor
    · intro h1 h2
      obtain ⟨p1, d1, hm1, hg1, hi1, _⟩ := hc.idx_sound k ix hix e he
      rw [h2] at hm1
      have hp : p1 = pos := mem_unique_of_nodup c._store hc.store_nodup name p1 pos hm1 hmem
      subst hp
      have hd : d1 = d := get_unique hg1 hget
      subst hd
      rw [hid] at hi1
      simp only [Option.some.injEq] at hi1
      exact h1 hi1.symm
    · intro h1 h2
      rw [h2] at h1
      exact h1 hname
  refine ⟨?_, ?_, hst⟩
  · refine
      { idx_nodup := ?_, store_nodup := ?_, pos_nodup := ?_, live := ?_, idx_key := ?_,
        idx_sound := ?_, idx_complete := ?_, idx_ids_nodup := ?_, idx_sorted := ?_ }
    · have : c1._idx.map Prod.fst = c._idx.map Prod.fst := by
        rw [hidx]
        simp only [updateIndexes, List.map_map]
        rfl
      rw [this]; exact hc.idx_nodup
    · exact (hsub.map Prod.fst).nodup hc.store_nodup
    · exact (hsub.map Prod.snd).nodup hc.pos_nodup
    · intro n p hnp
      obtain ⟨d1, id1, hg1, hi1, hn1⟩ := hc.live n p ((hst n p).mp hnp).1
      exact ⟨d1, id1, hgets p d1 hg1, hi1, hn1⟩
    · intro k ix1 hk
      rw [hidx] at hk
      obtain ⟨ix, hix, he⟩ := updateIndexes_mem env d id c._idx k ix1 hk
      rw [he]
      exact hc.idx_key k ix hix
    · intro k ix1 hk e he
      rw [hidx] at hk
      obtain ⟨ix, hix, hdel⟩ := updateIndexes_mem env d id c._idx k ix1 hk
      rw [hdel] at he
      simp only [TIndex.del] at he
      obtain ⟨he1, he2⟩ := (mem_eraseEntry id e ix.entries (hc.idx_ids_nodup k ix hix)).mp he
      obtain ⟨p1, d1, hm1, hg1, hi1, hv1⟩ := hc.idx_sound k ix hix e he1
      refine ⟨p1, d1, ?_, hgets p1 d1 hg1, hi1, hv1⟩
      rw [hst]
      refine ⟨hm1, fun hp => ?_⟩
      subst hp
      exact (hne e k ix hix he1).mp he2 (pos_name_unique hc hm1 hmem)
    · intro k ix1 hk n p hnp
      rw [hidx] at hk
      obtain ⟨ix, hix, hdel⟩ := updateIndexes_mem env d id c._idx k ix1 hk
      obtain ⟨hm, hp⟩ := (hst n p).mp hnp
      obtain ⟨e, he, hen⟩ := hc.idx_complete k ix hix n p hm
      refine ⟨e, ?_, hen⟩
      rw [hdel]
      simp only [TIndex.del]
      rw [mem_eraseEntry id e ix.entries (hc.idx_ids_nodup k ix hix)]
      refine ⟨he, (hne e k ix hix he).mpr ?_⟩
      rw [hen]
      intro hn
      subst hn
      exact hp (mem_unique_of_nodup c._store hc.store_nodup n p pos hm hmem)
    · intro k ix1 hk
      rw [hidx] at hk
      obtain ⟨ix, hix, hdel⟩ := updateIndexes_mem env d id c._idx k ix1 hk
      rw [hdel]
      simp only [TIndex.del]
      exact ((eraseEntry_sublist id ix.entries).map Prod.snd).nodup
        (hc.idx_ids_nodup k ix hix)
    · intro k ix1 hk
      rw [hidx] at hk
      obtain ⟨ix, hix, hdel⟩ := updateIndexes_mem env d id c._idx k ix1 hk
      rw [hdel]
      simp only [TIndex.del]
      exact (hc.idx_sorted k ix hix).sublist (eraseEntry_sublist id ix.entries)
  · intro n p d1 hnp hg
    obtain ⟨hm, _⟩ := (hst n p).mp hnp
    obtain ⟨d2, id2, hg2, _, _⟩ := hc.live n p hm
    have : d1 = d2 := get_unique hg (hgets p d2 hg2)
    subst this
    exact hs n p d1 hm hg2

theorem keyDoc_of_get {c : Collection} {pos : Nat} {d : Value} (h : c._get pos = Except.ok d) :
    c.keyDoc pos = d := by
  simp only [Collection.keyDoc, h]

theorem idAt_of_get {c : Collection} {pos : Nat} {d : Value} {id : SKey}
    (h : c._get pos = Except.ok d) (hid : simplifyKey (d.get "_id") = some id) :
    c.idAt pos = id := by
  simp only [Collection.idAt, h, hid, Option.getD_some]

theorem removeLoop_spec (env : Env) (hw : ∀ p, env.writeFails p = false) :
    ∀ (res : List Nat) (c : Collection) (puts : List Value),
      Consistent env c → c.Settled → res.Nodup →
      (∀ pos ∈ res, ∃ name, (name, pos) ∈ c._store) →
      ∃ (c1 : Collection) (entries : List LogEntry),
        removeLoop env ⟨c, puts⟩ res = (⟨c1, puts ++ res.map c.keyDoc⟩, Outcome.ok ()) ∧
        Consistent env c1 ∧ c1.Settled ∧
        (∀ n p, (n, p) ∈ c1._store ↔ (n, p) ∈ c._store ∧ p ∉ res) ∧
        (∀ p d, c._get p = Except.ok d → c1._get p = Except.ok d) ∧
        c1.log = c.log ++ entries ∧
        entries.map (fun e => (e.remove, e.key._id, e.key._a, e.item)) =
          res.map (fun pos => (true, c.idAt pos, some "del", c.keyDoc pos))
  | [], c, puts, hc, hs, _, _ =>
      ⟨c, [], by simp [removeLoop], hc, hs, by simp, fun _ _ h => h, by simp, by simp⟩
  | pos :: r, c, puts, hc, hs, hnd, hlive => by
      obtain ⟨name, hmem⟩ := hlive pos (List.mem_cons_self _ _)
      obtain ⟨d, id, hget, hid, hname⟩ := hc.live name pos hmem
      obtain ⟨hrk, hfi⟩ := hs name pos d hmem hget
      obtain ⟨c', entry, hput, hstore, hidx, _, hlog, hpos, hitem, hrem, hkid, hka⟩ :=
        put_remove_settled env c d id hrk hfi hid (hw _)
      obtain ⟨hc', hs', hst'⟩ :=
        consistent_remove hc hs hmem hget hid c' entry hstore hidx hlog
      rw [List.nodup_cons] at hnd
      have hgets : ∀ p d1, c._get p = Except.ok d1 → c'._get p = Except.ok d1 :=
        fun p d1 h => get_of_log c c' entry hlog p d1 h
      have hlive' : ∀ p ∈ r, ∃ n, (n, p) ∈ c'._store := by
        intro p hp
        obtain ⟨n, hn⟩ := hlive p (List.mem_cons_of_mem _ hp)
        refine ⟨n, (hst' n p).mpr ⟨hn, fun e => hnd.1 ?_⟩⟩
        rw [← e]; exact hp
      obtain ⟨c1, entries, hloop, hc1, hs1, hst1, hg1, hlog1, hent1⟩ :=
        removeLoop_spec env hw r c' (puts ++ [d]) hc' hs' hnd.2 hlive'
      have hsame : ∀ p ∈ r, c'.keyDoc p = c.keyDoc p ∧ c'.idAt p = c.idAt p := by
        intro p hp
        obtain ⟨n, hn⟩ := hlive p (List.mem_cons_of_mem _ hp)
        obtain ⟨d1, id1, hgp, hip, _⟩ := hc.live n p hn
        rw [keyDoc_of_get hgp, keyDoc_of_get (hgets p d1 hgp), idAt_of_get hgp hip,
          idAt_of_get (hgets p d1 hgp) hip]
        exact ⟨rfl, rfl⟩
      have hmapd : r.map c'.keyDoc = r.map c.keyDoc :=
        List.map_congr_left (fun p hp => (hsame p hp).1)
      have hmape : r.map (fun pos => (true, c'.idAt pos, some "del", c'.keyDoc pos)) =
          r.map (fun pos => (true, c.idAt pos, some "del", c.keyDoc pos)) :=
        List.map_congr_left (fun p hp => by
          simp only [(hsame p hp).1, (hsame p hp).2])
      refine ⟨c1, entry :: entries, ?_, hc1, hs1, ?_, ?_, ?_, ?_⟩
      · simp only [removeLoop, hget, hput, hloop, hmapd, List.map_cons, keyDoc_of_get hget,
          List.append_assoc, List.singleton_append]
      · intro n p
        rw [hst1 n p, hst' n p, List.mem_cons, not_or, and_assoc]
      · exact fun p d1 h => hg1 p d1 (hgets p d1 h)
      · rw [hlog1, hlog, List.append_assoc, List.singleton_append]
      · simp only [List.map_cons, hent1, hmape, hrem, hkid, hka, hitem, keyDoc_of_get hget,
          idAt_of_get hget hid]

theorem find_slice (env : Env) (c : Collection) (qt : Query) (skip : Nat)
    (limit : Option Nat) (sort : Option String) (order : Int)
    (hint : Option (String → Bool)) (arFields : String → Bool) (L : List Nat)
    (hl : limit ≠ some 0)
    (hfull : __find env c qt 0 none sort order hint arFields = Except.ok L) :
    __find env c qt skip limit sort order hint arFields =
      Except.ok (takeLimit limit (L.drop skip)) := by
  unfold __find at hfull ⊢
  cases hc : candidates c qt sort order hint with
  | error e => rw [hc] at hfull; simp at hfull
  | ok t =>
    obtain ⟨range, qt1, sort1⟩ := t
    rw [hc] at hfull
    simp only at hfull ⊢
    by_cases hd : (sortOff sort1 && qt1.isEmpty) = true
    · rw [if_pos hd] at hfull ⊢
      rw [sliceRange_zero_none] at hfull
      simp only [Except.ok.injEq] at hfull
      subst hfull
      rw [sliceRange_eq range skip limit hl]
    · rw [if_neg hd] at hfull ⊢
      cases hso : sortOff sort1 with
      | true =>
        simp only [hso, if_true, Bool.not_true, Bool.false_eq_true, if_false] at hfull ⊢
        cases hscan : scanLoop env c
            (if (env.searchInArray || qt1.any fun cl => arFields cl.field) = true
              then qt1.native3 else qt1.native)
            sort1 0 none ⟨[], 0, none⟩ range with
        | error e => rw [hscan] at hfull; simp at hfull
        | ok sfull =>
          rw [hscan] at hfull
          simp only [Except.ok.injEq] at hfull
          obtain ⟨s1, hs1, hres⟩ := scanLoop_sim env c _ sort1 skip limit hso hl range
            [] 0 [] 0 sfull ⟨by cases limit <;> simp [takeLimit], Or.inr rfl⟩ hscan
          rw [hs1]
          simp only [Except.ok.injEq]
          rw [hres, hfull]
      | false =>
        simp only [hso, Bool.false_eq_true, if_false, Bool.not_false, if_true] at hfull ⊢
        rw [scanLoop_sorting env c _ sort1 skip limit hso]
        cases hscan : scanLoop env c
            (if (env.searchInArray || qt1.any fun cl => arFields cl.field) = true
              then qt1.native3 else qt1.native)
            sort1 0 none ⟨[], 0, some (TIndex.new (propKey sort1) "" false)⟩ range with
        | error e => rw [hscan] at hfull; simp at hfull
        | ok sfull =>
          rw [hscan] at hfull
          simp only [Except.ok.injEq] at hfull ⊢
          rw [sliceRange_zero_none] at hfull
          rw [sliceRange_eq _ skip limit hl, hfull]

theorem removed_gone {env : Env} {c c1 : Collection} (hc : Consistent env c)
    {res : List Nat}
    (hst : ∀ n p, (n, p) ∈ c1._store ↔ (n, p) ∈ c._store ∧ p ∉ res)
    {pos : Nat} (hpos : pos ∈ res) {name : String} (hmem : (name, pos) ∈ c._store) (p1 : Nat) :
    (name, p1) ∉ c1._store := by
  intro h
  obtain ⟨h1, h2⟩ := (hst name p1).mp h
  have : p1 = pos := mem_unique_of_nodup c._store hc.store_nodup name p1 pos h1 hmem
  subst this
  exact h2 hpos

/-- C13: in a state whose indexes reflect exactly the live documents and whose stored
documents are as `_put` writes them, with the plain matcher in use and no failing write,
`remove` looks up the offsets `res` of the matching live
documents (all of them, each once; the first of them only when `single` is set), writes one
delete entry for each, in order, under the identifier of the document and with the marker
`del`, and reports their number. Afterwards the position map holds the records it held
except those of the removed documents, the indexes again reflect exactly the live documents,
and for each removed document: its identifier occurs in the traversal of no declared index,
has no record in the position map, and a find by that identifier returns no result. -/
theorem remove_spec (env : Env) (c : Collection) (qt : Query) (opts : RemoveOpts)
    (hc : Consistent env c) (hs : c.Settled) (hmode : ScalarMode env qt emptyObject)
    (hw : ∀ p, env.writeFails p = false) :
    ∃ (res : List Nat) (entries : List LogEntry),
      __find env c qt 0 (if opts.single then some 1 else none) none 0 opts.hint
        emptyObject = Except.ok res ∧
      res.Nodup ∧
      (∀ pos ∈ res, ∃ d, c.LiveAt pos d ∧ qt.native d = true) ∧
      (opts.single = false → ∀ pos d, c.LiveAt pos d → qt.native d = true → pos ∈ res) ∧
      (opts.single = true →
        ∃ full, __find env c qt 0 none none 0 opts.hint emptyObject = Except.ok full ∧
          res = full.take 1) ∧
      (remove env c qt opts).outcome = Outcome.ok res.length ∧
      (remove env c qt opts).puts = res.map c.keyDoc ∧
      (remove env c qt opts).coll.log = c.log ++ entries ∧
      entries.map (fun e => (e.remove, e.key._id, e.key._a, e.item)) =
        res.map (fun pos => (true, c.idAt pos, some "del", c.keyDoc pos)) ∧
      (∀ n p, (n, p) ∈ (remove env c qt opts).coll._store ↔ (n, p) ∈ c._store ∧ p ∉ res) ∧
      Consistent env (remove env c qt opts).coll ∧
      (∀ pos ∈ res,
        (∀ kv ∈ (remove env c qt opts).coll._idx, c.idAt pos ∉ kv.2.all) ∧
        (remove env c qt opts).coll._store.lookup (c.idAt pos).propName = none ∧
        ∀ (q : Query) (hint2 : Option (String → Bool)), ScalarMode env q emptyObject →
          (∀ d, q.native d = true → simplifyKey (d.get "_id") = some (c.idAt pos)) →
          __find env (remove env c qt opts).coll q 0 none none 0 hint2 emptyObject =
            Except.ok []) := by
  obtain ⟨full, hfull, hfnd, hfmem, _⟩ :=
    find_spec hc qt none 0 opts.hint emptyObject hmode (readIdx_null c)
  have hres : ∃ res, __find env c qt 0 (if opts.single then some 1 else none) none 0
      opts.hint emptyObject = Except.ok res ∧ res.Sublist full ∧
      (opts.single = false → res = full) ∧ (opts.single = true → res = full.take 1) := by
    cases hsg : opts.single with
    | false => exact ⟨full, by simpa using hfull, List.Sublist.refl _, fun _ => rfl,
        fun h => by cases h⟩
    | true =>
        refine ⟨full.take 1, ?_, List.take_sublist _ _, (fun h => by cases h), fun _ => rfl⟩
        have := find_slice env c qt 0 (some 1) none 0 opts.hint emptyObject full
          (by simp) hfull
        simpa [takeLimit] using this
  obtain ⟨res, hfind, hsub, hall, hone⟩ := hres
  have hnd : res.Nodup := hfnd.sublist hsub
  have hlive : ∀ pos ∈ res, ∃ d, c.LiveAt pos d ∧ qt.native d = true :=
    fun pos hp => (hfmem pos).mp (hsub.subset hp)
  have hstore : ∀ pos ∈ res, ∃ name, (name, pos) ∈ c._store := by
    intro pos hp
    obtain ⟨d, ⟨name, hm, _⟩, _⟩ := hlive pos hp
    exact ⟨name, hm⟩
  obtain ⟨c1, entries, hloop, hc1, _, hst, _, hlog, hent⟩ :=
    removeLoop_spec env hw res c [] hc hs hnd hstore
  have hrun : remove env c qt opts =
      { coll := c1, outcome := Outcome.ok res.length, puts := res.map c.keyDoc } := by
    unfold remove
    rw [hfind]
    simp only [hloop, List.nil_append]
  rw [hrun]
  refine ⟨res, entries, hfind, hnd, hlive, ?_, ?_, rfl, rfl, hlog, hent, hst, hc1, ?_⟩
  · intro hsg pos d hl hn
    rw [hall hsg]
    exact (hfmem pos).mpr ⟨d, hl, hn⟩
  · intro hsg
    exact ⟨full, hfull, hone hsg⟩
  · intro pos hp
    obtain ⟨name, hm⟩ := hstore pos hp
    obtain ⟨d, id, hget, hid, hname⟩ := hc.live name pos hm
    have hidAt : c.idAt pos = id := idAt_of_get hget hid
    rw [hidAt]
    have hgone : ∀ p1, (id.propName, p1) ∉ c1._store := by
      intro p1
      rw [hname]
      exact removed_gone hc hst hp hm p1
    refine ⟨?_, ?_, ?_⟩
    · intro kv hkv hin
      simp only [TIndex.all, List.mem_map] at hin
      obtain ⟨e, he, heq⟩ := hin
      obtain ⟨p1, d1, hm1, _⟩ := hc1.idx_sound kv.1 kv.2 hkv e he
      rw [heq] at hm1
      exact hgone p1 hm1
    · cases hl : c1._store.lookup id.propName with
      | none => rfl
      | some p1 => exact absurd (lookup_mem _ _ _ hl) (hgone p1)
    · intro q hint2 hq hqid
      obtain ⟨res2, hfind2, _, hmem2, _⟩ :=
        find_spec hc1 q none 0 hint2 emptyObject hq (readIdx_null c1)
      rw [hfind2]
      have : res2 = [] := by
        rw [List.eq_nil_iff_forall_not_mem]
        intro p2 hp2
        obtain ⟨d2, ⟨n2, hm2, hg2⟩, hn2⟩ := (hmem2 p2).mp hp2
        obtain ⟨d3, id3, hg3, hi3, hn3⟩ := hc1.live n2 p2 hm2
        have hd : d3 = d2 := get_unique hg3 hg2
        subst hd
        have := hqid d3 hn2
        rw [hi3] at this
        simp only [Option.some.injEq] at this
        subst this
        rw [← hn3] at hm2
        exact hgone p2 hm2
      rw [this]

theorem sampleColl_settled : sampleColl.Settled := by
  intro name pos d h hg
  simp only [sampleColl, List.mem_cons, Prod.mk.injEq, List.mem_singleton,
    List.not_mem_nil, or_false] at h
  rcases h with ⟨rfl, rfl⟩ | ⟨rfl, rfl⟩ | ⟨rfl, rfl⟩
  · have : d = sampleItem 1 5 1 := get_unique hg rfl
    subst this
    exact ⟨rfl, rfl⟩
  · have : d = sampleItem 2 3 2 := get_unique hg rfl
    subst this
    exact ⟨rfl, rfl⟩
  · have : d = sampleItem 3 8 3 := get_unique hg rfl
    subst this
    exact ⟨rfl, rfl⟩

theorem sampleLt_scalar (bound : Int) :
    ScalarMode sampleEnv [clauseLt "num" bound] emptyObject := by
  refine ⟨rfl, fun cl h => ?_⟩
  simp only [List.mem_singleton] at h
  subst h
  rfl

/-- The hypotheses of C13 hold for the sample collection and the query `{num: {$lt: 4}}`,
and so does its conclusion; the removal of the one matching document, with identifier 2,
reports 1 and leaves the identifiers 1 and 3 in the position map and in both indexes. -/
theorem remove_spec_witness :
    Consistent sampleEnv sampleColl ∧ sampleColl.Settled ∧
    ScalarMode sampleEnv [clauseLt "num" 4] emptyObject ∧
    (∀ p, sampleEnv.writeFails p = false) ∧
    (∃ (res : List Nat) (entries : List LogEntry),
      __find sampleEnv sampleColl [clauseLt "num" 4] 0
        (if removeAll.single then some 1 else none) none 0 removeAll.hint emptyObject =
        Except.ok res ∧
      res.Nodup ∧
      (∀ pos ∈ res, ∃ d, sampleColl.LiveAt pos d ∧
        Query.native [clauseLt "num" 4] d = true) ∧
      (removeAll.single = false → ∀ pos d, sampleColl.LiveAt pos d →
        Query.native [clauseLt "num" 4] d = true → pos ∈ res) ∧
      (removeAll.single = true →
        ∃ full, __find sampleEnv sampleColl [clauseLt "num" 4] 0 none none 0 removeAll.hint
            emptyObject = Except.ok full ∧
          res = full.take 1) ∧
      (remove sampleEnv sampleColl [clauseLt "num" 4] removeAll).outcome =
        Outcome.ok res.length ∧
      (remove sampleEnv sampleColl [clauseLt "num" 4] removeAll).puts =
        res.map sampleColl.keyDoc ∧
      (remove sampleEnv sampleColl [clauseLt "num" 4] removeAll).coll.log =
        sampleColl.log ++ entries ∧
      entries.map (fun e => (e.remove, e.key._id, e.key._a, e.item)) =
        res.map (fun pos => (true, sampleColl.idAt pos, some "del", sampleColl.keyDoc pos)) ∧
      (∀ n p, (n, p) ∈ (remove sampleEnv sampleColl [clauseLt "num" 4] removeAll).coll._store ↔
        (n, p) ∈ sampleColl._store ∧ p ∉ res) ∧
      Consistent sampleEnv (remove sampleEnv sampleColl [clauseLt "num" 4] removeAll).coll ∧
      (∀ pos ∈ res,
        (∀ kv ∈ (remove sampleEnv sampleColl [clauseLt "num" 4] removeAll).coll._idx,
          sampleColl.idAt pos ∉ kv.2.all) ∧
        (remove sampleEnv sampleColl [clauseLt "num" 4] removeAll).coll._store.lookup
          (sampleColl.idAt pos).propName = none ∧
        ∀ (q : Query) (hint2 : Option (String → Bool)), ScalarMode sampleEnv q emptyObject →
          (∀ d, q.native d = true → simplifyKey (d.get "_id") = some (sampleColl.idAt pos)) →
          __find sampleEnv (remove sampleEnv sampleColl [clauseLt "num" 4] removeAll).coll q
            0 none none 0 hint2 emptyObject = Except.ok [])) ∧
    (remove sampleEnv sampleColl [clauseLt "num" 4] removeAll).outcome = Outcome.ok 1 ∧
    (remove sampleEnv sampleColl [clauseLt "num" 4] removeAll).coll._store =
      [("1", 0), ("3", 20)] ∧
    (remove sampleEnv sampleColl [clauseLt "num" 4] removeAll).coll._idx.map
      (fun kv => kv.2.all) = [[SKey.num 1, SKey.num 3], [SKey.num 1, SKey.num 3]] ∧
    __find sampleEnv (remove sampleEnv sampleColl [clauseLt "num" 4] removeAll).coll
      [clauseId (SKey.num 2)] 0 none none 0 none emptyObject = Except.ok [] ∧
    (remove sampleEnv sampleColl [clauseLt "num" 9] removeOne).outcome = Outcome.ok 1 ∧
    (remove sampleEnv sampleColl [clauseLt "num" 9] removeOne).coll._store =
      [("1", 0), ("3", 20)] :=
  ⟨sampleColl_consistent, sampleColl_settled, sampleLt_scalar 4, fun _ => rfl,
    remove_spec sampleEnv sampleColl [clauseLt "num" 4] removeAll sampleColl_consistent
      sampleColl_settled (sampleLt_scalar 4) (fun _ => rfl),
    rfl, rfl, rfl, rfl, rfl, rfl⟩

/-! ### What `findAndModify` hands back -/

/-- C14 fails for a replacement document: on the sample collection, with the option `new`
and no projection, `findAndModify({num: {$lt: 4}}, {}, {num: 7, pum: 7}, {new: true})`
matches the document `{_id: 2, num: 3, pum: 2}`, writes `{num: 7, pum: 7, _id: 2}` in its
place, and hands the callback the document as it was before the update: `robj` refers to the
stored object `obj`, while the new version is the separate object `$doc`. With the atomic
update `{$set: {pum: 9}}` the operators are applied to `obj` itself and the callback gets the
document after the update; without `new` it gets the copy made before the update. -/
theorem findAndModify_new_replacement :
    (findAndModify sampleEnv sampleColl [clauseLt "num" 4] (Value.obj []) sampleReplace
      none 0 modifyNew).1.outcome = Outcome.ok (sampleItem 2 3 2) ∧
    (findAndModify sampleEnv sampleColl [clauseLt "num" 4] (Value.obj []) sampleReplace
      none 0 modifyNew).1.coll._get 30 =
      Except.ok (Value.obj [("num", Value.num 7), ("pum", Value.num 7), ("_id", Value.num 2)]) ∧
    (findAndModify sampleEnv sampleColl [clauseLt "num" 4] (Value.obj []) sampleReplace
      none 0 modifyNew).1.coll._store = [("1", 0), ("2", 30), ("3", 20)] ∧
    (findAndModify sampleEnv sampleColl [clauseLt "num" 4] (Value.obj []) sampleSetPum
      none 0 modifyNew).1.outcome =
      Outcome.ok (Value.obj [("_id", Value.num 2), ("num", Value.num 3), ("pum", Value.num 9)]) ∧
    (findAndModify sampleEnv sampleColl [clauseLt "num" 4] (Value.obj []) sampleSetPum
      none 0 modifyOld).1.outcome = Outcome.ok (sampleItem 2 3 2) ∧
    (findAndModify sampleEnv sampleColl [clauseLt "num" 4] (Value.obj []) sampleReplace
      none 0 modifyOld).1.outcome = Outcome.ok (sampleItem 2 3 2) :=
  ⟨rfl, rfl, rfl, rfl, rfl, rfl⟩

/-! ### Declaring an index again -/

theorem readIdx_of_idx {c : Collection} {k : String} {ix : TIndex SKey}
    (h : c.idx k = some ix) : c.readIdx k = IdxRead.index ix := by
  simp only [Collection.readIdx, h]

theorem backfill_name (env : Env) (c : Collection) :
    ∀ (recs : List (String × Nat)) (ix ix1 : TIndex SKey),
      backfill env c ix recs = Except.ok ix1 →
      ix1.name = ix.name ∧ ix1.key = ix.key ∧ ix1.unique = ix.unique
  | [], ix, ix1, h => by
      simp only [backfill, Except.ok.injEq] at h
      subst h
      exact ⟨rfl, rfl, rfl⟩
  | (n, pos) :: r, ix, ix1, h => by
      simp only [backfill] at h
      cases hg : c._get pos with
      | error e => rw [hg] at h; simp at h
      | ok obj =>
          rw [hg] at h
          simp only at h
          cases hk : simplifyKey (obj.get "_id") with
          | none => rw [hk] at h; simp at h
          | some id =>
              rw [hk] at h
              simp only at h
              have ih := backfill_name env c r _ ix1 h
              simpa only [TIndex.set] using ih

theorem lookup_append_new {β : Type} (k : String) (v : β) :
    ∀ l : List (String × β), l.lookup k = none → (l ++ [(k, v)]).lookup k = some v
  | [], _ => by simp [List.lookup]
  | (k1, v1) :: r, h => by
      by_cases e : k = k1
      · subst e
        simp [List.lookup] at h
      · have hb : (k == k1) = false := by simpa using e
        simp only [List.lookup, hb] at h
        simp only [List.cons_append, List.lookup, hb]
        exact lookup_append_new k v r h

/-- C15: for a sort key that is registered in the index map (a key that is not empty: an
empty key is refused before the map is read, and is never registered), `ensureIndex` hands
the callback the name of the registered index and leaves the collection, with its index map,
as it is, so that every `__find` gives what it gave before; and whenever a call of
`ensureIndex` hands the callback a name, a second call with the same specification, on the
collection that the first call left, hands it the same name and changes nothing. -/
theorem ensureIndex_idempotent (env : Env) (c : Collection) (key : String) (order : Int)
    (opts : IndexOpts) (idle idle2 : Bool) (hkey : key ≠ "") :
    (∀ ix, c.idx key = some ix →
      ensureIndex env c (some key) order opts idle = (c, Outcome.ok (Value.str ix.name)) ∧
      (ensureIndex env c (some key) order opts idle).1._idx = c._idx ∧
      ∀ (qt : Query) (skip : Nat) (limit : Option Nat) (sort_ : Option String) (o : Int)
        (hint : Option (String → Bool)) (arFields : String → Bool),
        __find env (ensureIndex env c (some key) order opts idle).1 qt skip limit sort_ o
          hint arFields = __find env c qt skip limit sort_ o hint arFields) ∧
    (∀ name, (ensureIndex env c (some key) order opts idle).2 = Outcome.ok name →
      ensureIndex env (ensureIndex env c (some key) order opts idle).1 (some key) order opts
        idle2 = ((ensureIndex env c (some key) order opts idle).1, Outcome.ok name)) := by
  have hoff : sortOff (some key) = false := by
    simp only [sortOff, beq_eq_false_iff_ne, ne_eq]
    exact hkey
  constructor
  · intro ix hix
    have h1 : ensureIndex env c (some key) order opts idle =
        (c, Outcome.ok (Value.str ix.name)) := by
      simp only [ensureIndex, hoff, Bool.false_eq_true, if_false, propKey,
        readIdx_of_idx hix]
    rw [h1]
    exact ⟨rfl, rfl, fun _ _ _ _ _ _ _ => rfl⟩
  · intro name hname
    rcases readIdx_cases c key with ⟨ix, hr, hix⟩ | ⟨hr, hix⟩ | ⟨hr, hix⟩
    · have h1 : ensureIndex env c (some key) order opts idle =
          (c, Outcome.ok (Value.str ix.name)) := by
        simp only [ensureIndex, hoff, Bool.false_eq_true, if_false, propKey, hr]
      rw [h1] at hname ⊢
      simp only [Outcome.ok.injEq] at hname
      subst hname
      simp only [ensureIndex, hoff, Bool.false_eq_true, if_false, propKey, hr]
    · have h1 : ensureIndex env c (some key) order opts idle =
          (c, Outcome.ok (inheritedName key)) := by
        simp only [ensureIndex, hoff, Bool.false_eq_true, if_false, propKey, hr]
      rw [h1] at hname ⊢
      simp only [Outcome.ok.injEq] at hname
      subst hname
      simp only [ensureIndex, hoff, Bool.false_eq_true, if_false, propKey, hr]
    · have hsecond : ∀ (ix : TIndex SKey), ix.name = indexName key order →
          ensureIndex env { c with _idx := c._idx ++ [(key, ix)] } (some key) order opts
            idle2 =
          ({ c with _idx := c._idx ++ [(key, ix)] },
            Outcome.ok (Value.str (indexName key order))) := by
        intro ix hn
        have hl : ({ c with _idx := c._idx ++ [(key, ix)] } : Collection).idx key =
            some ix := lookup_append_new key ix c._idx hix
        simp only [ensureIndex, hoff, Bool.false_eq_true, if_false, propKey,
          readIdx_of_idx hl, hn]
      cases idle with
      | true =>
          have h1 : ensureIndex env c (some key) order opts true =
              ({ c with _idx := c._idx ++
                  [(key, TIndex.new key (indexName key order) opts.unique)] },
                Outcome.ok (Value.str (indexName key order))) := by
            simp only [ensureIndex, hoff, Bool.false_eq_true, if_false, propKey, hr,
              if_true, TIndex.new]
          rw [h1] at hname ⊢
          simp only [Outcome.ok.injEq] at hname
          subst hname
          exact hsecond _ rfl
      | false =>
          cases hb : backfill env c (TIndex.new key (indexName key order) opts.unique)
              c._store with
          | error e =>
              have h1 : ensureIndex env c (some key) order opts false =
                  (c, Outcome.failed e) := by
                have hb1 : backfill env c
                    { key := key, name := indexName key order, unique := opts.unique,
                      entries := [] } c._store = Except.error e := hb
                simp only [ensureIndex, hoff, Bool.false_eq_true, if_false, propKey, hr,
                  TIndex.new, hb1]
              rw [h1] at hname
              simp at hname
          | ok ix =>
              have h1 : ensureIndex env c (some key) order opts false =
                  ({ c with _idx := c._idx ++ [(key, ix)] },
                    Outcome.ok (Value.str (indexName key order))) := by
                have hb1 : backfill env c
                    { key := key, name := indexName key order, unique := opts.unique,
                      entries := [] } c._store = Except.ok ix := hb
                simp only [ensureIndex, hoff, Bool.false_eq_true, if_false, propKey, hr,
                  TIndex.new, hb1]
              rw [h1] at hname ⊢
              simp only [Outcome.ok.injEq] at hname
              subst hname
              exact hsecond ix (backfill_name env c c._store _ ix hb).1

theorem ensureIndex_idempotent_witness :
    ("num" : String) ≠ "" ∧
    ensureIndex sampleEnv sampleColl (some "num") (-1) plainIndex false =
      (sampleColl, Outcome.ok (Value.str "num_1")) ∧
    (ensureIndex sampleEnv sampleColl (some "pum") 1 plainIndex false).2 =
      Outcome.ok (Value.str "pum_1") ∧
    ensureIndex sampleEnv (ensureIndex sampleEnv sampleColl (some "pum") 1 plainIndex false).1
      (some "pum") 1 plainIndex true =
      ((ensureIndex sampleEnv sampleColl (some "pum") 1 plainIndex false).1,
        Outcome.ok (Value.str "pum_1")) :=
  ⟨by decide,
    ((ensureIndex_idempotent sampleEnv sampleColl "num" (-1) plainIndex false false
      (by decide)).1 _ rfl).1,
    rfl,
    (ensureIndex_idempotent sampleEnv sampleColl "pum" 1 plainIndex false true
      (by decide)).2 _ rfl⟩

/-! ### The backfill of a new index -/

theorem backfill_spec (env : Env) (c : Collection) :
    ∀ (recs : List (String × Nat)) (ix : TIndex SKey),
      (∀ n p, (n, p) ∈ recs → ∃ d id, c._get p = Except.ok d ∧
        simplifyKey (d.get "_id") = some id) →
      ∃ ix1, backfill env c ix recs = Except.ok ix1 ∧ ix1.key = ix.key ∧
        ix1.entries.Perm
          (ix.entries ++ recs.map (fun r => (c.keyAt ix.key r.2, c.idAt r.2))) ∧
        ((∀ x y, env.le x y = true ∨ env.le y x = true) →
          (∀ x y z, env.le x y = true → env.le y z = true → env.le x z = true) →
          ix.entries.Pairwise (fun a b => env.le a.1 b.1 = true) →
          ix1.entries.Pairwise (fun a b => env.le a.1 b.1 = true))
  | [], ix, _ => ⟨ix, rfl, rfl, by simp, fun _ _ h => h⟩
  | (n, p) :: r, ix, h => by
      obtain ⟨d, id, hg, hid⟩ := h n p (List.mem_cons_self _ _)
      obtain ⟨ix1, hb, hk, hperm, hsorted⟩ := backfill_spec env c r (ix.set env.le d id)
        (fun n1 p1 h1 => h n1 p1 (List.mem_cons_of_mem _ h1))
      refine ⟨ix1, ?_, ?_, ?_, ?_⟩
      · simp only [backfill, hg, hid, hb]
      · rw [hk]; rfl
      · have hkey : (ix.set env.le d id).key = ix.key := rfl
        rw [hkey] at hperm
        refine hperm.trans ?_
        simp only [TIndex.set, List.map_cons]
        have hka : c.keyAt ix.key p = getFieldValue d ix.key := by
          simp only [Collection.keyAt, hg]
        rw [hka, idAt_of_get hg hid]
        refine ((orderedIns_perm env.le (getFieldValue d ix.key, id) ix.entries).append_right
          _).trans ?_
        simp only [List.cons_append]
        exact List.perm_middle.symm
      · intro htot htrans hs
        exact hsorted htot htrans (orderedIns_sorted env.le htot htrans _ ix.entries hs)

theorem not_mem_of_lookup {β : Type} (k : String) (l : List (String × β))
    (h : l.lookup k = none) : k ∉ l.map Prod.fst := by
  intro hm
  obtain ⟨v, hv⟩ := lookup_isSome_of_mem k l hm
  rw [h] at hv
  cases hv

/-- C16 (as amended): on the queued path, for a new key (not empty, not registered and not
the name of a property that objects inherit), in a state whose indexes reflect exactly the
live documents, `ensureIndex` registers the index under its key, after the others, and hands
the callback its name; the registered index has been backfilled: it holds an entry for every
record of the position map, every entry is the indexed value and the identifier of a stored
document, no identifier occurs twice, and with a total and transitive order of indexed
values the state is again one whose indexes reflect exactly the live documents. On the
synchronous path the index is registered as it is created, without entries. -/
theorem ensureIndex_backfilled (env : Env) (c : Collection) (key : String) (order : Int)
    (opts : IndexOpts) (hc : Consistent env c) (hkey : key ≠ "")
    (hnew : c.readIdx key = IdxRead.absent) :
    (∃ ix : TIndex SKey,
      ensureIndex env c (some key) order opts false =
        ({ c with _idx := c._idx ++ [(key, ix)] },
          Outcome.ok (Value.str (indexName key order))) ∧
      ix.key = key ∧
      (∀ name pos, (name, pos) ∈ c._store →
        ∃ e ∈ ix.entries, e.2.propName = name ∧ e.1 = c.keyAt key pos) ∧
      (∀ e ∈ ix.entries, ∃ pos d, (e.2.propName, pos) ∈ c._store ∧
        c._get pos = Except.ok d ∧ simplifyKey (d.get "_id") = some e.2 ∧
        e.1 = getFieldValue d key) ∧
      (ix.entries.map Prod.snd).Nodup ∧
      ((∀ x y, env.le x y = true ∨ env.le y x = true) →
        (∀ x y z, env.le x y = true → env.le y z = true → env.le x z = true) →
        Consistent env { c with _idx := c._idx ++ [(key, ix)] })) ∧
    ensureIndex env c (some key) order opts true =
      ({ c with _idx := c._idx ++
          [(key, { key := key, name := indexName key order, unique := opts.unique,
                   entries := [] })] },
        Outcome.ok (Value.str (indexName key order))) := by
  have hoff : sortOff (some key) = false := by
    simp only [sortOff, beq_eq_false_iff_ne, ne_eq]
    exact hkey
  have hidx : c.idx key = none := by
    rcases readIdx_cases c key with ⟨ix, hr, _⟩ | ⟨hr, _⟩ | ⟨_, h⟩
    · rw [hnew] at hr; cases hr
    · rw [hnew] at hr; cases hr
    · exact h
  have hrec : ∀ n p, (n, p) ∈ c._store → ∃ d id, c._get p = Except.ok d ∧
      simplifyKey (d.get "_id") = some id := by
    intro n p h
    obtain ⟨d, id, hg, hi, _⟩ := hc.live n p h
    exact ⟨d, id, hg, hi⟩
  obtain ⟨ix, hb, hk, hperm, hsorted⟩ := backfill_spec env c c._store
    (TIndex.new key (indexName key order) opts.unique) hrec
  have hk1 : ix.key = key := hk
  simp only [TIndex.new, List.nil_append] at hperm
  have hmem : ∀ e, e ∈ ix.entries ↔
      ∃ r ∈ c._store, (c.keyAt key r.2, c.idAt r.2) = e := by
    intro e
    rw [hperm.mem_iff, List.mem_map]
  have hentry : ∀ name pos, (name, pos) ∈ c._store →
      ∃ e ∈ ix.entries, e.2.propName = name ∧ e.1 = c.keyAt key pos := by
    intro name pos h
    obtain ⟨d, id, hg, hi, hn⟩ := hc.live name pos h
    refine ⟨(c.keyAt key pos, c.idAt pos), (hmem _).mpr ⟨(name, pos), h, rfl⟩, ?_, rfl⟩
    simp only [idAt_of_get hg hi, hn]
  have hsound : ∀ e ∈ ix.entries, ∃ pos d, (e.2.propName, pos) ∈ c._store ∧
      c._get pos = Except.ok d ∧ simplifyKey (d.get "_id") = some e.2 ∧
      e.1 = getFieldValue d key := by
    intro e he
    obtain ⟨⟨n, p⟩, hr, heq⟩ := (hmem e).mp he
    obtain ⟨d, id, hg, hi, hn⟩ := hc.live n p hr
    subst heq
    refine ⟨p, d, ?_, hg, ?_, ?_⟩
    · simp only [idAt_of_get hg hi, hn]; exact hr
    · simp only [idAt_of_get hg hi]; exact hi
    · simp only [Collection.keyAt, hg]
  have hnodup : (ix.entries.map Prod.snd).Nodup := by
    rw [(hperm.map Prod.snd).nodup_iff, List.map_map]
    refine List.Nodup.map_on ?_ (List.Nodup.of_map Prod.fst hc.store_nodup)
    rintro ⟨n1, p1⟩ h1 ⟨n2, p2⟩ h2 heq
    simp only [Function.comp] at heq
    obtain ⟨d1, id1, hg1, hi1, hn1⟩ := hc.live n1 p1 h1
    obtain ⟨d2, id2, hg2, hi2, hn2⟩ := hc.live n2 p2 h2
    rw [idAt_of_get hg1 hi1, idAt_of_get hg2 hi2] at heq
    subst heq
    have hn : n1 = n2 := by rw [← hn1, ← hn2]
    subst hn
    have hp : p1 = p2 := mem_unique_of_nodup c._store hc.store_nodup n1 p1 p2 h1 h2
    subst hp
    rfl
  have hb1 : backfill env c
      { key := key, name := indexName key order, unique := opts.unique, entries := [] }
      c._store = Except.ok ix := hb
  refine ⟨⟨ix, ?_, hk1, hentry, hsound, hnodup, ?_⟩, ?_⟩
  · simp only [ensureIndex, hoff, Bool.false_eq_true, if_false, propKey, hnew, TIndex.new,
      hb1]
  · intro htot htrans
    have hsplit : ∀ k ix0, (k, ix0) ∈ c._idx ++ [(key, ix)] →
        (k, ix0) ∈ c._idx ∨ (k = key ∧ ix0 = ix) := by
      intro k ix0 h
      rcases List.mem_append.mp h with h1 | h1
      · exact Or.inl h1
      · simp only [List.mem_singleton, Prod.mk.injEq] at h1
        exact Or.inr h1
    refine
      { idx_nodup := ?_, store_nodup := hc.store_nodup, pos_nodup := hc.pos_nodup,
        live := hc.live, idx_key := ?_, idx_sound := ?_, idx_complete := ?_,
        idx_ids_nodup := ?_, idx_sorted := ?_ }
    · simp only [List.map_append, List.map_cons, List.map_nil]
      rw [List.nodup_append]
      refine ⟨hc.idx_nodup, List.nodup_singleton _, ?_⟩
      intro k hm1 hm2
      simp only [List.mem_singleton] at hm2
      rw [hm2] at hm1
      exact not_mem_of_lookup key c._idx hidx hm1
    · intro k ix0 h
      rcases hsplit k ix0 h with h1 | ⟨h1, h2⟩
      · exact hc.idx_key k ix0 h1
      · rw [h1, h2]; exact hk1
    · intro k ix0 h e he
      rcases hsplit k ix0 h with h1 | ⟨h1, h2⟩
      · exact hc.idx_sound k ix0 h1 e he
      · subst h1; subst h2
        exact hsound e he
    · intro k ix0 h name pos hs
      rcases hsplit k ix0 h with h1 | ⟨h1, h2⟩
      · exact hc.idx_complete k ix0 h1 name pos hs
      · subst h1; subst h2
        obtain ⟨e, he, hn, _⟩ := hentry name pos hs
        exact ⟨e, he, hn⟩
    · intro k ix0 h
      rcases hsplit k ix0 h with h1 | ⟨h1, h2⟩
      · exact hc.idx_ids_nodup k ix0 h1
      · subst h2; exact hnodup
    · intro k ix0 h
      rcases hsplit k ix0 h with h1 | ⟨h1, h2⟩
      · exact hc.idx_sorted k ix0 h1
      · subst h2
        exact hsorted htot htrans List.Pairwise.nil
  · simp only [ensureIndex, hoff, Bool.false_eq_true, if_false, propKey, hnew, TIndex.new,
      if_true]

theorem ensureIndex_backfilled_witness :
    Consistent sampleEnv sampleColl ∧ ("pum" : String) ≠ "" ∧
    sampleColl.readIdx "pum" = IdxRead.absent ∧
    (∃ ix : TIndex SKey,
      ensureIndex sampleEnv sampleColl (some "pum") 1 plainIndex false =
        ({ sampleColl with _idx := sampleColl._idx ++ [("pum", ix)] },
          Outcome.ok (Value.str (indexName "pum" 1))) ∧
      ix.key = "pum" ∧
      (∀ name pos, (name, pos) ∈ sampleColl._store →
        ∃ e ∈ ix.entries, e.2.propName = name ∧ e.1 = sampleColl.keyAt "pum" pos) ∧
      (∀ e ∈ ix.entries, ∃ pos d, (e.2.propName, pos) ∈ sampleColl._store ∧
        sampleColl._get pos = Except.ok d ∧ simplifyKey (d.get "_id") = some e.2 ∧
        e.1 = getFieldValue d "pum") ∧
      (ix.entries.map Prod.snd).Nodup ∧
      ((∀ x y, sampleEnv.le x y = true ∨ sampleEnv.le y x = true) →
        (∀ x y z, sampleEnv.le x y = true → sampleEnv.le y z = true →
          sampleEnv.le x z = true) →
        Consistent sampleEnv { sampleColl with _idx := sampleColl._idx ++ [("pum", ix)] })) ∧
    ((ensureIndex sampleEnv sampleColl (some "pum") 1 plainIndex false).1.idx "pum").map
      (fun ix => ix.entries) =
      some [(Value.num 1, SKey.num 1), (Value.num 2, SKey.num 2), (Value.num 3, SKey.num 3)] :=
  ⟨sampleColl_consistent, by decide, rfl,
    (ensureIndex_backfilled sampleEnv sampleColl "pum" 1 plainIndex sampleColl_consistent
      (by decide) rfl).1,
    rfl⟩

/-- C16 (as stated) fails on the synchronous path: with no operation pending, `ensureIndex`
on the sample collection, which holds three documents, registers the new index on `pum`
without a single entry. -/
theorem ensureIndex_backfilled_counterexample :
    (ensureIndex sampleEnv sampleColl (some "pum") 1 plainIndex true).2 =
      Outcome.ok (Value.str "pum_1") ∧
    ((ensureIndex sampleEnv sampleColl (some "pum") 1 plainIndex true).1.idx "pum").map
      (fun ix => ix.entries) = some [] ∧
    (ensureIndex sampleEnv sampleColl (some "pum") 1 plainIndex true).1._store =
      [("1", 0), ("2", 10), ("3", 20)] ∧
    ¬ ∀ ix, (ensureIndex sampleEnv sampleColl (some "pum") 1 plainIndex true).1.idx "pum" =
        some ix →
      ∀ name pos,
        (name, pos) ∈ (ensureIndex sampleEnv sampleColl (some "pum") 1 plainIndex true).1._store →
        ∃ e ∈ ix.entries, e.2.propName = name :=
  ⟨rfl, rfl, rfl, fun h => by
    obtain ⟨e, he, _⟩ := h _ rfl "1" 0 (by decide)
    cases he⟩

/-! ### An update that fails in `_put` -/

/-- C17 fails: on the sample collection, `update({num: {$lt: 4}}, {"a.b": 1})` matches the
document with identifier 2, takes it out of both indexes, and then `_put` refuses the new
version (`key a.b must not contain '.'`). The update ends with that error and nothing is
written: the position map and the log are as before and the previous version is still read
at its offset, but neither index holds an entry for the identifier 2 any more, so the same
query now finds nothing. The same happens in `save` for a document whose `_id` has a
record. -/
theorem update_failure_strips_indexes :
    (update sampleEnv sampleColl [clauseLt "num" 4] (Value.obj []) sampleBadDoc
      plainOpts).outcome = Outcome.failed (Err.keyDot "a.b") ∧
    (update sampleEnv sampleColl [clauseLt "num" 4] (Value.obj []) sampleBadDoc
      plainOpts).coll._store = sampleColl._store ∧
    (update sampleEnv sampleColl [clauseLt "num" 4] (Value.obj []) sampleBadDoc
      plainOpts).coll.log = sampleColl.log ∧
    (update sampleEnv sampleColl [clauseLt "num" 4] (Value.obj []) sampleBadDoc
      plainOpts).coll._get 10 = Except.ok (sampleItem 2 3 2) ∧
    sampleColl._idx.map (fun kv => kv.2.all) =
      [[SKey.num 1, SKey.num 2, SKey.num 3], [SKey.num 2, SKey.num 1, SKey.num 3]] ∧
    (update sampleEnv sampleColl [clauseLt "num" 4] (Value.obj []) sampleBadDoc
      plainOpts).coll._idx.map (fun kv => kv.2.all) =
      [[SKey.num 1, SKey.num 3], [SKey.num 1, SKey.num 3]] ∧
    __find sampleEnv sampleColl [clauseLt "num" 4] 0 none none 0 none emptyObject =
      Except.ok [10] ∧
    __find sampleEnv
      (update sampleEnv sampleColl [clauseLt "num" 4] (Value.obj []) sampleBadDoc
        plainOpts).coll [clauseLt "num" 4] 0 none none 0 none emptyObject = Except.ok [] ∧
    (save sampleEnv sampleColl
      (Value.obj [("_id", Value.num 2), ("a.b", Value.num 1)])).outcome =
      Outcome.failed (Err.keyDot "a.b") ∧
    (save sampleEnv sampleColl
      (Value.obj [("_id", Value.num 2), ("a.b", Value.num 1)])).coll._store =
      sampleColl._store ∧
    (save sampleEnv sampleColl
      (Value.obj [("_id", Value.num 2), ("a.b", Value.num 1)])).coll._idx.map
      (fun kv => kv.2.all) = [[SKey.num 1, SKey.num 3], [SKey.num 1, SKey.num 3]] :=
  ⟨rfl, rfl, rfl, rfl, rfl, rfl, rfl, rfl, rfl, rfl, rfl⟩

/-! ### The framing of a log entry -/

theorem zeros_take (k : Nat) (hk : k ≤ 10) :
    "0000000000".take k = String.mk (List.replicate k '0') := by
  interval_cases k <;> rfl

theorem digitChar_spec (m : Nat) (h : m < 10) :
    (Nat.digitChar m).toNat - '0'.toNat = m ∧ (Nat.digitChar m).utf8Size = 1 ∧
    Nat.digitChar m ≠ '-' := by
  interval_cases m <;> refine ⟨rfl, rfl, by decide⟩

theorem toDigitsCore_spec : ∀ (fuel n : Nat) (ds : List Char), n < fuel →
    ∃ l, Nat.toDigitsCore 10 fuel n ds = l ++ ds ∧
      l.foldl (fun a ch => 10 * a + (ch.toNat - '0'.toNat)) 0 = n ∧
      (∀ ch ∈ l, ch.utf8Size = 1) ∧ (∀ ch ∈ l, ch ≠ '-') ∧ l ≠ []
  | 0, n, ds, h => by omega
  | fuel + 1, n, ds, h => by
      obtain ⟨hv, hs, hm⟩ := digitChar_spec (n % 10) (Nat.mod_lt n (by decide))
      by_cases h0 : n / 10 = 0
      · refine ⟨[Nat.digitChar (n % 10)], ?_, ?_, ?_, ?_, by simp⟩
        · simp only [Nat.toDigitsCore, h0, if_true, List.singleton_append]
        · simp only [List.foldl_cons, List.foldl_nil, Nat.mul_zero, Nat.zero_add, hv]
          omega
        · intro ch hch
          simp only [List.mem_singleton] at hch
          rw [hch]; exact hs
        · intro ch hch
          simp only [List.mem_singleton] at hch
          rw [hch]; exact hm
      · obtain ⟨l, hl, hval, hsz, hmin, _⟩ :=
          toDigitsCore_spec fuel (n / 10) (Nat.digitChar (n % 10) :: ds) (by omega)
        refine ⟨l ++ [Nat.digitChar (n % 10)], ?_, ?_, ?_, ?_, by simp⟩
        · simp only [Nat.toDigitsCore, h0, if_false, hl, List.append_assoc,
            List.singleton_append]
        · simp only [List.foldl_append, List.foldl_cons, List.foldl_nil, hval, hv]
          omega
        · intro ch hch
          rcases List.mem_append.mp hch with h1 | h1
          · exact hsz ch h1
          · simp only [List.mem_singleton] at h1
            rw [h1]; exact hs
        · intro ch hch
          rcases List.mem_append.mp hch with h1 | h1
          · exact hmin ch h1
          · simp only [List.mem_singleton] at h1
            rw [h1]; exact hm

theorem repr_spec (n : Nat) :
    (toString n).data.foldl (fun a ch => 10 * a + (ch.toNat - '0'.toNat)) 0 = n ∧
    (∀ ch ∈ (toString n).data, ch.utf8Size = 1) ∧ (∀ ch ∈ (toString n).data, ch ≠ '-') ∧
    (toString n).data ≠ [] := by
  obtain ⟨l, hl, hv, hs, hm, hne⟩ := toDigitsCore_spec (n + 1) n [] (Nat.lt_succ_self n)
  have hd : (toString n).data = l := by
    show (Nat.repr n).data = l
    simp only [Nat.repr, Nat.toDigits, hl, List.append_nil, List.asString]
  rw [hd]
  exact ⟨hv, hs, hm, hne⟩

theorem utf8ByteSize_append (a b : String) :
    (a ++ b).utf8ByteSize = a.utf8ByteSize + b.utf8ByteSize := by
  cases a with
  | mk as =>
    cases b with
    | mk bs =>
      show String.utf8ByteSize ⟨as ++ bs⟩ = _
      simp only [String.utf8ByteSize_mk, String.utf8Len_append]

theorem utf8Len_of_ascii : ∀ l : List Char, (∀ ch ∈ l, ch.utf8Size = 1) →
    String.utf8Len l = l.length
  | [], _ => rfl
  | c :: r, h => by
      simp only [String.utf8Len_cons, List.length_cons,
        h c (List.mem_cons_self _ _),
        utf8Len_of_ascii r (fun ch hch => h ch (List.mem_cons_of_mem _ hch))]

theorem foldl_zeros (k : Nat) :
    (List.replicate k '0').foldl (fun a ch => 10 * a + (ch.toNat - '0'.toNat)) 0 = 0 := by
  induction k with
  | zero => rfl
  | succ k ih =>
      simp only [List.replicate_succ, List.foldl_cons]
      exact ih

theorem pad10_data (n : Nat) :
    (pad10 n).data = List.replicate (10 - (toString n).length) '0' ++ (toString n).data := by
  unfold pad10
  rw [zeros_take _ (Nat.sub_le _ _)]
  rfl

theorem pad10_spec (n : Nat) (h : n < 10 ^ 10) :
    (pad10 n).length = 10 ∧ (pad10 n).utf8ByteSize = 10 ∧ readDecimal (pad10 n) = n ∧
    pad10 n = String.mk (List.replicate (10 - (toString n).length) '0') ++ toString n := by
  obtain ⟨hv, hs, _, _⟩ := repr_spec n
  have hlen : (toString n).data.length ≤ 10 := Nat.repr_length n 10 (by decide) h
  have hlen2 : (toString n).length = (toString n).data.length := rfl
  have hall : ∀ ch ∈ (pad10 n).data, ch.utf8Size = 1 := by
    intro ch hch
    rw [pad10_data] at hch
    rcases List.mem_append.mp hch with h1 | h1
    · rw [List.eq_of_mem_replicate h1]; rfl
    · exact hs ch h1
  have hl : (pad10 n).data.length = 10 := by
    rw [pad10_data, List.length_append, List.length_replicate, hlen2]
    omega
  refine ⟨hl, ?_, ?_, ?_⟩
  · show String.utf8ByteSize ⟨(pad10 n).data⟩ = 10
    rw [String.utf8ByteSize_mk, utf8Len_of_ascii _ hall, hl]
  · unfold readDecimal
    rw [pad10_data, List.foldl_append, foldl_zeros, hv]
  · unfold pad10
    rw [zeros_take _ (Nat.sub_le _ _)]

theorem headerText_size (lkey lobj : String) :
    (headerText lkey lobj).utf8ByteSize = 25 + lkey.utf8ByteSize + lobj.utf8ByteSize := by
  unfold headerText
  simp only [utf8ByteSize_append]
  have h1 : ("\x7b\"k\":\"" : String).utf8ByteSize = 6 := by decide
  have h2 : ("\",\"o\":\"" : String).utf8ByteSize = 7 := by decide
  have h3 : ("\",\"v\":\"001\"\x7d" : String).utf8ByteSize = 12 := by decide
  rw [h1, h2, h3]
  omega

/-- C18: the entry that a successful `_put` appends to the log is the header, a line feed, the
serialized key, a line feed, the serialized payload (empty for a removal) and a line feed,
where the header is the text of `{k: lkey, o: lobj, v: "001"}` for the padded byte
lengths of key and payload. When both byte lengths are below 10^10, `lkey` and `lobj` are 10
characters long, are the decimal text of the length with zeros put in front, and read back as
the byte length of the key and of the payload; the header then takes 45 bytes whatever the
entry, the entry takes 45 bytes plus the key plus the payload plus 3, and the file size
after the write, where the next entry starts, is the offset of the entry plus that. -/
theorem put_framing (env : Env) (c c1 : Collection) (item it : Value) (remove : Bool)
    (h : _put env c item remove = (c1, Outcome.ok it)) :
    ∃ (entry : LogEntry) (skey sobj : String),
      c1.log = c.log ++ [entry] ∧ entry.pos = c._fsize ∧
      skey = env.stringify entry.key.toValue ∧
      (remove = true → sobj = "") ∧
      (remove = false → ∃ item1, (_ensureIds c._id item).2 = Except.ok item1 ∧
        sobj = env.stringify (_wrapTypes item1)) ∧
      entry.buf =
        headerText (pad10 skey.utf8ByteSize) (pad10 sobj.utf8ByteSize) ++ "\n" ++ skey ++
          "\n" ++ sobj ++ "\n" ∧
      (skey.utf8ByteSize < 10 ^ 10 → sobj.utf8ByteSize < 10 ^ 10 →
        (pad10 skey.utf8ByteSize).length = 10 ∧ (pad10 sobj.utf8ByteSize).length = 10 ∧
        readDecimal (pad10 skey.utf8ByteSize) = skey.utf8ByteSize ∧
        readDecimal (pad10 sobj.utf8ByteSize) = sobj.utf8ByteSize ∧
        pad10 skey.utf8ByteSize =
          String.mk (List.replicate (10 - (toString skey.utf8ByteSize).length) '0') ++
            toString skey.utf8ByteSize ∧
        pad10 sobj.utf8ByteSize =
          String.mk (List.replicate (10 - (toString sobj.utf8ByteSize).length) '0') ++
            toString sobj.utf8ByteSize ∧
        (headerText (pad10 skey.utf8ByteSize) (pad10 sobj.utf8ByteSize)).utf8ByteSize = 45 ∧
        entry.buf.utf8ByteSize = 45 + skey.utf8ByteSize + sobj.utf8ByteSize + 3 ∧
        c1._fsize = entry.pos + (45 + skey.utf8ByteSize + sobj.utf8ByteSize + 3)) := by
  obtain ⟨ctr, item1, id, entry, he, _, _, _, _, _, _, _, hlog, hsize, hpos, _, _, _, _, _,
    hbuf⟩ := put_ok_inv env c c1 item it remove h
  refine ⟨entry, env.stringify entry.key.toValue,
    if remove then "" else env.stringify (_wrapTypes item1), hlog, hpos, rfl, ?_, ?_, hbuf,
    ?_⟩
  · intro hr
    simp only [hr, if_true]
  · intro hr
    refine ⟨item1, by rw [he], ?_⟩
    simp only [hr, Bool.false_eq_true, if_false]
  · intro hk ho
    obtain ⟨k1, k2, k3, k4⟩ := pad10_spec _ hk
    obtain ⟨o1, o2, o3, o4⟩ := pad10_spec _ ho
    have hhead : (headerText (pad10 (env.stringify entry.key.toValue).utf8ByteSize)
        (pad10 (if remove then "" else env.stringify (_wrapTypes item1)).utf8ByteSize)).utf8ByteSize
        = 45 := by
      rw [headerText_size, k2, o2]
    have hnl : ("\n" : String).utf8ByteSize = 1 := by decide
    have htot : entry.buf.utf8ByteSize =
        45 + (env.stringify entry.key.toValue).utf8ByteSize +
          (if remove then "" else env.stringify (_wrapTypes item1)).utf8ByteSize + 3 := by
      rw [hbuf]
      simp only [utf8ByteSize_append, hhead, hnl]
      omega
    refine ⟨k1, o1, k3, o3, k4, o4, hhead, htot, ?_⟩
    rw [hsize, htot, hpos]

theorem put_framing_witness :
    _put sampleEnv sampleColl (sampleItem 4 1 1) false =
      ((_put sampleEnv sampleColl (sampleItem 4 1 1) false).1,
        Outcome.ok (sampleItem 4 1 1)) ∧
    (∃ (entry : LogEntry) (skey sobj : String),
      (_put sampleEnv sampleColl (sampleItem 4 1 1) false).1.log =
        sampleColl.log ++ [entry] ∧
      entry.pos = sampleColl._fsize ∧
      skey = sampleEnv.stringify entry.key.toValue ∧
      (false = true → sobj = "") ∧
      (false = false → ∃ item1,
        (_ensureIds sampleColl._id (sampleItem 4 1 1)).2 = Except.ok item1 ∧
        sobj = sampleEnv.stringify (_wrapTypes item1)) ∧
      entry.buf =
        headerText (pad10 skey.utf8ByteSize) (pad10 sobj.utf8ByteSize) ++ "\n" ++ skey ++
          "\n" ++ sobj ++ "\n" ∧
      (skey.utf8ByteSize < 10 ^ 10 → sobj.utf8ByteSize < 10 ^ 10 →
        (pad10 skey.utf8ByteSize).length = 10 ∧ (pad10 sobj.utf8ByteSize).length = 10 ∧
        readDecimal (pad10 skey.utf8ByteSize) = skey.utf8ByteSize ∧
        readDecimal (pad10 sobj.utf8ByteSize) = sobj.utf8ByteSize ∧
        pad10 skey.utf8ByteSize =
          String.mk (List.replicate (10 - (toString skey.utf8ByteSize).length) '0') ++
            toString skey.utf8ByteSize ∧
        pad10 sobj.utf8ByteSize =
          String.mk (List.replicate (10 - (toString sobj.utf8ByteSize).length) '0') ++
            toString sobj.utf8ByteSize ∧
        (headerText (pad10 skey.utf8ByteSize) (pad10 sobj.utf8ByteSize)).utf8ByteSize = 45 ∧
        entry.buf.utf8ByteSize = 45 + skey.utf8ByteSize + sobj.utf8ByteSize + 3 ∧
        (_put sampleEnv sampleColl (sampleItem 4 1 1) false).1._fsize =
          entry.pos + (45 + skey.utf8ByteSize + sobj.utf8ByteSize + 3))) ∧
    (_put sampleEnv sampleColl (sampleItem 4 1 1) false).1.log.map (fun e => e.buf) =
      ["", "", "",
        "\x7b\"k\":\"0000000003\",\"o\":\"0000000003\",\"v\":\"001\"\x7d\ndoc\ndoc\n"] ∧
    (_put sampleEnv sampleColl (sampleItem 4 1 1) false).1._fsize = 30 + 54 :=
  ⟨rfl,
    put_framing sampleEnv sampleColl _ (sampleItem 4 1 1) (sampleItem 4 1 1) false rfl,
    by decide, by decide⟩

/-! ### The sequence number of log entries -/

mutual
theorem ensureValue_counter : ∀ (ctr : Nat) (v : Value),
    ctr ≤ (ensureValue ctr v).1 ∧
    (visitsFreshId v = false → (ensureValue ctr v).1 = ctr) ∧
    (visitsFreshId v = true → ∀ w, (ensureValue ctr v).2 = Except.ok w →
      ctr < (ensureValue ctr v).1)
  | ctr, Value.oid i => by
      by_cases hi : i < 0
      · have hf : visitsFreshId (Value.oid i) = true := by
          simp only [visitsFreshId, hi, decide_True]
        have he : ensureValue ctr (Value.oid i) =
            (ctr + 1, Except.ok (Value.oid (Int.ofNat (ctr + 1)))) := by
          simp only [ensureValue, hi, if_true]
        rw [he, hf]
        exact ⟨Nat.le_succ _, (fun h => by cases h), fun _ _ _ => Nat.lt_succ_self _⟩
      · have hf : visitsFreshId (Value.oid i) = false := by
          simp only [visitsFreshId, hi, decide_False]
        have he : ensureValue ctr (Value.oid i) = (ctr, Except.ok (Value.oid i)) := by
          simp only [ensureValue, hi, if_false]
        rw [he, hf]
        exact ⟨Nat.le_refl _, (fun _ => rfl), fun h => by cases h⟩
  | ctr, Value.arr xs => by
      obtain ⟨h1, h2, h3⟩ := ensureItems_counter ctr xs
      rcases hr : ensureItems ctr xs with ⟨c1, r⟩
      rw [hr] at h1 h2 h3
      cases r with
      | error e =>
          simp only [ensureValue, hr, visitsFreshId]
          exact ⟨h1, h2, fun _ w hw => by cases hw⟩
      | ok ys =>
          simp only [ensureValue, hr, visitsFreshId]
          exact ⟨h1, h2, fun hf w _ => h3 hf ys rfl⟩
  | ctr, Value.obj kvs => by
      obtain ⟨h1, h2, h3⟩ := ensureProps_counter (eachLength kvs) ctr kvs
      rcases hr : ensureProps (eachLength kvs) ctr kvs with ⟨c1, r⟩
      rw [hr] at h1 h2 h3
      cases r with
      | error e =>
          simp only [ensureValue, hr, visitsFreshId]
          exact ⟨h1, h2, fun _ w hw => by cases hw⟩
      | ok ys =>
          simp only [ensureValue, hr, visitsFreshId]
          exact ⟨h1, h2, fun hf w _ => h3 hf ys rfl⟩
  | ctr, Value.undef => ⟨Nat.le_refl _, fun _ => rfl, fun h => by cases h⟩
  | ctr, Value.null => ⟨Nat.le_refl _, fun _ => rfl, fun h => by cases h⟩
  | ctr, Value.bool _ => ⟨Nat.le_refl _, fun _ => rfl, fun h => by cases h⟩
  | ctr, Value.num _ => ⟨Nat.le_refl _, fun _ => rfl, fun h => by cases h⟩
  | ctr, Value.str _ => ⟨Nat.le_refl _, fun _ => rfl, fun h => by cases h⟩
  | ctr, Value.date _ => ⟨Nat.le_refl _, fun _ => rfl, fun h => by cases h⟩
  | ctr, Value.bin _ => ⟨Nat.le_refl _, fun _ => rfl, fun h => by cases h⟩
theorem ensureItems_counter : ∀ (ctr : Nat) (xs : List Value),
    ctr ≤ (ensureItems ctr xs).1 ∧
    (anyVisitedFreshItem xs = false → (ensureItems ctr xs).1 = ctr) ∧
    (anyVisitedFreshItem xs = true → ∀ ys, (ensureItems ctr xs).2 = Except.ok ys →
      ctr < (ensureItems ctr xs).1)
  | ctr, [] => ⟨Nat.le_refl _, fun _ => rfl, fun h => by cases h⟩
  | ctr, x :: xs => by
      obtain ⟨a1, a2, a3⟩ := ensureValue_counter ctr x
      rcases hv : ensureValue ctr x with ⟨c1, rv⟩
      rw [hv] at a1 a2 a3
      simp only at a1 a2 a3
      cases rv with
      | error e =>
          simp only [ensureItems, hv, anyVisitedFreshItem, Bool.or_eq_false_iff]
          exact ⟨a1, fun h => a2 h.1, fun _ ys hy => by cases hy⟩
      | ok y =>
          obtain ⟨b1, b2, b3⟩ := ensureItems_counter c1 xs
          rcases hr : ensureItems c1 xs with ⟨c2, rr⟩
          rw [hr] at b1 b2 b3
          simp only at b1 b2 b3
          cases rr with
          | error e =>
              simp only [ensureItems, hv, hr, anyVisitedFreshItem, Bool.or_eq_false_iff]
              refine ⟨Nat.le_trans a1 b1, fun h => ?_, fun _ ys hy => by cases hy⟩
              rw [b2 h.2, a2 h.1]
          | ok ys =>
              simp only [ensureItems, hv, hr, anyVisitedFreshItem, Bool.or_eq_false_iff,
                Bool.or_eq_true]
              refine ⟨Nat.le_trans a1 b1, fun h => ?_, fun h _ _ => ?_⟩
              · rw [b2 h.2, a2 h.1]
              · rcases h with h | h
                · exact Nat.lt_of_lt_of_le (a3 h y rfl) b1
                · exact Nat.lt_of_le_of_lt a1 (b3 h ys rfl)
theorem ensureProps_counter (len : Option Int) :
    ∀ (ctr : Nat) (kvs : List (String × Value)),
    ctr ≤ (ensureProps len ctr kvs).1 ∧
    (anyVisitedFreshProp len kvs = false → (ensureProps len ctr kvs).1 = ctr) ∧
    (anyVisitedFreshProp len kvs = true → ∀ r, (ensureProps len ctr kvs).2 = Except.ok r →
      ctr < (ensureProps len ctr kvs).1)
  | ctr, [] => ⟨Nat.le_refl _, fun _ => rfl, fun h => by cases h⟩
  | ctr, (k, v) :: rest => by
      cases hk : keyErrorAt len k with
      | some e =>
          have he : ensureProps len ctr ((k, v) :: rest) = (ctr, Except.error e) := by
            simp only [ensureProps, hk]
          rw [he]
          exact ⟨Nat.le_refl _, (fun _ => rfl), fun _ r hr => by cases hr⟩
      | none =>
          have hstep : ∃ c1 rv, (if visited len k = true then ensureValue ctr v
              else (ctr, Except.ok v)) = (c1, rv) ∧ ctr ≤ c1 ∧
              ((visited len k && visitsFreshId v) = false → c1 = ctr) ∧
              ((visited len k && visitsFreshId v) = true →
                ∀ w, rv = Except.ok w → ctr < c1) := by
            by_cases hvis : visited len k = true
            · obtain ⟨a1, a2, a3⟩ := ensureValue_counter ctr v
              rcases hv : ensureValue ctr v with ⟨c1, rv⟩
              rw [hv] at a1 a2 a3
              simp only at a1 a2 a3
              refine ⟨c1, rv, by simp only [hvis, if_true], a1, ?_, ?_⟩
              · intro h
                simp only [hvis, Bool.true_and] at h
                exact a2 h
              · intro h
                simp only [hvis, Bool.true_and] at h
                exact a3 h
            · refine ⟨ctr, Except.ok v, by simp only [hvis, Bool.false_eq_true, if_false],
                Nat.le_refl _, fun _ => rfl, ?_⟩
              intro h
              simp [hvis] at h
          obtain ⟨c1, rv, hv, a1, a2, a3⟩ := hstep
          cases rv with
          | error e =>
              have he : ensureProps len ctr ((k, v) :: rest) = (c1, Except.error e) := by
                simp only [ensureProps, hk, hv]
              rw [he]
              simp only [anyVisitedFreshProp, Bool.or_eq_false_iff]
              exact ⟨a1, fun h => a2 h.1, fun _ ys hy => by cases hy⟩
          | ok y =>
              obtain ⟨b1, b2, b3⟩ := ensureProps_counter len c1 rest
              rcases hr : ensureProps len c1 rest with ⟨c2, rr⟩
              rw [hr] at b1 b2 b3
              simp only at b1 b2 b3
              cases rr with
              | error e =>
                  have he : ensureProps len ctr ((k, v) :: rest) =
                      (c2, Except.error e) := by
                    simp only [ensureProps, hk, hv, hr]
                  rw [he]
                  simp only [anyVisitedFreshProp, Bool.or_eq_false_iff]
                  refine ⟨Nat.le_trans a1 b1, fun h => ?_, fun _ ys hy => by cases hy⟩
                  rw [b2 h.2, a2 h.1]
              | ok ys =>
                  have he : ensureProps len ctr ((k, v) :: rest) =
                      (c2, Except.ok ((k, y) :: ys)) := by
                    simp only [ensureProps, hk, hv, hr]
                  rw [he]
                  simp only [anyVisitedFreshProp, Bool.or_eq_false_iff, Bool.or_eq_true]
                  refine ⟨Nat.le_trans a1 b1, fun h => ?_, fun h _ _ => ?_⟩
                  · rw [b2 h.2, a2 h.1]
                  · rcases h with h | h
                    · exact Nat.lt_of_lt_of_le (a3 h y rfl) b1
                    · exact Nat.lt_of_le_of_lt a1 (b3 h ys rfl)
end

mutual
theorem visitsFreshId_of_none : ∀ v : Value, hasFreshId v = false → visitsFreshId v = false
  | Value.oid i, h => by simpa only [hasFreshId, visitsFreshId] using h
  | Value.arr xs, h => by
      simp only [hasFreshId] at h
      simp only [visitsFreshId, anyVisitedFreshItem_of_none xs h]
  | Value.obj kvs, h => by
      simp only [hasFreshId] at h
      simp only [visitsFreshId, anyVisitedFreshProp_of_none (eachLength kvs) kvs h]
  | Value.undef, _ => rfl
  | Value.null, _ => rfl
  | Value.bool _, _ => rfl
  | Value.num _, _ => rfl
  | Value.str _, _ => rfl
  | Value.date _, _ => rfl
  | Value.bin _, _ => rfl
theorem anyVisitedFreshItem_of_none : ∀ xs : List Value, anyFreshItem xs = false →
    anyVisitedFreshItem xs = false
  | [], _ => rfl
  | x :: xs, h => by
      simp only [anyFreshItem, Bool.or_eq_false_iff] at h
      simp only [anyVisitedFreshItem, visitsFreshId_of_none x h.1,
        anyVisitedFreshItem_of_none xs h.2, Bool.or_self]
theorem anyVisitedFreshProp_of_none (len : Option Int) : ∀ kvs : List (String × Value),
    anyFreshProp kvs = false → anyVisitedFreshProp len kvs = false
  | [], _ => rfl
  | (k, v) :: r, h => by
      simp only [anyFreshProp, Bool.or_eq_false_iff] at h
      simp only [anyVisitedFreshProp, visitsFreshId_of_none v h.1,
        anyVisitedFreshProp_of_none len r h.2, Bool.and_false, Bool.or_self]
end

theorem ensureIds_counter (ctr : Nat) (item : Value) :
    ctr ≤ (_ensureIds ctr item).1 ∧
    (∀ kvs, item = Value.obj kvs → visitsFreshId item = false →
      (_ensureIds ctr item).1 = ctr) ∧
    (∀ kvs, item = Value.obj kvs → visitsFreshId item = true →
      ∀ w, (_ensureIds ctr item).2 = Except.ok w → ctr < (_ensureIds ctr item).1) := by
  cases item with
  | arr xs =>
      have h := ensureValue_counter ctr (Value.arr xs)
      have he : _ensureIds ctr (Value.arr xs) = ensureValue ctr (Value.arr xs) := by
        simp only [_ensureIds, ensureValue]
      rw [he]
      exact ⟨h.1, (fun kvs hk => by cases hk), fun kvs hk => by cases hk⟩
  | obj kvs =>
      have h := ensureValue_counter ctr (Value.obj kvs)
      have he : _ensureIds ctr (Value.obj kvs) = ensureValue ctr (Value.obj kvs) := by
        simp only [_ensureIds, ensureValue]
      rw [he]
      exact ⟨h.1, (fun _ _ hf => h.2.1 hf), fun _ _ hf w hw => h.2.2 hf w hw⟩
  | undef => exact ⟨Nat.le_refl _, (fun kvs hk => by cases hk), fun kvs hk => by cases hk⟩
  | null => exact ⟨Nat.le_refl _, (fun kvs hk => by cases hk), fun kvs hk => by cases hk⟩
  | bool _ => exact ⟨Nat.le_refl _, (fun kvs hk => by cases hk), fun kvs hk => by cases hk⟩
  | num _ => exact ⟨Nat.le_refl _, (fun kvs hk => by cases hk), fun kvs hk => by cases hk⟩
  | str _ => exact ⟨Nat.le_refl _, (fun kvs hk => by cases hk), fun kvs hk => by cases hk⟩
  | date _ => exact ⟨Nat.le_refl _, (fun kvs hk => by cases hk), fun kvs hk => by cases hk⟩
  | oid _ => exact ⟨Nat.le_refl _, (fun kvs hk => by cases hk), fun kvs hk => by cases hk⟩
  | bin _ => exact ⟨Nat.le_refl _, (fun kvs hk => by cases hk), fun kvs hk => by cases hk⟩

theorem put_isDoc (env : Env) (c c1 : Collection) (item it : Value) (remove : Bool)
    (h : _put env c item remove = (c1, Outcome.ok it)) : ∃ kvs, item = Value.obj kvs := by
  obtain ⟨ctr, item1, id, entry, he, _, hid, _⟩ := put_ok_inv env c c1 item it remove h
  cases item with
  | obj kvs => exact ⟨kvs, rfl⟩
  | arr xs =>
      exfalso
      unfold _put at h
      simp only [_ensureIds] at h he
      rcases hr : ensureItems c._id xs with ⟨c2, r⟩
      rw [hr] at h he
      cases r with
      | error e => simp at h
      | ok ys => simp [Value.get, Value.isUndefined] at h
  | undef => exfalso; simp [_put, _ensureIds, Value.get, Value.isUndefined] at h
  | null => exfalso; simp [_put, _ensureIds, Value.get, Value.isUndefined] at h
  | bool _ => exfalso; simp [_put, _ensureIds, Value.get, Value.isUndefined] at h
  | num _ => exfalso; simp [_put, _ensureIds, Value.get, Value.isUndefined] at h
  | str _ => exfalso; simp [_put, _ensureIds, Value.get, Value.isUndefined] at h
  | date _ => exfalso; simp [_put, _ensureIds, Value.get, Value.isUndefined] at h
  | oid _ => exfalso; simp [_put, _ensureIds, Value.get, Value.isUndefined] at h
  | bin _ => exfalso; simp [_put, _ensureIds, Value.get, Value.isUndefined] at h

theorem put_log_uid (env : Env) (c : Collection) (item : Value) (remove : Bool) :
    (_put env c item remove).1._id = (_ensureIds c._id item).1 ∧
    ((_put env c item remove).1.log = c.log ∨
      ∃ e, (_put env c item remove).1.log = c.log ++ [e] ∧
        e.key._uid = (_put env c item remove).1._id) := by
  rcases hp : _put env c item remove with ⟨c1, o⟩
  cases o with
  | ok it =>
      obtain ⟨ctr, item1, id, entry, he, _, _, _, _, hctr, _, _, hlog, _, _, _, _, _, huid,
        _⟩ := put_ok_inv env c c1 item it remove hp
      refine ⟨by rw [he]; exact hctr, Or.inr ⟨entry, hlog, ?_⟩⟩
      rw [huid]; exact hctr.symm
  | failed e =>
      unfold _put at hp
      rcases hr : _ensureIds c._id item with ⟨ctr, r⟩
      rw [hr] at hp
      cases r with
      | error e1 => simp at hp
      | ok item1 =>
          simp only at hp
          split at hp
          · simp only [Prod.mk.injEq] at hp
            rw [← hp.1]
            exact ⟨rfl, Or.inl rfl⟩
          · split at hp
            · simp at hp
            · split at hp
              · simp at hp
              · split at hp <;> simp at hp
  | thrown e =>
      unfold _put at hp
      rcases hr : _ensureIds c._id item with ⟨ctr, r⟩
      rw [hr] at hp
      cases r with
      | error e1 =>
          simp only [Prod.mk.injEq] at hp
          rw [← hp.1]
          exact ⟨rfl, Or.inl rfl⟩
      | ok item1 =>
          simp only at hp
          split at hp
          · simp at hp
          · split at hp
            · simp only [Prod.mk.injEq] at hp
              rw [← hp.1]
              exact ⟨rfl, Or.inl rfl⟩
            · split at hp
              · simp only [Prod.mk.injEq] at hp
                rw [← hp.1]
                exact ⟨rfl, Or.inl rfl⟩
              · split at hp <;> simp at hp
  | crashed e =>
      unfold _put at hp
      rcases hr : _ensureIds c._id item with ⟨ctr, r⟩
      rw [hr] at hp
      cases r with
      | error e1 => simp at hp
      | ok item1 =>
          simp only at hp
          split at hp
          · simp at hp
          · split at hp
            · simp at hp
            · split at hp
              · simp at hp
              · split at hp
                · simp only [Prod.mk.injEq] at hp
                  rw [← hp.1]
                  exact ⟨rfl, Or.inl rfl⟩
                · simp at hp

theorem uidSorted_put (env : Env) (c : Collection) (item : Value) (remove : Bool)
    (hs : c.UidSorted) : (_put env c item remove).1.UidSorted := by
  obtain ⟨hid, hlog⟩ := put_log_uid env c item remove
  have hle : c._id ≤ (_put env c item remove).1._id := by
    rw [hid]; exact (ensureIds_counter c._id item).1
  rcases hlog with hl | ⟨e, hl, he⟩
  · refine ⟨by rw [hl]; exact hs.1, fun e1 h1 => ?_⟩
    rw [hl] at h1
    exact Nat.le_trans (hs.2 e1 h1) hle
  · refine ⟨?_, fun e1 h1 => ?_⟩
    · rw [hl, List.map_append, List.pairwise_append]
      refine ⟨hs.1, by simp, ?_⟩
      intro a ha b hb
      simp only [List.map_cons, List.map_nil, List.mem_singleton] at hb
      obtain ⟨e0, he0, rfl⟩ := List.mem_map.mp ha
      rw [hb, he]
      exact Nat.le_trans (hs.2 e0 he0) hle
    · rw [hl] at h1
      rcases List.mem_append.mp h1 with h2 | h2
      · exact Nat.le_trans (hs.2 e1 h2) hle
      · simp only [List.mem_singleton] at h2
        rw [h2, he]

/-- C19 (as amended): the sequence number `_uid` of log entries never decreases. For two
entries written by successive calls of `_put`, the `_uid` of the later is at least the `_uid`
of the earlier; it is greater exactly when the walk of `_ensureIds` over the later item comes
to an identifier that was still to be persisted, and the same otherwise, so in particular
when the later item holds no such identifier at all. And a log whose sequence numbers are in
order, none above the counter, stays so under every call of `_put`, whether it writes or
not. -/
theorem uid_monotone (env : Env) (c c1 c2 : Collection) (item1 it1 item2 it2 : Value)
    (r1 r2 : Bool) (h1 : _put env c item1 r1 = (c1, Outcome.ok it1))
    (h2 : _put env c1 item2 r2 = (c2, Outcome.ok it2)) :
    (∃ e1 e2, c1.log = c.log ++ [e1] ∧ c2.log = c1.log ++ [e2] ∧
      e1.key._uid ≤ e2.key._uid ∧
      (hasFreshId item2 = false → e2.key._uid = e1.key._uid) ∧
      (visitsFreshId item2 = false → e2.key._uid = e1.key._uid) ∧
      (visitsFreshId item2 = true → e1.key._uid < e2.key._uid)) ∧
    (c.UidSorted → c2.UidSorted) := by
  obtain ⟨ctr1, _, _, e1, _, _, _, _, _, hc1, _, _, hl1, _, _, _, _, _, hu1, _⟩ :=
    put_ok_inv env c c1 item1 it1 r1 h1
  obtain ⟨ctr2, w2, _, e2, he2, _, _, _, _, _, _, _, hl2, _, _, _, _, _, hu2, _⟩ :=
    put_ok_inv env c1 c2 item2 it2 r2 h2
  obtain ⟨kvs, hk⟩ := put_isDoc env c1 c2 item2 it2 r2 h2
  obtain ⟨m1, m2, m3⟩ := ensureIds_counter c1._id item2
  rw [he2] at m1 m2 m3
  simp only at m1 m2 m3
  refine ⟨⟨e1, e2, hl1, hl2, ?_, ?_, ?_, ?_⟩, fun hs => ?_⟩
  · rw [hu1, hu2, ← hc1]; exact m1
  · intro hf
    rw [hu1, hu2, ← hc1]; exact m2 kvs hk (visitsFreshId_of_none item2 hf)
  · intro hf
    rw [hu1, hu2, ← hc1]; exact m2 kvs hk hf
  · intro hf
    rw [hu1, hu2, ← hc1]; exact m3 kvs hk hf w2 rfl
  · have := uidSorted_put env c1 item2 r2 (by
      have := uidSorted_put env c item1 r1 hs
      rw [h1] at this
      exact this)
    rw [h2] at this
    exact this

/-- The conclusion of C19 (as amended) for the sample collection: a document with the
identifier 4, then a document with the identifier 5 that refers to a new identifier; the
second entry has the greater `_uid`. -/
theorem uid_monotone_witness :
    _put sampleEnv sampleColl (sampleItem 4 1 1) false =
      ((_put sampleEnv sampleColl (sampleItem 4 1 1) false).1,
        Outcome.ok (sampleItem 4 1 1)) ∧
    _put sampleEnv (_put sampleEnv sampleColl (sampleItem 4 1 1) false).1
        (Value.obj [("_id", Value.num 5), ("ref", Value.oid (-1))]) false =
      ((_put sampleEnv (_put sampleEnv sampleColl (sampleItem 4 1 1) false).1
          (Value.obj [("_id", Value.num 5), ("ref", Value.oid (-1))]) false).1,
        Outcome.ok (Value.obj [("_id", Value.num 5), ("ref", Value.oid 2)])) ∧
    (∃ e1 e2,
      (_put sampleEnv sampleColl (sampleItem 4 1 1) false).1.log = sampleColl.log ++ [e1] ∧
      (_put sampleEnv (_put sampleEnv sampleColl (sampleItem 4 1 1) false).1
          (Value.obj [("_id", Value.num 5), ("ref", Value.oid (-1))]) false).1.log =
        (_put sampleEnv sampleColl (sampleItem 4 1 1) false).1.log ++ [e2] ∧
      e1.key._uid ≤ e2.key._uid ∧
      (hasFreshId (Value.obj [("_id", Value.num 5), ("ref", Value.oid (-1))]) = false →
        e2.key._uid = e1.key._uid) ∧
      (visitsFreshId (Value.obj [("_id", Value.num 5), ("ref", Value.oid (-1))]) = false →
        e2.key._uid = e1.key._uid) ∧
      (visitsFreshId (Value.obj [("_id", Value.num 5), ("ref", Value.oid (-1))]) = true →
        e1.key._uid < e2.key._uid)) ∧
    (_put sampleEnv (_put sampleEnv sampleColl (sampleItem 4 1 1) false).1
        (Value.obj [("_id", Value.num 5), ("ref", Value.oid (-1))]) false).1.log.map
      (fun e => e.key._uid) = [1, 1, 1, 1, 2] :=
  ⟨rfl, rfl,
    (uid_monotone sampleEnv sampleColl _ _ (sampleItem 4 1 1) (sampleItem 4 1 1)
      (Value.obj [("_id", Value.num 5), ("ref", Value.oid (-1))])
      (Value.obj [("_id", Value.num 5), ("ref", Value.oid 2)]) false false rfl rfl).1,
    rfl⟩

/-- An identifier that the walk does not come to is not persisted and does not advance the
counter: the documents `{length: 0, _id: 5, ref: new ObjectID()}` and
`{length: 0, _id: new ObjectID()}` are walked like an array of no elements, so the entry of
each has the `_uid` of the entry before, and the identifier stays as it was. -/
theorem uid_array_like_same :
    hasFreshId sampleArrayLikeRef = true ∧
    visitsFreshId sampleArrayLikeRef = false ∧
    (_put sampleEnv (_put sampleEnv sampleColl (sampleItem 4 1 1) false).1
      sampleArrayLikeRef false).2 = Outcome.ok sampleArrayLikeRef ∧
    (_put sampleEnv (_put sampleEnv sampleColl (sampleItem 4 1 1) false).1
      sampleArrayLikeRef false).1.log.map (fun e => (e.key._id, e.key._uid)) =
      [(SKey.num 1, 1), (SKey.num 2, 1), (SKey.num 3, 1), (SKey.num 4, 1), (SKey.num 5, 1)] ∧
    hasFreshId sampleArrayLikeNew = true ∧
    visitsFreshId sampleArrayLikeNew = false ∧
    (_put sampleEnv (_put sampleEnv sampleColl (sampleItem 4 1 1) false).1
      sampleArrayLikeNew false).2 = Outcome.ok sampleArrayLikeNew ∧
    (_put sampleEnv (_put sampleEnv sampleColl (sampleItem 4 1 1) false).1
      sampleArrayLikeNew false).1.log.map (fun e => e.key._uid) = [1, 1, 1, 1, 1] :=
  ⟨by decide, by decide, rfl, rfl, by decide, by decide, rfl, rfl⟩

/-- C19 (as stated) fails: two successive calls of `_put` on the sample collection, for the
documents with the identifiers 4 and 5, write entries with the same `_uid`, the value 1 of
the counter, which only a newly generated identifier advances. -/
theorem uid_monotone_counterexample :
    (_put sampleEnv sampleColl (sampleItem 4 1 1) false).2 =
      Outcome.ok (sampleItem 4 1 1) ∧
    (_put sampleEnv (_put sampleEnv sampleColl (sampleItem 4 1 1) false).1
      (sampleItem 5 1 1) false).2 = Outcome.ok (sampleItem 5 1 1) ∧
    (_put sampleEnv (_put sampleEnv sampleColl (sampleItem 4 1 1) false).1
      (sampleItem 5 1 1) false).1.log.map (fun e => (e.key._id, e.key._uid)) =
      [(SKey.num 1, 1), (SKey.num 2, 1), (SKey.num 3, 1), (SKey.num 4, 1), (SKey.num 5, 1)] ∧
    ¬ ∀ e1 e2,
      (_put sampleEnv sampleColl (sampleItem 4 1 1) false).1.log = sampleColl.log ++ [e1] →
      (_put sampleEnv (_put sampleEnv sampleColl (sampleItem 4 1 1) false).1
        (sampleItem 5 1 1) false).1.log =
        (_put sampleEnv sampleColl (sampleItem 4 1 1) false).1.log ++ [e2] →
      e1.key._uid < e2.key._uid :=
  ⟨rfl, rfl, rfl, fun h => by
    have := h _ _ rfl rfl
    exact absurd this (by decide)⟩

/-! ### Identifiers as property names of the position map -/

theorem nat_toString_inj (m n : Nat) (h : toString m = toString n) : m = n := by
  have hm := (repr_spec m).1
  have hn := (repr_spec n).1
  rw [h] at hm
  rw [← hm, hn]

theorem int_toString_inj (a b : Int) (h : toString a = toString b) : a = b := by
  cases a with
  | ofNat m =>
      cases b with
      | ofNat n =>
          have : toString m = toString n := h
          rw [nat_toString_inj m n this]
      | negSucc n =>
          exfalso
          have hd : (toString m).data = '-' :: (toString (n + 1)).data :=
            congrArg String.data h
          have hmem : '-' ∈ (toString m).data := by rw [hd]; exact List.mem_cons_self _ _
          exact (repr_spec m).2.2.1 '-' hmem rfl
  | negSucc m =>
      cases b with
      | ofNat n =>
          exfalso
          have hd : '-' :: (toString (m + 1)).data = (toString n).data :=
            congrArg String.data h
          have hmem : '-' ∈ (toString n).data := by rw [← hd]; exact List.mem_cons_self _ _
          exact (repr_spec n).2.2.1 '-' hmem rfl
      | negSucc n =>
          have hd : '-' :: (toString (m + 1)).data = '-' :: (toString (n + 1)).data :=
            congrArg String.data h
          have h2 : (toString (m + 1)).data = (toString (n + 1)).data := (List.cons.inj hd).2
          have h3 : toString (m + 1) = toString (n + 1) := String.ext h2
          have h4 := nat_toString_inj (m + 1) (n + 1) h3
          have h5 : m = n := by omega
          rw [h5]

theorem isoString_inj (s t : Int) (h : isoString s = isoString t) : s = t := by
  unfold isoString at h
  have hd : "date:".data ++ (toString s).data = "date:".data ++ (toString t).data :=
    congrArg String.data h
  have h2 : (toString s).data = (toString t).data := List.append_cancel_left hd
  exact int_toString_inj s t (String.ext h2)

/-- C20 (as amended): `simplifyKey` keeps unequal identifiers of one kind apart as property
names of the position map: for two numbers, two strings, two dates or two generated
identifiers that are not equal, `simplifyKey` gives keys whose property names differ. -/
theorem simplifyKey_distinct (a b : Value) (hk : sameKind a b = true) (hne : a ≠ b) :
    ∃ ka kb, simplifyKey a = some ka ∧ simplifyKey b = some kb ∧
      ka.propName ≠ kb.propName := by
  cases a <;> cases b <;> simp only [sameKind, Bool.false_eq_true] at hk
  · rename_i m n
    refine ⟨SKey.num m, SKey.num n, rfl, rfl, fun h => hne ?_⟩
    rw [int_toString_inj m n h]
  · rename_i s t
    refine ⟨SKey.str s, SKey.str t, rfl, rfl, fun h => hne ?_⟩
    have : s = t := h
    rw [this]
  · rename_i s t
    refine ⟨SKey.str (isoString s), SKey.str (isoString t), rfl, rfl, fun h => hne ?_⟩
    rw [isoString_inj s t h]
  · rename_i m n
    refine ⟨SKey.num m, SKey.num n, rfl, rfl, fun h => hne ?_⟩
    rw [int_toString_inj m n h]

theorem simplifyKey_distinct_witness :
    sameKind (Value.num 1) (Value.num 10) = true ∧ Value.num 1 ≠ Value.num 10 ∧
    ∃ ka kb, simplifyKey (Value.num 1) = some ka ∧ simplifyKey (Value.num 10) = some kb ∧
      ka.propName ≠ kb.propName :=
  ⟨rfl, (fun h => by injection h with h1; omega),
    simplifyKey_distinct (Value.num 1) (Value.num 10) rfl
      (fun h => by injection h with h1; omega)⟩

/-- C20 (as stated) fails: the number 1 and the string `"1"` are different identifiers with
the same property name `1`. On the sample collection, which holds a document with the
identifier 1, `save` of a document with the identifier `"1"` finds the record of the other
document, reports an update, and moves the record to the new document. -/
theorem simplifyKey_distinct_counterexample :
    Value.num 1 ≠ Value.str "1" ∧
    (simplifyKey (Value.num 1)).map SKey.propName = some "1" ∧
    (simplifyKey (Value.str "1")).map SKey.propName = some "1" ∧
    sampleColl._store = [("1", 0), ("2", 10), ("3", 20)] ∧
    sampleColl._get 0 = Except.ok (sampleItem 1 5 1) ∧
    (save sampleEnv sampleColl sampleStringId).outcome = Outcome.ok SaveResult.updated ∧
    (save sampleEnv sampleColl sampleStringId).coll._store =
      [("1", 30), ("2", 10), ("3", 20)] ∧
    (save sampleEnv sampleColl sampleStringId).coll._get 30 = Except.ok sampleStringId :=
  ⟨(fun h => by cases h), by decide, rfl, rfl, rfl, rfl, rfl, rfl⟩

end Puny
